import Mathlib

/-!
# ring_queue: a bounded sorted queue over a pool allocator

Shallow embedding of `src/ring_queue.h`.

Memory model.  A pointer is a byte address (`Nat`), `0` is `nullptr`.  Every
field that the C++ code reaches through a pointer is a map from addresses to
values, and a store through a pointer is a point update of that map (`store`).
`Chunk::next` (the allocator's view of a slot) and `QueueNode::data/prev/next`
(the container's view) are separate maps: that `Chunk::next` shares its bytes with
the start of `data` is not modelled (the allocator reads `Chunk::next` only of
slots on its free list, the container writes `data` only of slots handed out to
it).  `calloc` is modelled as a bump allocator that never fails: the `k`-th block
obtained by an allocator starts at address `(k + 1) * 2 ^ 32`; the block is
`chunk_size_ * Num` bytes long, the product taken in `uint32_t`, and a store of
the chaining loop outside the block is a fault.

Machine integers.  `Size` is a `uint32_t` template argument (`Size < 2 ^ 32` is
part of `Reachable`), `Size + 2` and `chunk_size_ * Num` are computed modulo
`2 ^ 32`, the comparison `length_ > Size` is made in `uint32_t`.  The counter
`int length_` is an `Int`; in every reachable state it stays below `2 ^ 29`, so the
increment `length_++` never overflows.

Faults (undefined behaviour, or a loop that has not finished within its fuel)
are the `none` results of the `Option`-valued operations.
-/

namespace container

/-- The null pointer.  Pointers are byte addresses of type `Nat`. -/
def nullptr : Nat := 0

/-- Store `v` through pointer `p` into the field map `m`. -/
def store {α : Type} (m : Nat → α) (p : Nat) (v : α) : Nat → α :=
  fun a => if a = p then v else m a

/-! ## Allocator -/

/-- The constant `Allocator::MAXPOOLNUM`. -/
def MAXPOOLNUM : Nat := 10

/-- Size in bytes of a `Chunk` (one pointer, LP64). -/
def CHUNK_BYTES : Nat := 8

/-- State of an `Allocator<T, Num>`: its data members together with the
`Chunk::next` word of every slot. -/
structure Allocator where
  /-- Member `void *headers_[MAXPOOLNUM]`, indexed by pool number. -/
  headers_ : Nat → Nat
  /-- Member `int pool_num_`. -/
  pool_num_ : Nat
  /-- Member `uint32_t chunk_size_`. -/
  chunk_size_ : Nat
  /-- Member `Chunk *start_`. -/
  start_ : Nat
  /-- Member `Chunk *end_`. -/
  end_ : Nat
  /-- The word `((Chunk *)p)->next` for every address `p`. -/
  chunk_next : Nat → Nat

/-- Address returned by the `k`-th successful `calloc` of an allocator. -/
def callocAddr (k : Nat) : Nat := (k + 1) * 2 ^ 32

/-- The chaining loop of `InitOnePool`:
`for (int i = 1;; ++i) { cur = next; next += chunk_size_; if (i == Num) { cur->next = nullptr; break; } else cur->next = next; }`.
`blockEnd` is the first address past the block obtained from `calloc`.  Returns
the new `Chunk::next` map and the final `cur`. -/
def chainLoop (cs Num blockEnd : Nat) :
    Nat → Nat → Nat → (Nat → Nat) → Option ((Nat → Nat) × Nat)
  | 0, _, _, _ => none
  | fuel + 1, i, next, m =>
    let cur := next
    let next := next + cs
    if blockEnd < cur + CHUNK_BYTES then none
    else if i = Num then some (store m cur nullptr, cur)
    else chainLoop cs Num blockEnd fuel (i + 1) next (store m cur next)

/-- The method `Allocator::InitOnePool`.  The second component is the returned `int`.
The chaining loop leaves at `i == Num`, that is within `Num` rounds, unless it
faults before (`chainLoop_total`, `chainLoop_outside`); for `Num = 0` the block is
empty and the first store is already outside of it. -/
def InitOnePool (Num : Nat) (a : Allocator) : Option (Allocator × Int) :=
  if a.pool_num_ ≥ MAXPOOLNUM then some (a, -1)
  else
    let bytes := (a.chunk_size_ * Num) % 2 ^ 32
    let mem := callocAddr a.pool_num_
    match chainLoop a.chunk_size_ Num (mem + bytes) Num 1 mem a.chunk_next with
    | none => none
    | some (m, cur) =>
      some ({ a with
                chunk_next := m
                start_ := mem
                end_ := cur
                headers_ := store a.headers_ a.pool_num_ mem
                pool_num_ := a.pool_num_ + 1 }, 0)

/-- The constructor `Allocator()`; `sizeofT` is `sizeof(T)`.
`(sizeof(T) + 7) & (~7)` clears the low three bits and is then narrowed to `uint32_t`. -/
def Allocator.new (sizeofT Num : Nat) : Option Allocator :=
  let a : Allocator :=
    { headers_ := fun _ => nullptr
      pool_num_ := 0
      chunk_size_ := ((sizeofT + 7) / 8 * 8) % 2 ^ 32
      start_ := nullptr
      end_ := nullptr
      chunk_next := fun _ => nullptr }
  (InitOnePool Num a).map Prod.fst

/-- The method `Allocator::GetNode`; the first component is the returned pointer. -/
def GetNode (Num : Nat) (a : Allocator) : Option (Nat × Allocator) :=
  if a.start_ = a.end_ then
    let res := a.start_
    match InitOnePool Num a with
    | none => none
    | some (a1, rc) => if rc ≠ 0 then some (nullptr, a1) else some (res, a1)
  else
    let res := a.start_
    some (res, { a with start_ := a.chunk_next a.start_ })

/-- The method `Allocator::PutNode`. -/
def PutNode (a : Allocator) (chunk : Nat) : Allocator :=
  { a with chunk_next := store a.chunk_next a.end_ chunk, end_ := chunk }

/-! ## RingQueue -/

/-- State of a `RingQueue<T, Size, Compare>`: its data members together with the
fields of every `QueueNode<T>`.  `data p = none` means that no element is
constructed in the storage of the node at `p`. -/
structure RingQueue (T : Type) where
  /-- Member `Allocator<Node, Size + 2> alloc_`. -/
  alloc_ : Allocator
  /-- Member `Node *dummy_`. -/
  dummy_ : Nat
  /-- Member `int length_`. -/
  length_ : Int
  /-- The element constructed in `p->data`, if any. -/
  data : Nat → Option T
  /-- The field `p->prev`. -/
  prev : Nat → Nat
  /-- The field `p->next`. -/
  next : Nat → Nat
  /-- Ghost history: the nodes on which `_destroy` has run, most recent first. -/
  destroyed : List Nat

/-- The template argument `Size + 2` of `alloc_`, computed in `uint32_t`. -/
def allocNum (Size : Nat) : Nat := (Size + 2) % 2 ^ 32

namespace RingQueue

variable {T : Type}

/-- The helper `RingQueue::_construct`: placement-new of `value` into `p->data`. -/
def _construct (q : RingQueue T) (p : Nat) (value : T) : RingQueue T :=
  { q with data := store q.data p (some value) }

/-- The helper `RingQueue::_destroy`: runs the destructor on `p->data`. -/
def _destroy (q : RingQueue T) (p : Nat) : RingQueue T :=
  { q with data := store q.data p none, destroyed := p :: q.destroyed }

/-- The constructor `RingQueue()`: constructs `alloc_`, then runs `Init()`.
`sizeofNode` is `sizeof(QueueNode<T>)`. -/
def Init (sizeofNode Size : Nat) : Option (RingQueue T) :=
  match Allocator.new sizeofNode (allocNum Size) with
  | none => none
  | some a0 =>
    match GetNode (allocNum Size) a0 with
    | none => none
    | some (d, a1) =>
      if d = nullptr then none
      else
        some { alloc_ := a1
               dummy_ := d
               length_ := 0
               data := fun _ => none
               prev := store (fun _ => nullptr) d d
               next := store (fun _ => nullptr) d d
               destroyed := [] }

/-- The method `empty()`. -/
def empty (q : RingQueue T) : Bool := q.next q.dummy_ == q.dummy_

/-- The method `size()`: `length_` converted to `uint32_t`. -/
def size (q : RingQueue T) : Nat := (q.length_ % 2 ^ 32).toNat

/-- The method `begin()`: the node the iterator points at. -/
def begin (q : RingQueue T) : Nat := q.next q.dummy_

/-- The method `end()`: the node the iterator points at. -/
def end_ (q : RingQueue T) : Nat := q.dummy_

/-- The method `front()`; `none` when no element is constructed in the first node. -/
def front (q : RingQueue T) : Option T := q.data (q.next q.dummy_)

/-- The block repeated in `push`, `emplace` and `pop` that deletes the head node. -/
def deleteHead (q : RingQueue T) : RingQueue T :=
  let head := q.next q.dummy_
  let q := q._destroy head
  let q := { q with next := store q.next q.dummy_ (q.next head) }
  let q := { q with prev := store q.prev (q.next head) q.dummy_ }
  let q := { q with length_ := q.length_ - 1 }
  { q with alloc_ := PutNode q.alloc_ head }

/-- The scan loop of `push` and `emplace`:
`for (node = dummy_->prev; node != dummy_; node = node->prev) if (value_compare_(*(T *)node->data, value)) break;`
started at `node`.  Faults when it reads an element that is not constructed. -/
def scan (value_compare_ : T → T → Bool) (value : T) (q : RingQueue T) : Nat → Nat → Option Nat
  | 0, _ => none
  | fuel + 1, node =>
    if node = q.dummy_ then some node
    else
      match q.data node with
      | none => none
      | some x =>
        if value_compare_ x value then some node
        else scan value_compare_ value q fuel (q.prev node)

/-- The four link stores and the counter increment shared by `push` and `emplace`:
`node->next->prev = new_node; new_node->next = node->next; new_node->prev = node;
node->next = new_node; length_++`. -/
def link (q : RingQueue T) (node new_node : Nat) : RingQueue T :=
  let q := { q with prev := store q.prev (q.next node) new_node }
  let q := { q with next := store q.next new_node (q.next node) }
  let q := { q with prev := store q.prev new_node node }
  let q := { q with next := store q.next node new_node }
  { q with length_ := q.length_ + 1 }

/-- The tail shared by `push` and `emplace`: link `new_node` behind `node`, then
`if (length_ > Size)` delete the head node; the comparison is made in `uint32_t`. -/
def linkAfter (Size : Nat) (q : RingQueue T) (node new_node : Nat) : RingQueue T :=
  let q := q.link node new_node
  if (Size : Int) < q.length_ % 2 ^ 32 then q.deleteHead else q

/-- The method `push(value)`.  Faults when `GetNode` returns `nullptr`. -/
def push (value_compare_ : T → T → Bool) (Size : Nat) (fuel : Nat) (value : T)
    (q : RingQueue T) : Option (RingQueue T) :=
  match scan value_compare_ value q fuel (q.prev q.dummy_) with
  | none => none
  | some node =>
    match GetNode (allocNum Size) q.alloc_ with
    | none => none
    | some (new_node, a) =>
      if new_node = nullptr then none
      else
        let q := { q with alloc_ := a }
        let q := q._construct new_node value
        some (linkAfter Size q node new_node)

/-- The method `emplace(args...)`; `value` is the element `T(args...)`.
Faults when `GetNode` returns `nullptr`. -/
def emplace (value_compare_ : T → T → Bool) (Size : Nat) (fuel : Nat) (value : T)
    (q : RingQueue T) : Option (RingQueue T) :=
  match GetNode (allocNum Size) q.alloc_ with
  | none => none
  | some (new_node, a) =>
    if new_node = nullptr then none
    else
      let q := { q with alloc_ := a }
      let q := q._construct new_node value
      match q.data new_node with
      | none => none
      | some v =>
        match scan value_compare_ v q fuel (q.prev q.dummy_) with
        | none => none
        | some node => some (linkAfter Size q node new_node)

/-- The method `pop()`. -/
def pop (q : RingQueue T) : RingQueue T :=
  if q.length_ > 0 then q.deleteHead else q

/-- The method `erase(position)`; the second component is the returned iterator. -/
def erase (q : RingQueue T) (position : Nat) : RingQueue T × Nat :=
  let next := q.next position
  if q.length_ > 0 then
    let q1 := { q with prev := store q.prev (q.next position) (q.prev position) }
    let q2 := { q1 with next := store q1.next (q1.prev position) (q1.next position) }
    let q3 := { q2 with length_ := q2.length_ - 1 }
    let q4 := q3._destroy position
    ({ q4 with alloc_ := PutNode q4.alloc_ position }, next)
  else (q, next)

/-- The loop of `clear()`:
`for (tmp = dummy_->next; tmp != dummy_; tmp = tmp->next) { _destroy(tmp->data); alloc_.PutNode(tmp); }`
started at `tmp`. -/
def clearLoop : Nat → Nat → RingQueue T → Option (RingQueue T)
  | 0, _, _ => none
  | fuel + 1, tmp, q =>
    if tmp = q.dummy_ then some q
    else
      let q := q._destroy tmp
      let q := { q with alloc_ := PutNode q.alloc_ tmp }
      clearLoop fuel (q.next tmp) q

/-- The method `clear()`. -/
def clear (fuel : Nat) (q : RingQueue T) : Option (RingQueue T) :=
  match clearLoop fuel (q.next q.dummy_) q with
  | none => none
  | some q =>
    let q := { q with next := store q.next q.dummy_ q.dummy_ }
    let q := { q with prev := store q.prev q.dummy_ q.dummy_ }
    some { q with length_ := 0 }

/-- Front-to-back iteration `for (it = begin(); it != end(); ++it)` started at
node `p`, collecting the visited nodes. -/
def walk (q : RingQueue T) : Nat → Nat → Option (List Nat)
  | 0, _ => none
  | fuel + 1, p =>
    if p = q.dummy_ then some []
    else (walk q fuel (q.next p)).map (fun l => p :: l)

/-- Dereference every iterator of a list: `*it` reads the element constructed in the node. -/
def derefAll (q : RingQueue T) : List Nat → Option (List T)
  | [] => some []
  | p :: ps =>
    match q.data p, derefAll q ps with
    | some x, some xs => some (x :: xs)
    | _, _ => none

/-- The sequence of elements read by iterating from `begin()` to `end()`. -/
def toList (fuel : Nat) (q : RingQueue T) : Option (List T) :=
  match walk q fuel q.begin with
  | none => none
  | some ps => derefAll q ps

end RingQueue

/-! ## The sequence of stored elements, described on lists -/

/-- Insertion into a list that is read from its last element backwards: the new
value goes right behind the first element that the comparator orders before it. -/
def insertRev {T : Type} (value_compare_ : T → T → Bool) (v : T) : List T → List T
  | [] => [v]
  | y :: ys => if value_compare_ y v then v :: y :: ys else y :: insertRev value_compare_ v ys

/-- The stored sequence after the scan-and-link part of `push`: scanning from the
tail, `v` is placed right behind the first element ordered before it. -/
def insertFromTail {T : Type} (value_compare_ : T → T → Bool) (v : T) (xs : List T) : List T :=
  (insertRev value_compare_ v xs.reverse).reverse

/-- The stored sequence after `push(v)`: insert from the tail, then drop the first
element when more than `Size` elements are stored. -/
def pushList {T : Type} (value_compare_ : T → T → Bool) (Size : Nat) (v : T) (xs : List T) :
    List T :=
  let ys := insertFromTail value_compare_ v xs
  if Size < ys.length then ys.tail else ys

/-! ## Predicates used to describe the heap -/

/-- The predicate `Chain f a xs b`: following `f` from `a` visits exactly `xs` and then
reaches `b`. -/
def Chain (f : Nat → Nat) : Nat → List Nat → Nat → Prop
  | a, [], b => f a = b
  | a, x :: xs, b => f a = x ∧ Chain f x xs b

/-- The predicate `Path f a xs b`: following `f` from `a` visits exactly `xs`, the last
node visited being `b`;
nothing is said about `f b`. -/
def Path (f : Nat → Nat) : Nat → List Nat → Nat → Prop
  | a, [], b => a = b
  | a, x :: xs, b => f a = x ∧ Path f x xs b

/-- The `n` slots of a pool that starts at `base`, one chunk apart. -/
def slots (cs : Nat) : Nat → Nat → List Nat
  | 0, _ => []
  | n + 1, base => base :: slots cs n (base + cs)

/-- The free list of allocator `a` is `F`: it starts at `start_`, follows
`Chunk::next`, and its last slot is `end_`. -/
def FreeList (a : Allocator) (F : List Nat) : Prop :=
  ∃ R, F = a.start_ :: R ∧ Path a.chunk_next a.start_ R a.end_

/-- The predicate `DChain next prev a xs b`: the nodes `a, xs, b` are linked in this order, each
`next` pointing one step forward and each `prev` one step back. -/
def DChain (next prev : Nat → Nat) : Nat → List Nat → Nat → Prop
  | a, [], b => next a = b ∧ prev b = a
  | a, x :: xs, b => next a = x ∧ prev x = a ∧ DChain next prev x xs b

namespace RingQueue

variable {T : Type}

/-- Representation invariant.  `L` lists the live nodes from front to back, `F` is
the allocator's free list, `H` lists the slots that were handed out by `GetNode` and
are not linked yet, and `xs` lists the elements stored in the live nodes. -/
structure Inv (sizeofNode Size : Nat) (q : RingQueue T) (L F H : List Nat) (xs : List T) :
    Prop where
  ring : DChain q.next q.prev q.dummy_ L q.dummy_
  nodup : (q.dummy_ :: (L ++ (F ++ H))).Nodup
  len : q.length_ = (L.length : Int)
  vals : L.map q.data = xs.map some
  raw : ∀ p, p ∉ L → p ∉ H → q.data p = none
  free : FreeList q.alloc_ F
  range : ∀ p ∈ q.dummy_ :: (L ++ (F ++ H)), p ≠ nullptr ∧ p < callocAddr q.alloc_.pool_num_
  count : q.alloc_.pool_num_ * allocNum Size = F.length + L.length + 1 + H.length
  chunk : q.alloc_.chunk_size_ = ((sizeofNode + 7) / 8 * 8) % 2 ^ 32
  fit : CHUNK_BYTES ≤ q.alloc_.chunk_size_ ∧ q.alloc_.chunk_size_ * allocNum Size < 2 ^ 32
  pools : q.alloc_.pool_num_ ≤ MAXPOOLNUM
  few : Size + 2 < 2 ^ 32 → q.alloc_.pool_num_ ≤ 2

/-- The invariant between two calls: nothing is held outside the ring and the free
list, and at most `Size` nodes are live. -/
structure Good (sizeofNode Size : Nat) (q : RingQueue T) (L F : List Nat) (xs : List T) :
    Prop where
  inv : Inv sizeofNode Size q L F [] xs
  cap : L.length ≤ Size

end RingQueue

/-- The configuration fits the 32-bit computations of the allocator:
`sizeof(QueueNode<T>)` is positive and `chunk_size_ * (Size + 2)` does not overflow `uint32_t`. -/
def Fits (sizeofNode Size : Nat) : Prop :=
  0 < sizeofNode ∧ (sizeofNode + 7) / 8 * 8 * (Size + 2) < 2 ^ 32

/-- The comparator is a strict weak ordering: irreflexive, transitive, and with a
transitive incomparability relation. -/
structure StrictWeakOrder {T : Type} (lt : T → T → Bool) : Prop where
  irrefl : ∀ a, lt a a = false
  trans : ∀ a b c, lt a b = true → lt b c = true → lt a c = true
  incomp_trans : ∀ a b c, lt a b = false → lt b a = false → lt b c = false → lt c b = false →
    lt a c = false ∧ lt c a = false

/-- The sequence `xs` is sorted ascending: no element is ordered strictly before an
element that precedes it. -/
def Ascending {T : Type} (lt : T → T → Bool) (xs : List T) : Prop :=
  xs.Pairwise (fun a b => lt b a = false)

namespace RingQueue

/-- The iterator `p` refers to a live element: front-to-back iteration from `begin()`
visits `p` before it reaches `end()`. -/
def Live {T : Type} (q : RingQueue T) (p : Nat) : Prop :=
  ∃ fuel ps, q.walk fuel q.begin = some ps ∧ p ∈ ps

/-- The states of a `RingQueue<T, Size, Compare>` that the public interface can
produce: construction (`Size` is a `uint32_t`) followed by calls of `push`,
`emplace`, `pop`, `erase` on a live element, and `clear` that return. -/
inductive Reachable {T : Type} (sizeofNode Size : Nat) (lt : T → T → Bool) :
    RingQueue T → Prop
  | init {q : RingQueue T} : Size < 2 ^ 32 → Init sizeofNode Size = some q →
      Reachable sizeofNode Size lt q
  | push {q q1 : RingQueue T} (fuel : Nat) (v : T) : Reachable sizeofNode Size lt q →
      q.push lt Size fuel v = some q1 → Reachable sizeofNode Size lt q1
  | emplace {q q1 : RingQueue T} (fuel : Nat) (v : T) : Reachable sizeofNode Size lt q →
      q.emplace lt Size fuel v = some q1 → Reachable sizeofNode Size lt q1
  | pop {q : RingQueue T} : Reachable sizeofNode Size lt q → Reachable sizeofNode Size lt q.pop
  | erase {q : RingQueue T} (p : Nat) : Reachable sizeofNode Size lt q → q.Live p →
      Reachable sizeofNode Size lt (q.erase p).1
  | clear {q q1 : RingQueue T} (fuel : Nat) : Reachable sizeofNode Size lt q →
      q.clear fuel = some q1 → Reachable sizeofNode Size lt q1

end RingQueue

/-- A sequence of `push` calls, in list order. -/
def pushAll {T : Type} (value_compare_ : T → T → Bool) (Size fuel : Nat) :
    List T → RingQueue T → Option (RingQueue T)
  | [], q => some q
  | v :: vs, q =>
    match q.push value_compare_ Size fuel v with
    | none => none
    | some q1 => pushAll value_compare_ Size fuel vs q1

/-- The test scenario "construct a queue, push `vs` in order, iterate from `begin()`
to `end()`": the sequence read by the iteration. -/
def pushedContents {T : Type} (sizeofNode Size : Nat) (value_compare_ : T → T → Bool)
    (fuel : Nat) (vs : List T) : Option (List T) :=
  match (RingQueue.Init sizeofNode Size : Option (RingQueue T)) with
  | none => none
  | some q0 =>
    match pushAll value_compare_ Size fuel vs q0 with
    | none => none
    | some q => q.toList fuel

/-- The default comparator `std::less<T>` on a linearly ordered type. -/
def less {T : Type} [LinearOrder T] : T → T → Bool := fun a b => decide (a < b)

/-- A sequence of `emplace` calls, in list order. -/
def emplaceAll {T : Type} (value_compare_ : T → T → Bool) (Size fuel : Nat) :
    List T → RingQueue T → Option (RingQueue T)
  | [], q => some q
  | v :: vs, q =>
    match q.emplace value_compare_ Size fuel v with
    | none => none
    | some q1 => emplaceAll value_compare_ Size fuel vs q1

/-- The `RingQueue<int>` of the test `type_int` after `push(2); push(3); push(1)`
(`sizeof(QueueNode<int>)` is 24, the default capacity is 10). -/
def demoQueue : Option (RingQueue Int) :=
  (RingQueue.Init 24 10).bind (pushAll less 10 11 [2, 3, 1])

/-- The state held by `demoQueue`. -/
def demoState : RingQueue Int := demoQueue.get (by decide)

/-- The stored sequence after pushing `vs` in order onto the stored sequence `xs`. -/
def pushListAll {T : Type} (value_compare_ : T → T → Bool) (Size : Nat) (vs : List T)
    (xs : List T) : List T :=
  vs.foldl (fun acc v => pushList value_compare_ Size v acc) xs

/-- A freshly constructed `RingQueue<int>`. -/
def demoFresh : RingQueue Int := (RingQueue.Init 24 10).get (by decide)

/-- The queue of the test `clear` before the call of `clear()`: after
`emplace(2); emplace(5); emplace(8)` (with `int` elements). -/
def demoEmplaced : RingQueue Int :=
  ((RingQueue.Init 24 10).bind (emplaceAll less 10 11 [2, 5, 8])).get (by decide)

/-- A full `RingQueue<int, 2>` holding `5, 8`. -/
def demoFull : RingQueue Int :=
  ((RingQueue.Init 24 2).bind (pushAll less 2 3 [5, 8])).get (by decide)

/-! ## Scenarios on the allocator alone -/

/-- A run of `n` calls of `GetNode` without any release in between: the returned
pointers in call order, and the final state. -/
def GetNodes (Num : Nat) : Nat → Allocator → Option (List Nat × Allocator)
  | 0, a => some ([], a)
  | n + 1, a =>
    match GetNode Num a with
    | none => none
    | some (p, a1) =>
      match GetNodes Num n a1 with
      | none => none
      | some (ps, a2) => some (p :: ps, a2)

/-- The slots of `n` consecutive pools, the first one being pool number `k`, in
address order. -/
def poolsSlots (cs Num : Nat) : Nat → Nat → List Nat
  | 0, _ => []
  | n + 1, k => slots cs Num (callocAddr k) ++ poolsSlots cs Num n (k + 1)

/-- The states of an `Allocator<T, Num>` that a client can produce, together with the
slots that are handed out to it: construction, calls of `GetNode` (a null result
hands out nothing), and calls of `PutNode` on a slot that is handed out and has not
been released since. -/
inductive AllocReach (sizeofT Num : Nat) : Allocator → List Nat → Prop
  | new {a : Allocator} : Allocator.new sizeofT Num = some a → AllocReach sizeofT Num a []
  | get {a a1 : Allocator} {H : List Nat} {p : Nat} : AllocReach sizeofT Num a H →
      GetNode Num a = some (p, a1) → p ≠ nullptr → AllocReach sizeofT Num a1 (p :: H)
  | getNull {a a1 : Allocator} {H : List Nat} : AllocReach sizeofT Num a H →
      GetNode Num a = some (nullptr, a1) → AllocReach sizeofT Num a1 H
  | put {a : Allocator} {H : List Nat} {p : Nat} : AllocReach sizeofT Num a H → p ∈ H →
      AllocReach sizeofT Num (PutNode a p) (H.erase p)

/-- Invariant of the allocator: `F` is the free list, `H` the slots handed out. -/
structure AllocInv (sizeofT Num : Nat) (a : Allocator) (F H : List Nat) : Prop where
  free : FreeList a F
  nodup : (F ++ H).Nodup
  range : ∀ p ∈ F ++ H, p ≠ nullptr ∧ p < callocAddr a.pool_num_
  chunk : a.chunk_size_ = ((sizeofT + 7) / 8 * 8) % 2 ^ 32
  fit : CHUNK_BYTES ≤ a.chunk_size_ ∧ a.chunk_size_ * Num < 2 ^ 32 ∧ 1 ≤ Num
  pools : 1 ≤ a.pool_num_ ∧ a.pool_num_ ≤ MAXPOOLNUM
  count : a.pool_num_ * Num = F.length + H.length

/-- The scenario "construct an `Allocator<T, Num>`, then call `GetNode` `n` times": the
returned pointers in call order, and the final state. -/
def freshGets (sizeofT Num n : Nat) : Option (List Nat × Allocator) :=
  (Allocator.new sizeofT Num).bind (GetNodes Num n)

/-- The fixture `container::Allocator<Base, 5> alloc` of the allocator tests, freshly
constructed (`sizeof(Base)` is 16). -/
def demoAlloc : Allocator := (Allocator.new 16 5).get (by decide)

/-- The fixture `container::Allocator<Base, 5> alloc` of the allocator tests after
`p1, p2, p3 = GetNode()` as in the test `GetNodeFunc` (`sizeof(Base)` is 16): the three
pointers, and the state. -/
def demoAlloc3 : List Nat × Allocator := (freshGets 16 5 3).get (by decide)

/-- The same fixture after four calls of `GetNode`: one slot of the first pool is left. -/
def demoAlloc4 : List Nat × Allocator := (freshGets 16 5 4).get (by decide)

/-- An `Allocator<Base, 1>` after nine calls of `GetNode`: it owns ten pools of one slot. -/
def demoAllocTen : List Nat × Allocator := (freshGets 16 1 9).get (by decide)

/-! ## Iterators, and scenarios with the test class `Base` -/

/-- The operator `Iterator::operator++` (`node_ = node_->next`): the node an iterator
at `node_` moves to. -/
def Iterator.inc {T : Type} (q : RingQueue T) (node_ : Nat) : Nat := q.next node_

/-- The operator `Iterator::operator--` (`node_ = node_->prev`): the node an iterator
at `node_` moves to. -/
def Iterator.dec {T : Type} (q : RingQueue T) (node_ : Nat) : Nat := q.prev node_

/-- Back-to-front iteration of a client, `it = end(); --it; while (it != end()) { ...; --it; }`,
started at the node `p` reached by the first decrement, collecting the visited nodes. -/
def RingQueue.walkBack {T : Type} (q : RingQueue T) : Nat → Nat → Option (List Nat)
  | 0, _ => none
  | fuel + 1, p =>
    if p = q.dummy_ then some []
    else (RingQueue.walkBack q fuel (Iterator.dec q p)).map (fun l => p :: l)

/-- The class `Base` of the tests: the key `index_` and the text that `str_` points to. -/
structure Base where
  /-- Member `int index_`. -/
  index_ : Int
  /-- The characters of the C string that member `char *str_` points to. -/
  str_ : String
deriving DecidableEq

/-- The comparison `operator<(const Base &x, const Base &y)` of the tests. -/
def Base.lt (x y : Base) : Bool := decide (x.index_ < y.index_)

/-- The `RingQueue<Base>` of the test `push_pop` after `emplace(3); emplace(2, "two")`;
the constructor `Base(int index = 0, const char *p = "nullptr")` fills in the text
`"nullptr"` for `emplace(3)` (`sizeof(QueueNode<Base>)` is 32). -/
def demoBase : RingQueue Base :=
  ((RingQueue.Init 32 10).bind (emplaceAll Base.lt 10 11 [⟨3, "nullptr"⟩, ⟨2, "two"⟩])).get
    (by decide)

/-- A `RingQueue<Base>` after `push(Base(1, "a"))`. -/
def demoTie : RingQueue Base :=
  ((RingQueue.Init 32 10).bind (pushAll Base.lt 10 11 [⟨1, "a"⟩])).get (by decide)

/-- A full `RingQueue<Base, 2>` holding `Base(1, "a")` and `Base(2, "b")`. -/
def demoBaseFull : RingQueue Base :=
  ((RingQueue.Init 32 2).bind (pushAll Base.lt 2 3 [⟨1, "a"⟩, ⟨2, "b"⟩])).get (by decide)

/-- A `RingQueue<int, 4294967295>` after eight calls of `push`. -/
def demoWrapped : RingQueue Int :=
  ((RingQueue.Init 24 4294967295).bind
    (pushAll less 4294967295 9 [1, 2, 3, 4, 5, 6, 7, 8])).get (by decide)

/-! ## Theorems -/

/-! ## Stores and linked paths -/

theorem store_same {α : Type} (m : Nat → α) (p : Nat) (v : α) : store m p v p = v := by
  simp [store]

theorem store_other {α : Type} (m : Nat → α) {p a : Nat} (v : α) (h : a ≠ p) :
    store m p v a = m a := by
  simp [store, h]

theorem chain_append (f : Nat → Nat) (xs : List Nat) (y : Nat) (ys : List Nat) (a b : Nat) :
    Chain f a (xs ++ y :: ys) b ↔ Chain f a xs y ∧ Chain f y ys b := by
  induction xs generalizing a with
  | nil => simp [Chain]
  | cons x xs ih => simp [Chain, ih, and_assoc]

theorem chain_snoc (f : Nat → Nat) (xs : List Nat) (y a b : Nat) :
    Chain f a (xs ++ [y]) b ↔ Chain f a xs y ∧ f y = b := by
  rw [chain_append]; simp [Chain]

theorem chain_frame (f : Nat → Nat) (p v : Nat) (xs : List Nat) (a b : Nat)
    (h : p ∉ a :: xs) : Chain (store f p v) a xs b ↔ Chain f a xs b := by
  induction xs generalizing a with
  | nil =>
    have : a ≠ p := fun e => h (by simp [e])
    simp [Chain, store_other, this]
  | cons x xs ih =>
    have ha : a ≠ p := fun e => h (by simp [e])
    have hx : p ∉ x :: xs := fun e => h (List.mem_cons_of_mem _ e)
    simp [Chain, store_other, ha, ih x hx]

theorem path_last_mem (f : Nat → Nat) (xs : List Nat) (a b : Nat) (h : Path f a xs b) :
    b ∈ a :: xs := by
  induction xs generalizing a with
  | nil => simp [Path] at h; simp [h]
  | cons x xs ih => exact List.mem_cons_of_mem _ (ih x h.2)

theorem path_last (f : Nat → Nat) (xs : List Nat) (a b : Nat) (h : Path f a xs b) :
    (a :: xs).getLast? = some b := by
  induction xs generalizing a with
  | nil => simp [Path] at h; simp [h]
  | cons x xs ih =>
    have := ih x h.2
    simpa [List.getLast?_cons_cons] using this

theorem path_frame (f : Nat → Nat) (p v : Nat) (xs : List Nat) (a b : Nat)
    (h : p ∉ a :: xs) : Path (store f p v) a xs b ↔ Path f a xs b := by
  induction xs generalizing a with
  | nil => simp [Path]
  | cons x xs ih =>
    have ha : a ≠ p := fun e => h (by simp [e])
    have hx : p ∉ x :: xs := fun e => h (List.mem_cons_of_mem _ e)
    simp [Path, store_other, ha, ih x hx]

/-- Appending `c` behind the last node `e` of a duplicate-free path. -/
theorem path_snoc (f : Nat → Nat) (c : Nat) (xs : List Nat) (a e : Nat)
    (h : Path f a xs e) (nd : (a :: xs).Nodup) :
    Path (store f e c) a (xs ++ [c]) c := by
  induction xs generalizing a with
  | nil =>
    simp [Path] at h
    subst h
    simp [Path, store_same]
  | cons x xs ih =>
    obtain ⟨h1, h2⟩ := h
    have hmem : e ∈ x :: xs := path_last_mem f xs x e h2
    have hae : a ≠ e := by
      intro e1
      subst e1
      exact (List.nodup_cons.1 nd).1 hmem
    refine ⟨?_, ih x h2 (List.nodup_cons.1 nd).2⟩
    rw [store_other _ _ hae]; exact h1

/-! ## The pool allocator -/

theorem slots_length (cs n : Nat) (base : Nat) : (slots cs n base).length = n := by
  induction n generalizing base with
  | zero => rfl
  | succ n ih => simp [slots, ih]

theorem mem_slots {cs n : Nat} {base p : Nat} (h : p ∈ slots cs n base) :
    base ≤ p ∧ p + cs ≤ base + n * cs := by
  induction n generalizing base with
  | zero => simp [slots] at h
  | succ n ih =>
    simp only [slots, List.mem_cons] at h
    rcases h with h | h
    · subst h
      constructor
      · exact Nat.le_refl _
      · have : cs ≤ (n + 1) * cs := Nat.le_mul_of_pos_left cs (Nat.succ_pos n)
        omega
    · have := ih h
      have e : (n + 1) * cs = n * cs + cs := Nat.succ_mul n cs
      omega

theorem slots_nodup {cs : Nat} (hcs : 0 < cs) (n : Nat) (base : Nat) :
    (slots cs n base).Nodup := by
  induction n generalizing base with
  | zero => simp [slots]
  | succ n ih =>
    simp only [slots, List.nodup_cons]
    refine ⟨fun h => ?_, ih _⟩
    have := (mem_slots h).1
    omega

/-- What a successful run of the chaining loop has done: it has linked the
remaining `Num + 1 - i` slots from `next` on, stayed inside the block, and left
every other word alone. -/
theorem chainLoop_spec {cs Num blockEnd : Nat} (hcs : 0 < cs) :
    ∀ (fuel i : Nat) (next : Nat) (m m1 : Nat → Nat) (cur : Nat),
      chainLoop cs Num blockEnd fuel i next m = some (m1, cur) →
      i ≤ Num →
      Path m1 next (slots cs (Num - i) (next + cs)) cur ∧
      cur + cs = next + (Num + 1 - i) * cs ∧
      cur + CHUNK_BYTES ≤ blockEnd ∧
      (∀ p, p ∉ slots cs (Num + 1 - i) next → m1 p = m p) := by
  intro fuel
  induction fuel with
  | zero => intro i next m m1 cur h; simp [chainLoop] at h
  | succ fuel ih =>
    intro i next m m1 cur h hi
    simp only [chainLoop] at h
    split at h
    · exact absurd h (by simp)
    · rename_i hb
      split at h
      · rename_i hiN
        subst hiN
        simp only [Option.some.injEq, Prod.mk.injEq] at h
        obtain ⟨h1, h2⟩ := h
        subst h1 h2
        refine ⟨by simp [slots, Path], by simp, by omega, ?_⟩
        intro p hp
        have : p ≠ next := by
          intro e; apply hp; subst e
          have : i + 1 - i = 1 := by omega
          simp [this, slots]
        exact store_other _ _ this
      · rename_i hiN
        have hlt : i < Num := lt_of_le_of_ne hi hiN
        obtain ⟨p1, p2, p3, p4⟩ := ih (i + 1) (next + cs) _ m1 cur h hlt
        have e1 : Num - i = (Num - (i + 1)) + 1 := by omega
        have e2 : Num + 1 - i = (Num + 1 - (i + 1)) + 1 := by omega
        refine ⟨?_, ?_, p3, ?_⟩
        · rw [e1]
          simp only [slots, Path]
          refine ⟨?_, p1⟩
          rw [p4 next]
          · exact store_same _ _ _
          · intro hmem
            have := (mem_slots hmem).1
            omega
        · rw [e2, Nat.succ_mul]; omega
        · intro p hp
          rw [e2] at hp
          simp only [slots, List.mem_cons, not_or] at hp
          rw [p4 p hp.2]
          exact store_other _ _ hp.1

/-- The chaining loop succeeds when the block holds `Num` chunks of at least
`CHUNK_BYTES` bytes. -/
theorem chainLoop_total {cs Num : Nat} (blockEnd : Nat) (hcs : CHUNK_BYTES ≤ cs) :
    ∀ (fuel i : Nat) (next : Nat) (m : Nat → Nat),
      1 ≤ i → i ≤ Num → Num < fuel + i → next + (Num + 1 - i) * cs ≤ blockEnd →
      ∃ r, chainLoop cs Num blockEnd fuel i next m = some r := by
  intro fuel
  induction fuel with
  | zero => intro i next m h1 h2 h3; omega
  | succ fuel ih =>
    intro i next m h1 h2 h3 h4
    simp only [chainLoop]
    have hk : 1 ≤ Num + 1 - i := by omega
    have hmul : cs ≤ (Num + 1 - i) * cs := Nat.le_mul_of_pos_left cs hk
    have hb : ¬ blockEnd < next + CHUNK_BYTES := by omega
    rw [if_neg hb]
    by_cases hiN : i = Num
    · rw [if_pos hiN]; exact ⟨_, rfl⟩
    · rw [if_neg hiN]
      apply ih (i + 1) (next + cs) _ (by omega) (by omega) (by omega)
      have e : Num + 1 - i = (Num + 1 - (i + 1)) + 1 := by omega
      rw [e, Nat.succ_mul] at h4
      omega

theorem chainLoop_outside {cs Num blockEnd : Nat} (fuel i : Nat) (next : Nat) (m : Nat → Nat)
    (h : blockEnd < next + CHUNK_BYTES) : chainLoop cs Num blockEnd fuel i next m = none := by
  cases fuel with
  | zero => rfl
  | succ fuel => simp [chainLoop, h]

/-- A call of `InitOnePool` that returns either refuses (`-1`, state untouched) or
installs a fresh pool of `Num` slots as the whole free list. -/
theorem InitOnePool_spec {Num : Nat} {a a1 : Allocator} {rc : Int}
    (h : InitOnePool Num a = some (a1, rc)) :
    (rc = -1 ∧ a1 = a ∧ MAXPOOLNUM ≤ a.pool_num_) ∨
    (rc = 0 ∧ a.pool_num_ < MAXPOOLNUM ∧ a1.pool_num_ = a.pool_num_ + 1 ∧
      a1.chunk_size_ = a.chunk_size_ ∧ 0 < a.chunk_size_ ∧ 1 ≤ Num ∧
      (CHUNK_BYTES ≤ a.chunk_size_ ∧
        (a.chunk_size_ < 2 ^ 32 → a.chunk_size_ * Num < 2 ^ 32)) ∧
      FreeList a1 (slots a.chunk_size_ Num (callocAddr a.pool_num_)) ∧
      (∀ p ∈ slots a.chunk_size_ Num (callocAddr a.pool_num_),
        callocAddr a.pool_num_ ≤ p ∧ p < callocAddr (a.pool_num_ + 1)) ∧
      (∀ p, p ∉ slots a.chunk_size_ Num (callocAddr a.pool_num_) →
        a1.chunk_next p = a.chunk_next p)) := by
  unfold InitOnePool at h
  split at h
  · rename_i hp
    simp only [Option.some.injEq, Prod.mk.injEq] at h
    exact Or.inl ⟨h.2.symm, h.1.symm, hp⟩
  · rename_i hp
    right
    simp only at h
    have hNum : 1 ≤ Num := by
      rcases Nat.eq_zero_or_pos Num with h0 | h0
      · subst h0; simp [chainLoop] at h
      · exact h0
    have hcs : 0 < a.chunk_size_ := by
      rcases Nat.eq_zero_or_pos a.chunk_size_ with h0 | h0
      · rw [h0, chainLoop_outside] at h
        · simp at h
        · simp [CHUNK_BYTES]
      · exact h0
    split at h
    · exact absurd h (by simp)
    · rename_i m cur hloop
      simp only [Option.some.injEq, Prod.mk.injEq] at h
      obtain ⟨h1, h2⟩ := h
      subst h1 h2
      obtain ⟨q1, q2, q3, q4⟩ := chainLoop_spec hcs _ _ _ _ _ _ hloop hNum
      have e1 : Num + 1 - 1 = Num := by omega
      rw [e1] at q2 q4
      have hsl : slots a.chunk_size_ Num (callocAddr a.pool_num_) =
          callocAddr a.pool_num_ :: slots a.chunk_size_ (Num - 1)
            (callocAddr a.pool_num_ + a.chunk_size_) := by
        obtain ⟨k, rfl⟩ : ∃ k, Num = k + 1 := ⟨Num - 1, by omega⟩
        simp [slots]
      have hfit : CHUNK_BYTES ≤ a.chunk_size_ ∧
          (a.chunk_size_ < 2 ^ 32 → a.chunk_size_ * Num < 2 ^ 32) := by
        have hle : a.chunk_size_ ≤ a.chunk_size_ * Num := Nat.le_mul_of_pos_right _ hNum
        rw [Nat.mul_comm Num a.chunk_size_] at q2
        constructor
        · omega
        · intro hlt
          have hc8 : CHUNK_BYTES = 8 := rfl
          omega
      refine ⟨rfl, Nat.lt_of_not_le hp, rfl, rfl, hcs, hNum, hfit, ⟨_, hsl, q1⟩, ?_, q4⟩
      intro p hpm
      have hm := mem_slots hpm
      refine ⟨hm.1, ?_⟩
      have hmod : a.chunk_size_ * Num % 2 ^ 32 < 2 ^ 32 := Nat.mod_lt _ (by norm_num)
      have e2 : callocAddr (a.pool_num_ + 1) = callocAddr a.pool_num_ + 2 ^ 32 := by
        simp [callocAddr]; ring
      have hc : 0 < CHUNK_BYTES := by simp [CHUNK_BYTES]
      omega

/-- The call `InitOnePool` installs a pool when a pool is left and the block
is computed without overflow. -/
theorem InitOnePool_total (Num : Nat) (a : Allocator) (hp : a.pool_num_ < MAXPOOLNUM)
    (hcs : CHUNK_BYTES ≤ a.chunk_size_) (hN : 1 ≤ Num) (hfit : a.chunk_size_ * Num < 2 ^ 32) :
    ∃ a1, InitOnePool Num a = some (a1, 0) := by
  unfold InitOnePool
  rw [if_neg (by omega)]
  simp only
  obtain ⟨⟨m, cur⟩, hr⟩ := chainLoop_total
    (callocAddr a.pool_num_ + a.chunk_size_ * Num % 2 ^ 32) hcs Num 1
    (callocAddr a.pool_num_) a.chunk_next
    (Nat.le_refl _) hN (by omega)
    (by rw [Nat.mod_eq_of_lt hfit, Nat.mul_comm]; simp)
  rw [hr]
  exact ⟨_, rfl⟩

theorem callocAddr_mono {j k : Nat} (h : j ≤ k) : callocAddr j ≤ callocAddr k := by
  unfold callocAddr
  exact Nat.mul_le_mul_right _ (by omega)

theorem freeList_single {a : Allocator} {F : List Nat} (hF : FreeList a F) (nd : F.Nodup)
    (he : a.start_ = a.end_) : F = [a.start_] := by
  obtain ⟨R, rfl, hpath⟩ := hF
  cases R with
  | nil => rfl
  | cons x xs =>
    have hm := path_last_mem _ _ _ _ hpath.2
    rw [← he] at hm
    exact absurd hm (List.nodup_cons.1 nd).1

/-- A call of `GetNode` that returns a non-null slot takes it from the front of the
free list; the free list that remains is either the rest of the old one or, when
the slot was the last one, a freshly allocated pool. -/
theorem GetNode_spec {Num : Nat} {a a1 : Allocator} {F : List Nat} {p : Nat}
    (hF : FreeList a F) (nd : F.Nodup)
    (h : GetNode Num a = some (p, a1)) (hp : p ≠ nullptr) :
    ∃ F1, FreeList a1 F1 ∧ F1.Nodup ∧ p ∈ F ∧
      a1.chunk_size_ = a.chunk_size_ ∧
      (∀ x ∈ F1, (x ∈ F ∧ x ≠ p) ∨
        (callocAddr a.pool_num_ ≤ x ∧ x < callocAddr a1.pool_num_)) ∧
      a1.pool_num_ * Num + F.length = a.pool_num_ * Num + F1.length + 1 ∧
      (a1.pool_num_ = a.pool_num_ ∨
        (a1.pool_num_ = a.pool_num_ + 1 ∧ F.length = 1 ∧ a.pool_num_ < MAXPOOLNUM)) := by
  unfold GetNode at h
  split at h
  · rename_i he
    have hsingle := freeList_single hF nd he
    simp only at h
    split at h
    · exact absurd h (by simp)
    · rename_i a2 rc hinit
      split at h
      · simp only [Option.some.injEq, Prod.mk.injEq] at h
        exact absurd h.1.symm hp
      · rename_i hrc
        simp only [Option.some.injEq, Prod.mk.injEq] at h
        obtain ⟨h1, h2⟩ := h
        subst h1 h2
        rcases InitOnePool_spec hinit with
          ⟨hrc1, _⟩ | ⟨_, hlt, hpn, hcs, hpos, hN, _, hfl, hrange, _⟩
        · exfalso; apply hrc; rw [hrc1]; decide
        · refine ⟨_, hfl, slots_nodup hpos _ _, by rw [hsingle]; simp, hcs, ?_, ?_,
            Or.inr ⟨hpn, by rw [hsingle]; rfl, hlt⟩⟩
          · intro x hx
            right
            rw [hpn]
            exact hrange x hx
          · rw [hpn, hsingle, slots_length, Nat.succ_mul]
            simp
  · rename_i hne
    simp only [Option.some.injEq, Prod.mk.injEq] at h
    obtain ⟨h1, h2⟩ := h
    subst h1 h2
    obtain ⟨R, rfl, hpath⟩ := hF
    cases R with
    | nil => exact absurd hpath hne
    | cons x xs =>
      obtain ⟨hx, hrest⟩ := hpath
      have nd1 := List.nodup_cons.1 nd
      refine ⟨x :: xs, ⟨xs, by simp [hx], by simpa [hx] using hrest⟩, nd1.2, by simp, rfl,
        ?_, by simp only [List.length_cons]; omega, Or.inl rfl⟩
      intro y hy
      left
      refine ⟨List.mem_cons_of_mem _ hy, ?_⟩
      intro e
      subst e
      exact nd1.1 hy

/-- The call `GetNode` returns a non-null slot as long as the free list holds two
slots or a further pool can be allocated. -/
theorem GetNode_total (Num : Nat) {a : Allocator} {F : List Nat}
    (hF : FreeList a F) (nd : F.Nodup) (hnz : ∀ x ∈ F, x ≠ nullptr)
    (hroom : F.length = 1 → a.pool_num_ < MAXPOOLNUM ∧ CHUNK_BYTES ≤ a.chunk_size_ ∧
      1 ≤ Num ∧ a.chunk_size_ * Num < 2 ^ 32) :
    ∃ p a1, GetNode Num a = some (p, a1) ∧ p ≠ nullptr := by
  have hs : a.start_ ≠ nullptr := by
    obtain ⟨R, rfl, _⟩ := hF
    exact hnz _ (by simp)
  unfold GetNode
  split
  · rename_i he
    have hsingle := freeList_single hF nd he
    obtain ⟨h1, h2, h3, h4⟩ := hroom (by rw [hsingle]; rfl)
    obtain ⟨a1, ha1⟩ := InitOnePool_total Num a h1 h2 h3 h4
    simp only [ha1]
    exact ⟨a.start_, a1, by simp, hs⟩
  · exact ⟨_, _, rfl, hs⟩

theorem PutNode_freeList {a : Allocator} {F : List Nat} (hF : FreeList a F) (nd : F.Nodup)
    (c : Nat) : FreeList (PutNode a c) (F ++ [c]) := by
  obtain ⟨R, rfl, hpath⟩ := hF
  exact ⟨R ++ [c], by simp [PutNode], path_snoc _ c R _ _ hpath nd⟩

/-! ## Doubly linked segments -/

theorem dchain_append (next prev : Nat → Nat) (xs : List Nat) (y : Nat) (ys : List Nat)
    (a b : Nat) :
    DChain next prev a (xs ++ y :: ys) b ↔ DChain next prev a xs y ∧ DChain next prev y ys b := by
  induction xs generalizing a with
  | nil => simp [DChain, and_assoc]
  | cons x xs ih => simp [DChain, ih, and_assoc]

theorem dchain_frame_next (next prev : Nat → Nat) (p v : Nat) (xs : List Nat) (a b : Nat)
    (h : p ∉ a :: xs) : DChain (store next p v) prev a xs b ↔ DChain next prev a xs b := by
  induction xs generalizing a with
  | nil =>
    have : a ≠ p := fun e => h (by simp [e])
    simp [DChain, store_other, this]
  | cons x xs ih =>
    have ha : a ≠ p := fun e => h (by simp [e])
    have hx : p ∉ x :: xs := fun e => h (List.mem_cons_of_mem _ e)
    simp [DChain, store_other, ha, ih x hx]

theorem dchain_frame_prev (next prev : Nat → Nat) (p v : Nat) (xs : List Nat) (a b : Nat)
    (h : p ∉ xs ++ [b]) : DChain next (store prev p v) a xs b ↔ DChain next prev a xs b := by
  induction xs generalizing a with
  | nil =>
    have : b ≠ p := fun e => h (by simp [e])
    simp [DChain, store_other, this]
  | cons x xs ih =>
    have hx : x ≠ p := fun e => h (by simp [e])
    have hr : p ∉ xs ++ [b] := fun e => h (List.mem_cons_of_mem _ e)
    simp [DChain, store_other, hx, ih x hr]

theorem dchain_fwd {next prev : Nat → Nat} {xs : List Nat} {a b : Nat}
    (h : DChain next prev a xs b) : Chain next a xs b := by
  induction xs generalizing a with
  | nil => exact h.1
  | cons x xs ih => exact ⟨h.1, ih h.2.2⟩

theorem dchain_bwd {next prev : Nat → Nat} {xs : List Nat} {a b : Nat}
    (h : DChain next prev a xs b) : Chain prev b xs.reverse a := by
  induction xs generalizing a with
  | nil => exact h.2
  | cons x xs ih =>
    rw [List.reverse_cons, chain_snoc]
    exact ⟨ih h.2.2, h.2.1⟩

/-- The node reached by `next` from `a` in a segment: the first of `xs`, or `b`. -/
theorem dchain_next_head {next prev : Nat → Nat} {xs : List Nat} {a b : Nat}
    (h : DChain next prev a xs b) : next a = (xs ++ [b]).head (by simp) := by
  cases xs with
  | nil => exact h.1
  | cons x xs => exact h.1

/-- The node reached by `prev` from `b` in a segment: the last of `xs`, or `a`. -/
theorem dchain_prev_last {next prev : Nat → Nat} {xs : List Nat} {a b : Nat}
    (h : DChain next prev a xs b) : prev b = (a :: xs).getLast (by simp) := by
  induction xs generalizing a with
  | nil => exact h.2
  | cons x xs ih =>
    rw [ih h.2.2]
    simp [List.getLast_cons]

/-- Linking `new` behind `node` at the front of a segment: the effect of the four
stores of `push` on the segment that starts at `node`. -/
theorem dchain_insert {next prev : Nat → Nat} {node new b : Nat} {ys : List Nat}
    (h : DChain next prev node ys b)
    (hnode : node ∉ ys) (hnew : new ∉ node :: ys ++ [b]) (nd : (ys ++ [b]).Nodup) :
    DChain (store (store next new (next node)) node new)
      (store (store prev (next node) new) new node) node (new :: ys) b := by
  have hne : new ≠ node := fun e => hnew (by simp [e])
  cases ys with
  | nil =>
    obtain ⟨h1, h2⟩ := h
    have hnb : b ≠ new := fun e => hnew (by simp [e])
    refine ⟨store_same _ _ _, store_same _ _ _, ?_, ?_⟩
    · rw [store_other _ _ hne, store_same]; exact h1
    · rw [store_other _ _ hnb, h1, store_same]
  | cons y ys =>
    obtain ⟨h1, h2, h3⟩ := h
    have hny : y ≠ new := fun e => hnew (by simp [e])
    refine ⟨store_same _ _ _, store_same _ _ _, ?_, ?_, ?_⟩
    · rw [store_other _ _ hne, store_same]; exact h1
    · rw [store_other _ _ hny, h1, store_same]
    · rw [dchain_frame_next, dchain_frame_next, dchain_frame_prev, dchain_frame_prev]
      · exact h3
      · rw [h1]
        simp only [List.cons_append, List.nodup_cons] at nd
        exact nd.1
      · intro e
        apply hnew
        simp only [List.cons_append, List.mem_cons]
        exact Or.inr (Or.inr e)
      · intro e
        apply hnew
        simp only [List.cons_append, List.mem_cons, List.mem_append] at e ⊢
        rcases e with e | e
        · exact Or.inr (Or.inl e)
        · exact Or.inr (Or.inr (Or.inl e))
      · intro e
        exact hnode e

theorem dchain_next_mem {next prev : Nat → Nat} {xs : List Nat} {a b : Nat}
    (h : DChain next prev a xs b) : next a ∈ xs ++ [b] := by
  rw [dchain_next_head h]
  exact List.head_mem _

theorem dchain_prev_mem {next prev : Nat → Nat} {xs : List Nat} {a b : Nat}
    (h : DChain next prev a xs b) : prev b ∈ a :: xs := by
  rw [dchain_prev_last h]
  exact List.getLast_mem _

/-- Unlinking the node `p` that sits between the segments `xs` and `ys`: the effect
of the two stores of `erase` (and of deleting the head node). -/
theorem dchain_unlink {next prev : Nat → Nat} {p b : Nat} {ys : List Nat}
    (hys : DChain next prev p ys b) (ndy : (ys ++ [b]).Nodup) :
    ∀ (xs : List Nat) (a : Nat), DChain next prev a xs p →
      (a :: xs ++ [p]).Nodup → (∀ x ∈ xs, x ∉ ys ++ [b]) → a ∉ ys →
      DChain (store next (prev p) (next p)) (store prev (next p) (prev p)) a (xs ++ ys) b := by
  intro xs
  induction xs with
  | nil =>
    intro a h nd _ ha
    obtain ⟨h1, h2⟩ := h
    rw [h2]
    cases ys with
    | nil =>
      obtain ⟨h3, h4⟩ := hys
      rw [h3]
      exact ⟨store_same _ _ _, store_same _ _ _⟩
    | cons y ys =>
      obtain ⟨h3, h4, h5⟩ := hys
      rw [h3]
      refine ⟨store_same _ _ _, store_same _ _ _, ?_⟩
      rw [dchain_frame_next, dchain_frame_prev]
      · exact h5
      · simp only [List.cons_append, List.nodup_cons] at ndy
        exact ndy.1
      · exact ha
  | cons x xs ih =>
    intro a h nd hd ha
    obtain ⟨h1, h2, h3⟩ := h
    have hpm := dchain_prev_mem h3
    have hnm := dchain_next_mem hys
    have nd1 := List.nodup_cons.1 nd
    have hx := hd x (by simp)
    refine ⟨?_, ?_, ih x h3 nd1.2 (fun z hz => hd z (List.mem_cons_of_mem _ hz)) ?_⟩
    · rw [store_other]
      · exact h1
      · intro e
        apply nd1.1
        rw [e]
        exact List.mem_append_left _ hpm
    · rw [store_other]
      · exact h2
      · intro e
        apply hx
        rw [e]
        exact hnm
    · intro e
      exact hx (List.mem_append_left _ e)

/-! ## Representation invariant of the container -/

/-- Two lists with the same number of occurrences of every address are permutations
of each other (used to move one cell between the ring, the free list and the held slots). -/
theorem perm_of_count {l1 l2 : List Nat} (h : ∀ a, l1.count a = l2.count a) : l1.Perm l2 :=
  List.perm_iff_count.2 h

/-- Unfolding of the statement that the sentinel, the live nodes, the free slots and
the held slots are pairwise different. -/
theorem nodup_cells (d : Nat) (L F H : List Nat) :
    (d :: (L ++ (F ++ H))).Nodup ↔
      d ∉ L ∧ d ∉ F ∧ d ∉ H ∧ L.Nodup ∧ F.Nodup ∧ H.Nodup ∧
      (∀ x ∈ L, x ∉ F) ∧ (∀ x ∈ L, x ∉ H) ∧ (∀ x ∈ F, x ∉ H) := by
  simp only [List.nodup_cons, List.nodup_append, List.mem_append, not_or, List.Disjoint]
  constructor
  · rintro ⟨⟨h1, h2, h3⟩, h4, ⟨h5, h6, h7⟩, h8⟩
    exact ⟨h1, h2, h3, h4, h5, h6, fun x hx hf => h8 hx (Or.inl hf),
      fun x hx hf => h8 hx (Or.inr hf), fun x hx hf => h7 hx hf⟩
  · rintro ⟨h1, h2, h3, h4, h5, h6, h7, h8, h9⟩
    refine ⟨⟨h1, h2, h3⟩, h4, ⟨h5, h6, fun {a} ha hb => h9 a ha hb⟩, ?_⟩
    intro a ha hb
    rcases hb with hb | hb
    · exact h7 a ha hb
    · exact h8 a ha hb

/-- What a duplicate-free list says about one of its members and the two sides of it. -/
theorem nodup_split {l1 l2 : List Nat} {a : Nat} (h : (l1 ++ a :: l2).Nodup) :
    a ∉ l1 ∧ a ∉ l2 ∧ l1.Nodup ∧ l2.Nodup ∧ ∀ x ∈ l1, x ∉ l2 := by
  rw [List.nodup_middle, List.nodup_cons, List.nodup_append] at h
  obtain ⟨h1, h2, h3, h4⟩ := h
  simp only [List.mem_append, not_or] at h1
  exact ⟨h1.1, h1.2, h2, h3, fun x hx hx1 => h4 hx hx1⟩

namespace RingQueue

variable {T : Type}

theorem Inv.length_eq {sizeofNode Size : Nat} {q : RingQueue T} {L F H : List Nat}
    {xs : List T} (h : Inv sizeofNode Size q L F H xs) : xs.length = L.length := by
  have := congrArg List.length h.vals
  simpa using this.symm

theorem Inv.F_nodup {sizeofNode Size : Nat} {q : RingQueue T} {L F H : List Nat}
    {xs : List T} (h : Inv sizeofNode Size q L F H xs) : F.Nodup := by
  have h1 := (List.nodup_cons.1 h.nodup).2
  exact (List.nodup_append.1 (List.nodup_append.1 h1).2.1).1

/-- Taking a slot from the allocator keeps the invariant, the slot being held. -/
theorem Inv.getNode {sizeofNode Size : Nat} {q : RingQueue T} {L F : List Nat} {xs : List T}
    (h : Inv sizeofNode Size q L F [] xs) (hcap : L.length ≤ Size)
    {new : Nat} {a1 : Allocator}
    (hg : GetNode (allocNum Size) q.alloc_ = some (new, a1)) (hnew : new ≠ nullptr) :
    ∃ F1, Inv sizeofNode Size { q with alloc_ := a1 } L F1 [new] xs := by
  obtain ⟨F1, hfl, hnd, hmem, hcs, hsrc, hcount, hpool⟩ := GetNode_spec h.free h.F_nodup hg hnew
  have hmono : q.alloc_.pool_num_ ≤ a1.pool_num_ := by
    rcases hpool with e | ⟨e, _⟩ <;> omega
  have hca := callocAddr_mono hmono
  obtain ⟨hdL, hdF, -, hLnd, hFnd, -, hLF, -, -⟩ := (nodup_cells _ _ _ _).1 h.nodup
  have hrange := h.range
  simp only [List.append_nil] at hrange
  -- every slot of the new free list is fresh with respect to the ring
  have hfresh : ∀ x ∈ F1, x ≠ q.dummy_ ∧ x ∉ L ∧ x ≠ new := by
    intro x hx
    rcases hsrc x hx with ⟨hxF, hxn⟩ | ⟨hlo, _⟩
    · refine ⟨?_, ?_, hxn⟩
      · intro e
        subst e
        exact hdF hxF
      · intro hxL
        exact hLF x hxL hxF
    · have key : ∀ y ∈ q.dummy_ :: (L ++ F), x ≠ y := by
        intro y hy e
        have := (hrange y hy).2
        omega
      refine ⟨key _ (by simp), ?_, key _ ?_⟩
      · intro hxL
        exact key x (by simp [hxL]) rfl
      · simp only [List.mem_cons, List.mem_append]
        exact Or.inr (Or.inr hmem)
  refine ⟨F1,
    { ring := h.ring
      nodup := ?_
      len := h.len
      vals := h.vals
      raw := fun p hp _ => h.raw p hp (by simp)
      free := hfl
      range := ?_
      count := ?_
      chunk := by rw [← h.chunk]; exact hcs
      fit := by
        show CHUNK_BYTES ≤ a1.chunk_size_ ∧ a1.chunk_size_ * allocNum Size < 2 ^ 32
        rw [hcs]; exact h.fit
      pools := ?_
      few := ?_ }⟩
  · show (q.dummy_ :: (L ++ (F1 ++ [new]))).Nodup
    rw [nodup_cells]
    refine ⟨hdL, fun e => (hfresh _ e).1 rfl, ?_, hLnd, hnd, by simp, ?_, ?_, ?_⟩
    · intro e
      simp only [List.mem_singleton] at e
      rw [e] at hdF
      exact hdF hmem
    · intro x hx hx1
      exact (hfresh x hx1).2.1 hx
    · intro x hx hx1
      simp only [List.mem_singleton] at hx1
      subst hx1
      exact hLF x hx hmem
    · intro x hx hx1
      simp only [List.mem_singleton] at hx1
      exact (hfresh x hx).2.2 hx1
  · show ∀ p ∈ q.dummy_ :: (L ++ (F1 ++ [new])), p ≠ nullptr ∧ p < callocAddr a1.pool_num_
    intro p hp
    simp only [List.mem_cons, List.mem_append, List.not_mem_nil, or_false] at hp
    have old : ∀ y ∈ q.dummy_ :: (L ++ F), y ≠ nullptr ∧ y < callocAddr a1.pool_num_ := by
      intro y hy
      have := hrange y hy
      exact ⟨this.1, by omega⟩
    rcases hp with hp | hp | hp | hp
    · exact old p (by simp [hp])
    · exact old p (by simp [hp])
    · rcases hsrc p hp with ⟨hxF, _⟩ | ⟨hlo, hhi⟩
      · exact old p (by simp [hxF])
      · refine ⟨?_, hhi⟩
        have : 0 < callocAddr q.alloc_.pool_num_ := by simp [callocAddr]
        simp only [nullptr]
        omega
    · exact old p (by simp [hp, hmem])
  · show a1.pool_num_ * allocNum Size = F1.length + L.length + 1 + [new].length
    have := h.count
    simp only [List.length_nil, List.length_singleton] at this ⊢
    omega
  · show a1.pool_num_ ≤ MAXPOOLNUM
    have := h.pools
    rcases hpool with e | ⟨e, _, e3⟩ <;> omega
  · show Size + 2 < 2 ^ 32 → a1.pool_num_ ≤ 2
    intro hS
    have h2 := h.few hS
    rcases hpool with e | ⟨e, e2, _⟩
    · omega
    · have hc := h.count
      have hN : allocNum Size = Size + 2 := Nat.mod_eq_of_lt hS
      rw [hN, e2] at hc
      simp only [List.length_nil] at hc
      have : q.alloc_.pool_num_ * (Size + 2) ≤ 1 * (Size + 2) := by omega
      have := Nat.le_of_mul_le_mul_right this (by omega)
      omega

theorem map_store_of_not_mem {α : Type} (m : Nat → α) (p : Nat) (v : α) (l : List Nat)
    (h : p ∉ l) : l.map (store m p v) = l.map m := by
  apply List.map_congr_left
  intro a ha
  exact store_other _ _ (fun e => h (e ▸ ha))

/-- Constructing an element in a held slot keeps the invariant. -/
theorem Inv.construct {sizeofNode Size : Nat} {q : RingQueue T} {L F : List Nat} {xs : List T}
    {new : Nat} (h : Inv sizeofNode Size q L F [new] xs) (v : T) :
    Inv sizeofNode Size (q._construct new v) L F [new] xs ∧
      (q._construct new v).data new = some v := by
  obtain ⟨-, -, -, -, -, -, -, hLH, -⟩ := (nodup_cells _ _ _ _).1 h.nodup
  have hnL : new ∉ L := fun e => hLH new e (by simp)
  refine ⟨{ ring := h.ring
            nodup := h.nodup
            len := h.len
            vals := ?_
            raw := ?_
            free := h.free
            range := h.range
            count := h.count
            chunk := h.chunk
            fit := h.fit
            pools := h.pools
            few := h.few }, store_same _ _ _⟩
  · show L.map (store q.data new (some v)) = xs.map some
    rw [map_store_of_not_mem _ _ _ _ hnL]
    exact h.vals
  · intro p hp hp1
    show store q.data new (some v) p = none
    rw [store_other _ _ (by simpa using hp1)]
    exact h.raw p hp hp1

/-- Linking the held slot `new` behind `node` keeps the invariant; the live list
gains `new` right after `node`. -/
theorem Inv.link {sizeofNode Size : Nat} {q : RingQueue T} {L1 L2 F : List Nat}
    {xs1 xs2 : List T} {new node : Nat} {v : T}
    (h : Inv sizeofNode Size q (L1 ++ L2) F [new] (xs1 ++ xs2))
    (hv : q.data new = some v) (hlen : xs1.length = L1.length)
    (hnode : (L1 = [] ∧ node = q.dummy_) ∨ ∃ L0, L1 = L0 ++ [node]) :
    Inv sizeofNode Size (q.link node new) (L1 ++ new :: L2) F [] (xs1 ++ v :: xs2) := by
  obtain ⟨hdL, hdF, hdH, hLnd, hFnd, -, hLF, hLH, hFH⟩ := (nodup_cells _ _ _ _).1 h.nodup
  have hperm : (q.dummy_ :: ((L1 ++ L2) ++ (F ++ [new]))).Perm
      (q.dummy_ :: ((L1 ++ new :: L2) ++ (F ++ []))) := by
    apply perm_of_count
    intro a
    simp only [List.count_cons, List.count_append, List.count_nil]
    omega
  have hnd2 : (L2 ++ [q.dummy_]).Nodup := by
    rw [List.nodup_append] at hLnd ⊢
    refine ⟨hLnd.2.1, by simp, ?_⟩
    intro x hx hx1
    simp only [List.mem_singleton] at hx1
    subst hx1
    exact hdL (List.mem_append_right _ hx)
  have hnewd : new ≠ q.dummy_ := fun e => hdH (by simp [e])
  have hnewL : new ∉ L1 ++ L2 := fun e => hLH new e (by simp)
  have hvals := h.vals
  rw [List.map_append, List.map_append] at hvals
  obtain ⟨hv1, hv2⟩ := List.append_inj hvals (by simp [hlen])
  -- the ring after the four stores
  have hring : DChain (store (store q.next new (q.next node)) node new)
      (store (store q.prev (q.next node) new) new node) q.dummy_ (L1 ++ new :: L2) q.dummy_ := by
    rcases hnode with ⟨e1, e2⟩ | ⟨L0, e1⟩
    · subst e1 e2
      simp only [List.nil_append] at h hnewL hdL ⊢
      apply dchain_insert h.ring hdL _ hnd2
      intro e
      simp only [List.cons_append, List.mem_cons, List.mem_append, List.not_mem_nil,
        or_false] at e
      rcases e with e | e | e
      · exact hnewd e
      · exact hnewL e
      · exact hnewd e
    · subst e1
      have hr := h.ring
      rw [List.append_assoc, List.singleton_append, dchain_append] at hr ⊢
      obtain ⟨hr1, hr2⟩ := hr
      rw [List.append_assoc, List.singleton_append] at hLnd hdL hnewL
      obtain ⟨hn0, hn2, -, -, h02⟩ := nodup_split hLnd
      simp only [List.mem_append, List.mem_cons, not_or] at hdL hnewL
      have hnm := dchain_next_mem hr2
      simp only [List.mem_append, List.mem_singleton] at hnm
      refine ⟨?_, ?_⟩
      · rw [dchain_frame_next, dchain_frame_next, dchain_frame_prev, dchain_frame_prev]
        · exact hr1
        · intro e
          simp only [List.mem_append, List.mem_singleton] at e
          rcases hnm with hnm | hnm
          · rcases e with e | e
            · exact h02 _ e hnm
            · rw [e] at hnm; exact hn2 hnm
          · rw [hnm] at e
            rcases e with e | e
            · exact hdL.1 e
            · exact hdL.2.1 e
        · intro e
          simp only [List.mem_append, List.mem_singleton] at e
          rcases e with e | e
          · exact hnewL.1 e
          · exact hnewL.2.1 e
        · intro e
          simp only [List.mem_cons] at e
          rcases e with e | e
          · exact hnewd e
          · exact hnewL.1 e
        · intro e
          simp only [List.mem_cons] at e
          rcases e with e | e
          · exact hdL.2.1 e.symm
          · exact hn0 e
      · apply dchain_insert hr2 hn2 _ hnd2
        intro e
        simp only [List.cons_append, List.mem_cons, List.mem_append, List.not_mem_nil,
          or_false] at e
        rcases e with e | e | e
        · exact hnewL.2.1 e
        · exact hnewL.2.2 e
        · exact hnewd e
  have hmem : ∀ p, p ∈ q.dummy_ :: ((L1 ++ new :: L2) ++ (F ++ [])) ↔
      p ∈ q.dummy_ :: ((L1 ++ L2) ++ (F ++ [new])) := fun p => (hperm.mem_iff).symm
  exact
    { ring := hring
      nodup := hperm.nodup_iff.1 h.nodup
      len := by
        show q.length_ + 1 = ((L1 ++ new :: L2).length : Int)
        rw [h.len]
        simp only [List.length_append, List.length_cons]
        push_cast
        ring
      vals := by
        show (L1 ++ new :: L2).map q.data = (xs1 ++ v :: xs2).map some
        simp only [List.map_append, List.map_cons, hv1, hv2, hv]
      raw := by
        intro p hp _
        show q.data p = none
        simp only [List.mem_append, List.mem_cons, not_or] at hp
        exact h.raw p (by simp [hp.1, hp.2.2]) (by simp [hp.2.1])
      free := h.free
      range := fun p hp => h.range p ((hmem p).1 hp)
      count := by
        have := h.count
        simp only [List.length_append, List.length_cons, List.length_nil] at this ⊢
        show q.alloc_.pool_num_ * allocNum Size = _
        omega
      chunk := h.chunk
      fit := h.fit
      pools := h.pools
      few := h.few }

/-- Splitting the stored elements along a split of the live nodes. -/
theorem vals_split {data : Nat → Option T} {L1 L2 : List Nat} {p : Nat} {xs : List T}
    (h : (L1 ++ p :: L2).map data = xs.map some) :
    ∃ xs1 x xs2, xs = xs1 ++ x :: xs2 ∧ xs1.length = L1.length ∧
      L1.map data = xs1.map some ∧ data p = some x ∧ L2.map data = xs2.map some := by
  rw [List.map_append, List.map_cons] at h
  obtain ⟨xs1, r, rfl, h1, h2⟩ := List.map_eq_append_iff.1 h.symm
  obtain ⟨x, xs2, rfl, h3, h4⟩ := List.map_eq_cons_iff.1 h2
  refine ⟨xs1, x, xs2, rfl, ?_, h1.symm, h3.symm, h4.symm⟩
  have := congrArg List.length h1
  simpa using this

/-- Erasing the live node `p` keeps the invariant: `p` leaves the live list and
joins the tail of the free list. -/
theorem Inv.erase {sizeofNode Size : Nat} {q : RingQueue T} {L1 L2 F H : List Nat}
    {xs1 xs2 : List T} {p : Nat} {x : T}
    (h : Inv sizeofNode Size q (L1 ++ p :: L2) F H (xs1 ++ x :: xs2))
    (hlen : xs1.length = L1.length) :
    Inv sizeofNode Size (q.erase p).1 (L1 ++ L2) (F ++ [p]) H (xs1 ++ xs2) := by
  obtain ⟨hdL, hdF, hdH, hLnd, hFnd, hHnd, hLF, hLH, hFH⟩ := (nodup_cells _ _ _ _).1 h.nodup
  obtain ⟨hp1, hp2, hn1, hn2, h12⟩ := nodup_split hLnd
  simp only [List.mem_append, List.mem_cons, not_or] at hdL
  have hpos : q.length_ > 0 := by
    rw [h.len]
    simp only [List.length_append, List.length_cons]
    push_cast
    omega
  have hr := h.ring
  rw [dchain_append] at hr
  obtain ⟨hr1, hr2⟩ := hr
  have hnd2 : (L2 ++ [q.dummy_]).Nodup := by
    rw [List.nodup_append]
    refine ⟨hn2, by simp, ?_⟩
    intro y hy hy1
    simp only [List.mem_singleton] at hy1
    subst hy1
    exact hdL.2.2 hy
  have hnm := dchain_next_mem hr2
  have hpn : p ≠ q.next p := by
    intro e
    rw [← e] at hnm
    simp only [List.mem_append, List.mem_singleton] at hnm
    rcases hnm with hnm | hnm
    · exact hp2 hnm
    · exact hdL.2.1 hnm.symm
  have hring := dchain_unlink hr2 hnd2 L1 q.dummy_ hr1
    (by
      rw [List.cons_append, List.nodup_cons, List.nodup_append]
      refine ⟨by simp [hdL.1, hdL.2.1], hn1, by simp, ?_⟩
      intro y hy hy1
      simp only [List.mem_singleton] at hy1
      subst hy1
      exact hp1 hy)
    (by
      intro y hy e
      simp only [List.mem_append, List.mem_singleton] at e
      rcases e with e | e
      · exact h12 y hy e
      · subst e; exact hdL.1 hy)
    hdL.2.2
  have hvals := h.vals
  rw [List.map_append, List.map_append, List.map_cons, List.map_cons] at hvals
  obtain ⟨hv1, hv2⟩ := List.append_inj hvals (by simp [hlen])
  have hv3 := (List.cons.inj hv2).2
  have hperm : (q.dummy_ :: ((L1 ++ p :: L2) ++ (F ++ H))).Perm
      (q.dummy_ :: ((L1 ++ L2) ++ ((F ++ [p]) ++ H))) := by
    apply perm_of_count
    intro a
    simp only [List.count_cons, List.count_append, List.count_nil]
    omega
  have hpL : p ∉ L1 ++ L2 := by simp [hp1, hp2]
  unfold RingQueue.erase
  rw [if_pos hpos]
  exact
    { ring := by
        show DChain (store q.next (store q.prev (q.next p) (q.prev p) p) (q.next p))
          (store q.prev (q.next p) (q.prev p)) q.dummy_ (L1 ++ L2) q.dummy_
        rw [store_other _ _ hpn]
        exact hring
      nodup := hperm.nodup_iff.1 h.nodup
      len := by
        show q.length_ - 1 = ((L1 ++ L2).length : Int)
        rw [h.len]
        simp only [List.length_append, List.length_cons]
        push_cast
        ring
      vals := by
        show (L1 ++ L2).map (store q.data p none) = (xs1 ++ xs2).map some
        rw [map_store_of_not_mem _ _ _ _ hpL]
        simp only [List.map_append, hv1, hv3]
      raw := by
        intro y hy hy1
        show store q.data p none y = none
        by_cases e : y = p
        · rw [e, store_same]
        · rw [store_other _ _ e]
          apply h.raw y _ hy1
          simp only [List.mem_append, List.mem_cons, not_or] at hy ⊢
          exact ⟨hy.1, e, hy.2⟩
      free := PutNode_freeList h.free hFnd p
      range := fun y hy => h.range y (hperm.mem_iff.2 hy)
      count := by
        have := h.count
        simp only [List.length_append, List.length_cons, List.length_nil] at this ⊢
        show q.alloc_.pool_num_ * allocNum Size = _
        omega
      chunk := h.chunk
      fit := h.fit
      pools := h.pools
      few := h.few }

/-- Deleting the head node is erasing the first live node. -/
theorem deleteHead_eq_erase {q : RingQueue T} (hpos : q.length_ > 0)
    (hprev : q.prev (q.next q.dummy_) = q.dummy_) (hd : q.next q.dummy_ ≠ q.dummy_)
    (hn : q.next q.dummy_ ≠ q.next (q.next q.dummy_)) :
    q.deleteHead = (q.erase (q.next q.dummy_)).1 := by
  unfold RingQueue.erase RingQueue.deleteHead
  rw [if_pos hpos]
  simp only [_destroy, store_other _ _ hd, store_other _ _ hn, hprev]

/-- Deleting the head node keeps the invariant. -/
theorem Inv.deleteHead {sizeofNode Size : Nat} {q : RingQueue T} {t F H : List Nat}
    {xs : List T} {p : Nat} {x : T}
    (h : Inv sizeofNode Size q (p :: t) F H (x :: xs)) :
    Inv sizeofNode Size q.deleteHead t (F ++ [p]) H xs := by
  obtain ⟨hdL, -, -, hLnd, -⟩ := (nodup_cells _ _ _ _).1 h.nodup
  have hr := h.ring
  have e1 : q.next q.dummy_ = p := hr.1
  have hpos : q.length_ > 0 := by
    rw [h.len]
    simp only [List.length_cons]
    push_cast
    omega
  have hnm := dchain_next_mem hr.2.2
  rw [deleteHead_eq_erase hpos, e1]
  · have h0 : Inv sizeofNode Size q ([] ++ p :: t) F H ([] ++ x :: xs) := h
    exact Inv.erase h0 rfl
  · rw [e1]; exact hr.2.1
  · rw [e1]
    intro e
    exact hdL (by simp [e])
  · rw [e1]
    intro e
    rw [← e] at hnm
    simp only [List.mem_append, List.mem_singleton] at hnm
    rcases hnm with hnm | hnm
    · exact (List.nodup_cons.1 hLnd).1 hnm
    · exact hdL (by simp [hnm])

/-! ## The scan loop and the iteration -/

/-- A finished scan along the backward chain `R` (elements `ys`) has stopped at the
first node whose element is ordered before `v`, or at the sentinel. -/
theorem scan_spec (lt : T → T → Bool) (v : T) (q : RingQueue T) :
    ∀ (R : List Nat) (ys : List T) (a : Nat) (fuel : Nat) (node : Nat),
      Chain q.prev a R q.dummy_ → R.map q.data = ys.map some → q.dummy_ ∉ R →
      scan lt v q fuel (q.prev a) = some node →
      ∃ R1 R2 ys1 ys2, R = R1 ++ R2 ∧ ys = ys1 ++ ys2 ∧ R1.length = ys1.length ∧
        ((R2 = [] ∧ node = q.dummy_) ∨ ∃ R3, R2 = node :: R3) ∧
        insertRev lt v ys = ys1 ++ v :: ys2 ∧
        (∀ y ∈ ys1, lt y v = false) ∧ (∀ y, ys2.head? = some y → lt y v = true) := by
  intro R
  induction R with
  | nil =>
    intro ys a fuel node hc hm _ hs
    have hys : ys = [] := by simpa using hm.symm
    subst hys
    have hpa : q.prev a = q.dummy_ := hc
    cases fuel with
    | zero => simp [scan] at hs
    | succ fuel =>
      rw [hpa] at hs
      simp only [scan, if_true, Option.some.injEq] at hs
      exact ⟨[], [], [], [], rfl, rfl, rfl, Or.inl ⟨rfl, hs.symm⟩, rfl, by simp, by simp⟩
  | cons r R ih =>
    intro ys a fuel node hc hm hd hs
    obtain ⟨hpa, hc1⟩ := hc
    cases ys with
    | nil => simp at hm
    | cons y ys =>
      simp only [List.map_cons, List.cons.injEq] at hm
      obtain ⟨hy, hm1⟩ := hm
      have hrd : r ≠ q.dummy_ := fun e => hd (by simp [e])
      have hdR : q.dummy_ ∉ R := fun e => hd (List.mem_cons_of_mem _ e)
      cases fuel with
      | zero => simp [scan] at hs
      | succ fuel =>
        rw [hpa] at hs
        simp only [scan, if_neg hrd, hy] at hs
        by_cases hlt : lt y v = true
        · rw [if_pos hlt] at hs
          simp only [Option.some.injEq] at hs
          subst hs
          refine ⟨[], r :: R, [], y :: ys, rfl, rfl, rfl, Or.inr ⟨R, rfl⟩, ?_, by simp, ?_⟩
          · simp [insertRev, hlt]
          · intro z hz
            simp only [List.head?_cons, Option.some.injEq] at hz
            rw [← hz]; exact hlt
        · rw [if_neg hlt] at hs
          obtain ⟨R1, R2, ys1, ys2, e1, e2, e3, e4, e5, e6, e7⟩ :=
            ih ys r fuel node hc1 hm1 hdR hs
          refine ⟨r :: R1, R2, y :: ys1, ys2, by simp [e1], by simp [e2], by simp [e3], e4,
            ?_, ?_, e7⟩
          · simp [insertRev, hlt, e5]
          · intro z hz
            simp only [List.mem_cons] at hz
            rcases hz with hz | hz
            · rw [hz]; simpa using hlt
            · exact e6 z hz

/-- The scan finishes within `R.length + 1` steps. -/
theorem scan_total (lt : T → T → Bool) (v : T) (q : RingQueue T) :
    ∀ (R : List Nat) (ys : List T) (a : Nat) (fuel : Nat),
      Chain q.prev a R q.dummy_ → R.map q.data = ys.map some →
      R.length < fuel → ∃ node, scan lt v q fuel (q.prev a) = some node := by
  intro R
  induction R with
  | nil =>
    intro ys a fuel hc _ hf
    have hpa : q.prev a = q.dummy_ := hc
    obtain ⟨k, rfl⟩ : ∃ k, fuel = k + 1 := ⟨fuel - 1, by simp at hf; omega⟩
    exact ⟨q.dummy_, by rw [hpa]; simp [scan]⟩
  | cons r R ih =>
    intro ys a fuel hc hm hf
    obtain ⟨hpa, hc1⟩ := hc
    cases ys with
    | nil => simp at hm
    | cons y ys =>
      simp only [List.map_cons, List.cons.injEq] at hm
      obtain ⟨hy, hm1⟩ := hm
      obtain ⟨k, rfl⟩ : ∃ k, fuel = k + 1 := ⟨fuel - 1, by simp at hf; omega⟩
      rw [hpa]
      simp only [scan, hy]
      by_cases hrd : r = q.dummy_
      · exact ⟨r, by rw [if_pos hrd]⟩
      · rw [if_neg hrd]
        by_cases hlt : lt y v = true
        · exact ⟨r, by rw [if_pos hlt]⟩
        · rw [if_neg hlt]
          exact ih ys r k hc1 hm1 (by simpa using hf)

/-- The scan of `push`, read on the live list: it splits the live nodes and their
elements at the insertion point. -/
theorem Inv.scan {sizeofNode Size : Nat} {q : RingQueue T} {L F H : List Nat} {xs : List T}
    (h : Inv sizeofNode Size q L F H xs) (lt : T → T → Bool) (v : T) {fuel node : Nat}
    (hs : RingQueue.scan lt v q fuel (q.prev q.dummy_) = some node) :
    ∃ L1 L2 xs1 xs2, L = L1 ++ L2 ∧ xs = xs1 ++ xs2 ∧ xs1.length = L1.length ∧
      ((L1 = [] ∧ node = q.dummy_) ∨ ∃ L0, L1 = L0 ++ [node]) ∧
      insertFromTail lt v xs = xs1 ++ v :: xs2 ∧
      (∀ y ∈ xs2, lt y v = false) ∧ (∀ y, xs1.getLast? = some y → lt y v = true) := by
  obtain ⟨hdL, -⟩ := (nodup_cells _ _ _ _).1 h.nodup
  have hm : L.reverse.map q.data = xs.reverse.map some := by
    rw [List.map_reverse, List.map_reverse, h.vals]
  obtain ⟨R1, R2, ys1, ys2, e1, e2, e3, e4, e5, e6, e7⟩ :=
    scan_spec lt v q L.reverse xs.reverse q.dummy_ fuel node (dchain_bwd h.ring) hm
      (by simpa using hdL) hs
  have eL : L = R2.reverse ++ R1.reverse := by
    rw [← List.reverse_append, ← e1, List.reverse_reverse]
  have eX : xs = ys2.reverse ++ ys1.reverse := by
    rw [← List.reverse_append, ← e2, List.reverse_reverse]
  have hl : xs.length = L.length := h.length_eq
  refine ⟨R2.reverse, R1.reverse, ys2.reverse, ys1.reverse, eL, eX, ?_, ?_, ?_, ?_, ?_⟩
  · have l1 := congrArg List.length eL
    have l2 := congrArg List.length eX
    simp only [List.length_append, List.length_reverse] at l1 l2 ⊢
    omega
  · rcases e4 with ⟨e, e'⟩ | ⟨R3, e⟩
    · exact Or.inl ⟨by simp [e], e'⟩
    · exact Or.inr ⟨R3.reverse, by simp [e]⟩
  · unfold insertFromTail
    rw [e5]
    simp
  · intro y hy
    exact e6 y (by simpa using hy)
  · intro y hy
    apply e7 y
    simpa [List.getLast?_reverse] using hy

theorem Inv.scan_finishes {sizeofNode Size : Nat} {q : RingQueue T} {L F H : List Nat}
    {xs : List T} (h : Inv sizeofNode Size q L F H xs) (lt : T → T → Bool) (v : T)
    {fuel : Nat} (hf : L.length < fuel) :
    ∃ node, RingQueue.scan lt v q fuel (q.prev q.dummy_) = some node := by
  have hm : L.reverse.map q.data = xs.reverse.map some := by
    rw [List.map_reverse, List.map_reverse, h.vals]
  exact RingQueue.scan_total lt v q L.reverse xs.reverse q.dummy_ fuel (dchain_bwd h.ring) hm
    (by simpa using hf)

/-- Front-to-back iteration along a forward chain visits exactly its nodes. -/
theorem walk_spec (q : RingQueue T) :
    ∀ (L : List Nat) (a : Nat) (fuel : Nat),
      Chain q.next a L q.dummy_ → q.dummy_ ∉ L →
      (L.length < fuel → walk q fuel (q.next a) = some L) ∧
      (∀ ps, walk q fuel (q.next a) = some ps → ps = L) := by
  intro L
  induction L with
  | nil =>
    intro a fuel hc _
    have hpa : q.next a = q.dummy_ := hc
    rw [hpa]
    cases fuel with
    | zero => simp [walk]
    | succ fuel => simp [walk]
  | cons r L ih =>
    intro a fuel hc hd
    obtain ⟨hpa, hc1⟩ := hc
    have hrd : r ≠ q.dummy_ := fun e => hd (by simp [e])
    have hdL : q.dummy_ ∉ L := fun e => hd (List.mem_cons_of_mem _ e)
    rw [hpa]
    cases fuel with
    | zero => simp [walk]
    | succ fuel =>
      obtain ⟨i1, i2⟩ := ih r fuel hc1 hdL
      simp only [walk, if_neg hrd]
      constructor
      · intro hf
        rw [i1 (by simpa using hf)]
        rfl
      · intro ps hps
        cases hw : walk q fuel (q.next r) with
        | none => rw [hw] at hps; simp at hps
        | some l =>
          rw [hw] at hps
          simp only [Option.map_some', Option.some.injEq] at hps
          rw [← hps, i2 l hw]

theorem derefAll_spec (q : RingQueue T) :
    ∀ (L : List Nat) (xs : List T), L.map q.data = xs.map some → derefAll q L = some xs := by
  intro L
  induction L with
  | nil =>
    intro xs h
    have : xs = [] := by simpa using h.symm
    subst this
    rfl
  | cons p L ih =>
    intro xs h
    cases xs with
    | nil => simp at h
    | cons x xs =>
      simp only [List.map_cons, List.cons.injEq] at h
      simp only [derefAll, h.1, ih xs h.2]

/-- Iterating a queue that satisfies the invariant reads exactly `xs`. -/
theorem Inv.toList {sizeofNode Size : Nat} {q : RingQueue T} {L F H : List Nat} {xs : List T}
    (h : Inv sizeofNode Size q L F H xs) (fuel : Nat) :
    (L.length < fuel → q.toList fuel = some xs) ∧
    (∀ ys, q.toList fuel = some ys → ys = xs) := by
  obtain ⟨hdL, -⟩ := (nodup_cells _ _ _ _).1 h.nodup
  obtain ⟨w1, w2⟩ := walk_spec q L q.dummy_ fuel (dchain_fwd h.ring) hdL
  unfold RingQueue.toList RingQueue.begin
  constructor
  · intro hf
    rw [w1 hf]
    exact derefAll_spec q L xs h.vals
  · intro ys hy
    cases hw : walk q fuel (q.next q.dummy_) with
    | none => rw [hw] at hy; simp at hy
    | some ps =>
      rw [hw] at hy
      simp only at hy
      rw [w2 ps hw, derefAll_spec q L xs h.vals] at hy
      exact (Option.some.inj hy).symm

/-! ## The operations keep the invariant -/

/-- The number of live nodes stays far below `INT_MAX`, so that the increment
`length_++` of `push` and `emplace` never overflows the `int` counter. -/
theorem Good.length_small {sizeofNode Size : Nat} {q : RingQueue T} {L F : List Nat}
    {xs : List T} (h : Good sizeofNode Size q L F xs) (hS : Size < 2 ^ 32) :
    L.length + 1 < 2 ^ 29 := by
  have hcap := h.cap
  by_cases h2 : Size + 2 < 2 ^ 32
  · have hN : allocNum Size = Size + 2 := Nat.mod_eq_of_lt h2
    obtain ⟨f1, f2⟩ := h.inv.fit
    rw [hN] at f2
    have hc8 : CHUNK_BYTES = 8 := rfl
    have : 8 * (Size + 2) ≤ q.alloc_.chunk_size_ * (Size + 2) :=
      Nat.mul_le_mul_right _ (by omega)
    omega
  · have hN : allocNum Size ≤ 1 := by
      unfold allocNum
      omega
    have hc := h.inv.count
    have hp := h.inv.pools
    have : q.alloc_.pool_num_ * allocNum Size ≤ MAXPOOLNUM * 1 := Nat.mul_le_mul hp hN
    simp only [MAXPOOLNUM, List.length_nil] at this hc
    omega

theorem Good.length_bound {sizeofNode Size : Nat} {q : RingQueue T} {L F : List Nat}
    {xs : List T} (h : Good sizeofNode Size q L F xs) (hS : Size < 2 ^ 32) :
    L.length + 1 < 2 ^ 32 := by
  have := h.length_small hS
  omega

/-- The tail of `push` and `emplace` re-establishes the invariant. -/
theorem Inv.linkAfter {sizeofNode Size : Nat} {q : RingQueue T} {L1 L2 F : List Nat}
    {xs1 xs2 : List T} {new node : Nat} {v : T}
    (h : Inv sizeofNode Size q (L1 ++ L2) F [new] (xs1 ++ xs2))
    (hv : q.data new = some v) (hlen : xs1.length = L1.length)
    (hnode : (L1 = [] ∧ node = q.dummy_) ∨ ∃ L0, L1 = L0 ++ [node])
    (hcap : (L1 ++ L2).length ≤ Size) (hb : (L1 ++ L2).length + 1 < 2 ^ 32) :
    ∃ L3 F3, Good sizeofNode Size (q.linkAfter Size node new) L3 F3
      (if Size < (xs1 ++ v :: xs2).length then (xs1 ++ v :: xs2).tail else xs1 ++ v :: xs2) := by
  have h3 := Inv.link h hv hlen hnode
  have hl := h3.length_eq
  have hlen3 : (L1 ++ new :: L2).length = (L1 ++ L2).length + 1 := by
    simp only [List.length_append, List.length_cons]; omega
  have hcond : ((Size : Int) < (q.link node new).length_ % 2 ^ 32) ↔
      Size < (xs1 ++ v :: xs2).length := by
    rw [h3.len, hl, hlen3]
    have : ((((L1 ++ L2).length + 1 : Nat) : Int)) % 2 ^ 32 = (((L1 ++ L2).length + 1 : Nat) : Int) := by
      apply Int.emod_eq_of_lt
      · exact Int.ofNat_nonneg _
      · exact_mod_cast hb
    rw [this]
    exact Int.ofNat_lt
  unfold RingQueue.linkAfter
  simp only
  by_cases hc : Size < (xs1 ++ v :: xs2).length
  · rw [if_pos (hcond.2 hc), if_pos hc]
    cases hL : L1 ++ new :: L2 with
    | nil => simp at hL
    | cons p t =>
      cases hX : xs1 ++ v :: xs2 with
      | nil => simp at hX
      | cons x xs3 =>
        rw [hL, hX] at h3
        refine ⟨t, F ++ [p], ⟨Inv.deleteHead h3, ?_⟩⟩
        have := congrArg List.length hL
        rw [hlen3] at this
        simp only [List.length_cons] at this
        omega
  · rw [if_neg (fun e => hc (hcond.1 e)), if_neg hc]
    refine ⟨_, _, ⟨h3, ?_⟩⟩
    rw [← hl]
    omega

/-- A call of `push` that returns keeps the invariant and changes the stored
sequence as `pushList` says. -/
theorem Good.push {sizeofNode Size : Nat} {q q1 : RingQueue T} {L F : List Nat} {xs : List T}
    (h : Good sizeofNode Size q L F xs) (hS : Size < 2 ^ 32) (lt : T → T → Bool)
    {fuel : Nat} {v : T} (hp : q.push lt Size fuel v = some q1) :
    ∃ L1 F1, Good sizeofNode Size q1 L1 F1 (pushList lt Size v xs) := by
  unfold RingQueue.push at hp
  split at hp
  · exact absurd hp (by simp)
  · rename_i node hscan
    split at hp
    · exact absurd hp (by simp)
    · rename_i new a hget
      split at hp
      · exact absurd hp (by simp)
      · rename_i hnew
        simp only [Option.some.injEq] at hp
        subst hp
        obtain ⟨F1, hi1⟩ := h.inv.getNode h.cap hget hnew
        obtain ⟨hi2, hdata⟩ := hi1.construct v
        obtain ⟨L1, L2, xs1, xs2, eL, eX, hlen, hnode, hins, -, -⟩ := h.inv.scan lt v hscan
        subst eL eX
        have := Inv.linkAfter hi2 hdata hlen hnode h.cap (h.length_bound hS)
        unfold pushList
        simp only [hins]
        exact this

/-- A call of `emplace` that returns keeps the invariant and changes the stored
sequence as `pushList` says. -/
theorem Good.emplace {sizeofNode Size : Nat} {q q1 : RingQueue T} {L F : List Nat}
    {xs : List T} (h : Good sizeofNode Size q L F xs) (hS : Size < 2 ^ 32) (lt : T → T → Bool)
    {fuel : Nat} {v : T} (hp : q.emplace lt Size fuel v = some q1) :
    ∃ L1 F1, Good sizeofNode Size q1 L1 F1 (pushList lt Size v xs) := by
  unfold RingQueue.emplace at hp
  split at hp
  · exact absurd hp (by simp)
  · rename_i new a hget
    split at hp
    · exact absurd hp (by simp)
    · rename_i hnew
      obtain ⟨F1, hi1⟩ := h.inv.getNode h.cap hget hnew
      obtain ⟨hi2, hdata⟩ := hi1.construct v
      simp only [hdata] at hp
      split at hp
      · exact absurd hp (by simp)
      · rename_i node hscan
        simp only [Option.some.injEq] at hp
        subst hp
        obtain ⟨L1, L2, xs1, xs2, eL, eX, hlen, hnode, hins, -, -⟩ := hi2.scan lt v hscan
        subst eL eX
        have := Inv.linkAfter hi2 hdata hlen hnode h.cap (h.length_bound hS)
        unfold pushList
        simp only [hins]
        exact this

/-- A call of `pop` keeps the invariant and drops the first stored element. -/
theorem Good.pop {sizeofNode Size : Nat} {q : RingQueue T} {L F : List Nat} {xs : List T}
    (h : Good sizeofNode Size q L F xs) :
    ∃ F1, Good sizeofNode Size q.pop L.tail F1 xs.tail := by
  unfold RingQueue.pop
  have hl := h.inv.length_eq
  cases L with
  | nil =>
    have hx : xs = [] := List.length_eq_zero.1 (by simpa using hl)
    subst hx
    have : ¬ q.length_ > 0 := by rw [h.inv.len]; simp
    rw [if_neg this]
    exact ⟨F, h⟩
  | cons p t =>
    cases xs with
    | nil => simp at hl
    | cons x xs =>
      have : q.length_ > 0 := by
        rw [h.inv.len]
        simp only [List.length_cons]
        push_cast
        omega
      rw [if_pos this]
      refine ⟨F ++ [p], ⟨Inv.deleteHead h.inv, ?_⟩⟩
      have := h.cap
      simp only [List.length_cons, List.tail_cons] at this ⊢
      omega

/-- The live iterators are the nodes of the live list. -/
theorem Inv.live_iff {sizeofNode Size : Nat} {q : RingQueue T} {L F H : List Nat}
    {xs : List T} (h : Inv sizeofNode Size q L F H xs) (p : Nat) : q.Live p ↔ p ∈ L := by
  obtain ⟨hdL, -⟩ := (nodup_cells _ _ _ _).1 h.nodup
  constructor
  · rintro ⟨fuel, ps, hw, hp⟩
    have := (walk_spec q L q.dummy_ fuel (dchain_fwd h.ring) hdL).2 ps hw
    rw [← this]; exact hp
  · intro hp
    exact ⟨L.length + 1, L,
      (walk_spec q L q.dummy_ _ (dchain_fwd h.ring) hdL).1 (Nat.lt_succ_self _), hp⟩

/-- A call of `erase` on a live element keeps the invariant and removes exactly the
element of that node. -/
theorem Good.erase_live {sizeofNode Size : Nat} {q : RingQueue T} {L F : List Nat} {xs : List T}
    (h : Good sizeofNode Size q L F xs) {p : Nat} (hp : q.Live p) :
    ∃ L1 L2 xs1 x xs2, L = L1 ++ p :: L2 ∧ xs = xs1 ++ x :: xs2 ∧ xs1.length = L1.length ∧
      q.data p = some x ∧
      Good sizeofNode Size (q.erase p).1 (L1 ++ L2) (F ++ [p]) (xs1 ++ xs2) := by
  have hpL := (h.inv.live_iff p).1 hp
  obtain ⟨L1, L2, rfl⟩ := List.mem_iff_append.1 hpL
  obtain ⟨xs1, x, xs2, rfl, hlen, -, hd, -⟩ := vals_split h.inv.vals
  refine ⟨L1, L2, xs1, x, xs2, rfl, rfl, hlen, hd, ⟨Inv.erase h.inv hlen, ?_⟩⟩
  have := h.cap
  simp only [List.length_append, List.length_cons] at this ⊢
  omega

/-! ### `clear` -/

theorem foldl_PutNode_fields (L : List Nat) (a : Allocator) :
    (L.foldl PutNode a).pool_num_ = a.pool_num_ ∧
    (L.foldl PutNode a).chunk_size_ = a.chunk_size_ := by
  induction L generalizing a with
  | nil => exact ⟨rfl, rfl⟩
  | cons p L ih =>
    simp only [List.foldl_cons]
    exact ih (PutNode a p)

theorem foldl_PutNode_freeList (L : List Nat) :
    ∀ (a : Allocator) (F : List Nat), FreeList a F → (F ++ L).Nodup →
      FreeList (L.foldl PutNode a) (F ++ L) := by
  induction L with
  | nil => intro a F h _; simpa using h
  | cons p L ih =>
    intro a F h nd
    simp only [List.foldl_cons]
    have e : F ++ p :: L = (F ++ [p]) ++ L := by simp
    rw [e] at nd ⊢
    exact ih (PutNode a p) (F ++ [p])
      (PutNode_freeList h (List.nodup_append.1 (List.nodup_append.1 nd).1).1 p) nd

/-- A finished run of the loop of `clear` has destroyed and released every node of
the chain, in order, and has touched nothing else. -/
theorem clearLoop_spec :
    ∀ (L : List Nat) (a : Nat) (q : RingQueue T) (fuel : Nat) (q1 : RingQueue T),
      Chain q.next a L q.dummy_ → q.dummy_ ∉ L →
      clearLoop fuel (q.next a) q = some q1 →
      q1.next = q.next ∧ q1.prev = q.prev ∧ q1.dummy_ = q.dummy_ ∧ q1.length_ = q.length_ ∧
      q1.destroyed = L.reverse ++ q.destroyed ∧ q1.alloc_ = L.foldl PutNode q.alloc_ ∧
      (∀ p, q1.data p = if p ∈ L then none else q.data p) := by
  intro L
  induction L with
  | nil =>
    intro a q fuel q1 hc _ hl
    have hpa : q.next a = q.dummy_ := hc
    rw [hpa] at hl
    cases fuel with
    | zero => simp [clearLoop] at hl
    | succ fuel =>
      simp only [clearLoop, if_true, Option.some.injEq] at hl
      subst hl
      simp
  | cons r L ih =>
    intro a q fuel q1 hc hd hl
    obtain ⟨hpa, hc1⟩ := hc
    have hrd : r ≠ q.dummy_ := fun e => hd (by simp [e])
    have hdL : q.dummy_ ∉ L := fun e => hd (List.mem_cons_of_mem _ e)
    rw [hpa] at hl
    cases fuel with
    | zero => simp [clearLoop] at hl
    | succ fuel =>
      simp only [clearLoop, if_neg hrd] at hl
      obtain ⟨e1, e2, e3, e4, e5, e6, e7⟩ :=
        ih r { q._destroy r with alloc_ := PutNode (q._destroy r).alloc_ r } fuel q1 hc1 hdL hl
      refine ⟨e1, e2, e3, e4, ?_, e6, ?_⟩
      · rw [e5]
        simp [_destroy]
      · intro p
        rw [e7 p]
        by_cases hp : p ∈ L
        · simp [hp]
        · by_cases hpr : p = r
          · subst hpr
            simp [hp, _destroy, store_same]
          · simp [hp, hpr, _destroy, store_other _ _ hpr]

theorem clearLoop_total :
    ∀ (L : List Nat) (a : Nat) (q : RingQueue T) (fuel : Nat),
      Chain q.next a L q.dummy_ → L.length < fuel →
      ∃ q1, clearLoop fuel (q.next a) q = some q1 := by
  intro L
  induction L with
  | nil =>
    intro a q fuel hc hf
    have hpa : q.next a = q.dummy_ := hc
    obtain ⟨k, rfl⟩ : ∃ k, fuel = k + 1 := ⟨fuel - 1, by simp at hf; omega⟩
    rw [hpa]
    exact ⟨q, by simp [clearLoop]⟩
  | cons r L ih =>
    intro a q fuel hc hf
    obtain ⟨hpa, hc1⟩ := hc
    obtain ⟨k, rfl⟩ : ∃ k, fuel = k + 1 := ⟨fuel - 1, by simp at hf; omega⟩
    rw [hpa]
    simp only [clearLoop]
    by_cases hrd : r = q.dummy_
    · rw [if_pos hrd]; exact ⟨q, rfl⟩
    · rw [if_neg hrd]
      exact ih r { q._destroy r with alloc_ := PutNode (q._destroy r).alloc_ r } k hc1
        (by simpa using hf)

/-- A call of `clear` that returns leaves an empty queue: every live node has been
destroyed once and appended to the free list. -/
theorem Inv.clear {sizeofNode Size : Nat} {q q1 : RingQueue T} {L F H : List Nat}
    {xs : List T} (h : Inv sizeofNode Size q L F H xs) {fuel : Nat}
    (hc : q.clear fuel = some q1) :
    Inv sizeofNode Size q1 [] (F ++ L) H [] ∧ q1.destroyed = L.reverse ++ q.destroyed ∧
      q1.dummy_ = q.dummy_ ∧ (∀ p ∈ L, q1.data p = none) := by
  obtain ⟨hdL, hdF, hdH, hLnd, hFnd, hHnd, hLF, hLH, hFH⟩ := (nodup_cells _ _ _ _).1 h.nodup
  unfold RingQueue.clear at hc
  split at hc
  · exact absurd hc (by simp)
  · rename_i q2 hloop
    simp only [Option.some.injEq] at hc
    subst hc
    obtain ⟨e1, e2, e3, e4, e5, e6, e7⟩ :=
      clearLoop_spec L q.dummy_ q _ q2 (dchain_fwd h.ring) hdL hloop
    have hperm : (q.dummy_ :: (L ++ (F ++ H))).Perm (q.dummy_ :: ([] ++ ((F ++ L) ++ H))) := by
      apply perm_of_count
      intro a
      simp only [List.count_cons, List.count_append, List.count_nil]
      omega
    have hFL : (F ++ L).Nodup := by
      rw [List.nodup_append]
      exact ⟨hFnd, hLnd, fun x hx hx1 => hLF x hx1 hx⟩
    refine ⟨?_, e5, e3, fun p hp => by show q2.data p = none; rw [e7 p, if_pos hp]⟩
    exact
      { ring := by
          show DChain (store q2.next q2.dummy_ q2.dummy_) (store q2.prev q2.dummy_ q2.dummy_)
            q2.dummy_ [] q2.dummy_
          exact ⟨store_same _ _ _, store_same _ _ _⟩
        nodup := by
          show (q2.dummy_ :: ([] ++ ((F ++ L) ++ H))).Nodup
          rw [e3]
          exact hperm.nodup_iff.1 h.nodup
        len := rfl
        vals := rfl
        raw := by
          intro p _ hp
          show q2.data p = none
          rw [e7 p]
          by_cases hpL : p ∈ L
          · rw [if_pos hpL]
          · rw [if_neg hpL]
            exact h.raw p hpL hp
        free := by
          show FreeList q2.alloc_ (F ++ L)
          rw [e6]
          exact foldl_PutNode_freeList L _ F h.free hFL
        range := by
          intro p hp
          show p ≠ nullptr ∧ p < callocAddr q2.alloc_.pool_num_
          rw [e6, (foldl_PutNode_fields L q.alloc_).1]
          apply h.range p
          apply hperm.mem_iff.2
          have hp' : p ∈ q2.dummy_ :: ([] ++ ((F ++ L) ++ H)) := hp
          rw [e3] at hp'
          exact hp'
        count := by
          show q2.alloc_.pool_num_ * allocNum Size = _
          rw [e6, (foldl_PutNode_fields L q.alloc_).1, h.count]
          simp only [List.length_append, List.length_nil]
        chunk := by
          show q2.alloc_.chunk_size_ = _
          rw [e6, (foldl_PutNode_fields L q.alloc_).2]
          exact h.chunk
        fit := by
          show CHUNK_BYTES ≤ q2.alloc_.chunk_size_ ∧ q2.alloc_.chunk_size_ * allocNum Size < 2 ^ 32
          rw [e6, (foldl_PutNode_fields L q.alloc_).2]
          exact h.fit
        pools := by
          show q2.alloc_.pool_num_ ≤ _
          rw [e6, (foldl_PutNode_fields L q.alloc_).1]
          exact h.pools
        few := by
          show _ → q2.alloc_.pool_num_ ≤ _
          rw [e6, (foldl_PutNode_fields L q.alloc_).1]
          exact h.few }

theorem Inv.clear_total {sizeofNode Size : Nat} {q : RingQueue T} {L F H : List Nat}
    {xs : List T} (h : Inv sizeofNode Size q L F H xs) {fuel : Nat} (hf : L.length < fuel) :
    ∃ q1, q.clear fuel = some q1 := by
  obtain ⟨q2, hq2⟩ := clearLoop_total L q.dummy_ q fuel (dchain_fwd h.ring) hf
  unfold RingQueue.clear
  rw [hq2]
  exact ⟨_, rfl⟩

/-! ### Construction, and the calls that cannot fail -/

theorem Fits_facts {sizeofNode Size : Nat} (h : Fits sizeofNode Size) :
    Size + 2 < 2 ^ 32 ∧ allocNum Size = Size + 2 ∧
      CHUNK_BYTES ≤ ((sizeofNode + 7) / 8 * 8) % 2 ^ 32 ∧
      ((sizeofNode + 7) / 8 * 8) % 2 ^ 32 * allocNum Size < 2 ^ 32 := by
  obtain ⟨h1, h2⟩ := h
  have hc : 8 ≤ (sizeofNode + 7) / 8 * 8 := by omega
  have hS : Size + 2 ≤ (sizeofNode + 7) / 8 * 8 * (Size + 2) :=
    Nat.le_mul_of_pos_left _ (by omega)
  have hC : (sizeofNode + 7) / 8 * 8 ≤ (sizeofNode + 7) / 8 * 8 * (Size + 2) :=
    Nat.le_mul_of_pos_right _ (by omega)
  have hS2 : Size + 2 < 2 ^ 32 := by omega
  have hN : allocNum Size = Size + 2 := Nat.mod_eq_of_lt hS2
  have hm : ((sizeofNode + 7) / 8 * 8) % 2 ^ 32 = (sizeofNode + 7) / 8 * 8 :=
    Nat.mod_eq_of_lt (by omega)
  rw [hm, hN]
  exact ⟨hS2, rfl, by simp only [CHUNK_BYTES]; omega, h2⟩

/-- The constructor establishes the invariant on an empty queue. -/
theorem Init_good {sizeofNode Size : Nat} {q : RingQueue T}
    (h : Init sizeofNode Size = some q) : ∃ F, Good sizeofNode Size q [] F [] := by
  unfold Init Allocator.new at h
  simp only at h
  cases hi : InitOnePool (allocNum Size)
      { headers_ := fun _ => nullptr, pool_num_ := 0,
        chunk_size_ := ((sizeofNode + 7) / 8 * 8) % 2 ^ 32,
        start_ := nullptr, end_ := nullptr, chunk_next := fun _ => nullptr } with
  | none => rw [hi] at h; simp at h
  | some r =>
    obtain ⟨a0, rc⟩ := r
    rw [hi] at h
    simp only [Option.map_some'] at h
    rcases InitOnePool_spec hi with
      ⟨-, -, hbad⟩ | ⟨-, -, hpn, hcs, hpos, hN, hfit0, hfl, hrange, -⟩
    · simp [MAXPOOLNUM] at hbad
    · simp only at hpn hcs hpos hfl hrange
      split at h
      · exact absurd h (by simp)
      · rename_i d a1 hget
        split at h
        · exact absurd h (by simp)
        · rename_i hd
          simp only [Option.some.injEq] at h
          subst h
          obtain ⟨F1, hfl1, hnd1, hmem, hcs1, hsrc, hcount, hpool⟩ :=
            GetNode_spec hfl (slots_nodup hpos _ _) hget hd
          have hdr := hrange d hmem
          have hmono : a0.pool_num_ ≤ a1.pool_num_ := by
            rcases hpool with e | ⟨e, _⟩ <;> omega
          have hca := callocAddr_mono hmono
          rw [hpn] at hca hsrc
          have hF1 : ∀ x ∈ F1, x ≠ d ∧ x ≠ nullptr ∧ x < callocAddr a1.pool_num_ := by
            intro x hx
            have h0 : 0 < callocAddr 0 := by simp [callocAddr]
            rcases hsrc x hx with ⟨hxF, hxn⟩ | ⟨hlo, hhi⟩
            · have := hrange x hxF
              refine ⟨hxn, ?_, by omega⟩
              simp only [nullptr]; omega
            · refine ⟨by omega, ?_, hhi⟩
              simp only [nullptr]; omega
          refine ⟨F1, ⟨?_, Nat.zero_le _⟩⟩
          exact
            { ring := by
                show DChain (store _ d d) (store _ d d) d [] d
                exact ⟨store_same _ _ _, store_same _ _ _⟩
              nodup := by
                show (d :: ([] ++ (F1 ++ []))).Nodup
                simp only [List.nil_append, List.append_nil, List.nodup_cons]
                exact ⟨fun e => (hF1 d e).1 rfl, hnd1⟩
              len := rfl
              vals := rfl
              raw := fun _ _ _ => rfl
              free := hfl1
              range := by
                intro p hp
                show p ≠ nullptr ∧ p < callocAddr a1.pool_num_
                have hp' : p ∈ d :: ([] ++ (F1 ++ [])) := hp
                simp only [List.nil_append, List.append_nil, List.mem_cons] at hp'
                rcases hp' with e | e
                · subst e
                  exact ⟨hd, lt_of_lt_of_le hdr.2 hca⟩
                · exact (hF1 p e).2
              count := by
                show a1.pool_num_ * allocNum Size = _
                rw [slots_length, hpn] at hcount
                simp only [List.length_nil]
                omega
              chunk := by
                show a1.chunk_size_ = _
                rw [hcs1, hcs]
              fit := by
                show CHUNK_BYTES ≤ a1.chunk_size_ ∧ a1.chunk_size_ * allocNum Size < 2 ^ 32
                rw [hcs1, hcs]
                exact ⟨hfit0.1, hfit0.2 (Nat.mod_lt _ (by norm_num))⟩
              pools := by
                show a1.pool_num_ ≤ MAXPOOLNUM
                have hmax : MAXPOOLNUM = 10 := rfl
                rcases hpool with e | ⟨e, -, e3⟩ <;> omega
              few := by
                intro _
                show a1.pool_num_ ≤ 2
                rcases hpool with e | ⟨e, -, -⟩ <;> omega }

/-- The constructor returns when the configuration fits. -/
theorem Init_total {sizeofNode Size : Nat} (hfit : Fits sizeofNode Size) :
    ∃ q : RingQueue T, Init sizeofNode Size = some q := by
  obtain ⟨hS2, hN, hcb, hmul⟩ := Fits_facts hfit
  unfold Init Allocator.new
  simp only
  obtain ⟨a0, ha0⟩ := InitOnePool_total (allocNum Size)
    { headers_ := fun _ => nullptr, pool_num_ := 0,
      chunk_size_ := ((sizeofNode + 7) / 8 * 8) % 2 ^ 32,
      start_ := nullptr, end_ := nullptr, chunk_next := fun _ => nullptr }
    (by simp [MAXPOOLNUM]) hcb (by rw [hN]; omega) hmul
  rw [ha0]
  simp only [Option.map_some']
  rcases InitOnePool_spec ha0 with
    ⟨hbad, -⟩ | ⟨-, -, hpn, hcs, hpos, hNum, -, hfl, hrange, -⟩
  · exact absurd hbad (by decide)
  · simp only at hpn hcs hpos hfl hrange
    obtain ⟨d, a1, hget, hd⟩ := GetNode_total (allocNum Size) hfl (slots_nodup hpos _ _)
      (by
        intro x hx
        have := (hrange x hx).1
        have h0 : 0 < callocAddr 0 := by simp [callocAddr]
        simp only [nullptr]; omega)
      (by
        intro _
        refine ⟨by rw [hpn]; simp [MAXPOOLNUM], by rw [hcs]; exact hcb, hNum, by rw [hcs]; exact hmul⟩)
    rw [hget]
    simp only [if_neg hd]
    exact ⟨_, rfl⟩

/-- The allocator of a queue whose slot count `Size + 2` does not wrap around always
has a slot to give. -/
theorem Good.getNode_total {sizeofNode Size : Nat} {q : RingQueue T} {L F : List Nat}
    {xs : List T} (h : Good sizeofNode Size q L F xs) (hS2 : Size + 2 < 2 ^ 32) :
    ∃ new a1, GetNode (allocNum Size) q.alloc_ = some (new, a1) ∧ new ≠ nullptr := by
  have hN : allocNum Size = Size + 2 := Nat.mod_eq_of_lt hS2
  apply GetNode_total (allocNum Size) h.inv.free h.inv.F_nodup
  · intro x hx
    exact (h.inv.range x (by simp [hx])).1
  · intro _
    have := h.inv.few hS2
    exact ⟨by simp only [MAXPOOLNUM]; omega, h.inv.fit.1, by rw [hN]; omega, h.inv.fit.2⟩

/-- When `Size + 2` does not wrap around, `push` returns as soon as the fuel exceeds
the number of stored elements. -/
theorem Good.push_total {sizeofNode Size : Nat} {q : RingQueue T} {L F : List Nat}
    {xs : List T} (h : Good sizeofNode Size q L F xs) (hS2 : Size + 2 < 2 ^ 32)
    (lt : T → T → Bool) {fuel : Nat} (v : T) (hf : L.length < fuel) :
    ∃ q1, q.push lt Size fuel v = some q1 := by
  obtain ⟨node, hnode⟩ := h.inv.scan_finishes lt v hf
  obtain ⟨new, a1, hget, hnew⟩ := h.getNode_total hS2
  unfold RingQueue.push
  rw [hnode]
  simp only [hget, if_neg hnew]
  exact ⟨_, rfl⟩

/-- When `Size + 2` does not wrap around, `emplace` returns as soon as the fuel
exceeds the number of stored elements. -/
theorem Good.emplace_total {sizeofNode Size : Nat} {q : RingQueue T} {L F : List Nat}
    {xs : List T} (h : Good sizeofNode Size q L F xs) (hS2 : Size + 2 < 2 ^ 32)
    (lt : T → T → Bool) {fuel : Nat} (v : T) (hf : L.length < fuel) :
    ∃ q1, q.emplace lt Size fuel v = some q1 := by
  obtain ⟨new, a1, hget, hnew⟩ := h.getNode_total hS2
  obtain ⟨F1, hi1⟩ := h.inv.getNode h.cap hget hnew
  obtain ⟨hi2, hdata⟩ := hi1.construct v
  obtain ⟨node, hnode⟩ := hi2.scan_finishes lt v hf
  unfold RingQueue.emplace
  simp only [hget, if_neg hnew, hdata, hnode]
  exact ⟨_, rfl⟩

/-- Every reachable state satisfies the invariant. -/
theorem Reachable.good {sizeofNode Size : Nat} {lt : T → T → Bool} {q : RingQueue T}
    (h : Reachable sizeofNode Size lt q) :
    Size < 2 ^ 32 ∧ ∃ L F xs, Good sizeofNode Size q L F xs := by
  induction h with
  | init hS hi =>
    obtain ⟨F, hg⟩ := Init_good hi
    exact ⟨hS, [], F, [], hg⟩
  | push fuel v _ hp ih =>
    obtain ⟨hS, L, F, xs, hg⟩ := ih
    obtain ⟨L1, F1, hg1⟩ := hg.push hS lt hp
    exact ⟨hS, L1, F1, _, hg1⟩
  | emplace fuel v _ hp ih =>
    obtain ⟨hS, L, F, xs, hg⟩ := ih
    obtain ⟨L1, F1, hg1⟩ := hg.emplace hS lt hp
    exact ⟨hS, L1, F1, _, hg1⟩
  | pop _ ih =>
    obtain ⟨hS, L, F, xs, hg⟩ := ih
    obtain ⟨F1, hg1⟩ := hg.pop
    exact ⟨hS, _, F1, _, hg1⟩
  | erase p _ hp ih =>
    obtain ⟨hS, L, F, xs, hg⟩ := ih
    obtain ⟨L1, L2, xs1, x, xs2, -, -, -, -, hg1⟩ := hg.erase_live hp
    exact ⟨hS, _, _, _, hg1⟩
  | clear fuel _ hc ih =>
    obtain ⟨hS, L, F, xs, hg⟩ := ih
    obtain ⟨hi, -⟩ := hg.inv.clear hc
    exact ⟨hS, [], _, [], ⟨hi, Nat.zero_le _⟩⟩

end RingQueue

/-! ## Insertion from the tail, on lists -/

theorem insertRev_split {T : Type} (lt : T → T → Bool) (v : T) (ys : List T) :
    ∃ ys1 ys2, ys = ys1 ++ ys2 ∧ insertRev lt v ys = ys1 ++ v :: ys2 ∧
      (∀ y ∈ ys1, lt y v = false) ∧ (∀ y, ys2.head? = some y → lt y v = true) := by
  induction ys with
  | nil => exact ⟨[], [], rfl, rfl, by simp, by simp⟩
  | cons y ys ih =>
    by_cases hlt : lt y v = true
    · refine ⟨[], y :: ys, rfl, by simp [insertRev, hlt], by simp, ?_⟩
      intro z hz
      simp only [List.head?_cons, Option.some.injEq] at hz
      rw [← hz]; exact hlt
    · obtain ⟨ys1, ys2, e1, e2, e3, e4⟩ := ih
      refine ⟨y :: ys1, ys2, by simp [e1], by simp [insertRev, hlt, e2], ?_, e4⟩
      intro z hz
      simp only [List.mem_cons] at hz
      rcases hz with hz | hz
      · rw [hz]; simpa using hlt
      · exact e3 z hz

/-- Where `insertFromTail` puts the new value: behind the last element that is
ordered before it, and in front of elements that are not. -/
theorem insertFromTail_split {T : Type} (lt : T → T → Bool) (v : T) (xs : List T) :
    ∃ xs1 xs2, xs = xs1 ++ xs2 ∧ insertFromTail lt v xs = xs1 ++ v :: xs2 ∧
      (∀ y ∈ xs2, lt y v = false) ∧ (∀ y, xs1.getLast? = some y → lt y v = true) := by
  obtain ⟨ys1, ys2, e1, e2, e3, e4⟩ := insertRev_split lt v xs.reverse
  refine ⟨ys2.reverse, ys1.reverse, ?_, ?_, ?_, ?_⟩
  · rw [← List.reverse_append, ← e1, List.reverse_reverse]
  · unfold insertFromTail
    rw [e2]
    simp
  · intro y hy
    exact e3 y (by simpa using hy)
  · intro y hy
    apply e4 y
    simpa [List.getLast?_reverse] using hy

theorem insertFromTail_perm {T : Type} (lt : T → T → Bool) (v : T) (xs : List T) :
    (insertFromTail lt v xs).Perm (v :: xs) := by
  obtain ⟨xs1, xs2, e1, e2, -, -⟩ := insertFromTail_split lt v xs
  rw [e2, e1]
  exact List.perm_middle

theorem insertFromTail_length {T : Type} (lt : T → T → Bool) (v : T) (xs : List T) :
    (insertFromTail lt v xs).length = xs.length + 1 := by
  simpa using (insertFromTail_perm lt v xs).length_eq

/-- Insertion from the tail keeps an ascending sequence ascending. -/
theorem insertFromTail_ascending {T : Type} {lt : T → T → Bool} (hswo : StrictWeakOrder lt)
    (v : T) {xs : List T} (h : Ascending lt xs) : Ascending lt (insertFromTail lt v xs) := by
  obtain ⟨xs1, xs2, e1, e2, e3, e4⟩ := insertFromTail_split lt v xs
  rw [e2]
  subst e1
  unfold Ascending at h ⊢
  rw [List.pairwise_append] at h ⊢
  obtain ⟨h1, h2, h12⟩ := h
  have hv1 : ∀ a ∈ xs1, lt v a = false := by
    intro a ha
    rcases List.eq_nil_or_concat xs1 with e | ⟨l, z, e⟩
    · subst e; simp at ha
    · subst e
      have hz : lt z v = true := e4 z (by simp)
      by_contra hva
      have hva : lt v a = true := by simpa using hva
      have hza : lt z a = true := hswo.trans z v a hz hva
      rw [List.concat_eq_append, List.mem_append, List.mem_singleton] at ha
      rcases ha with ha | ha
      · rw [List.concat_eq_append, List.pairwise_append] at h1
        have := h1.2.2 a ha z (by simp)
        rw [this] at hza
        exact absurd hza (by simp)
      · rw [ha, hswo.irrefl] at hza
        exact absurd hza (by simp)
  refine ⟨h1, ?_, ?_⟩
  · rw [List.pairwise_cons]
    exact ⟨e3, h2⟩
  · intro a ha b hb
    simp only [List.mem_cons] at hb
    rcases hb with hb | hb
    · rw [hb]; exact hv1 a ha
    · exact h12 a ha b hb

theorem pushList_length {T : Type} (lt : T → T → Bool) (Size : Nat) (v : T) (xs : List T)
    (h : xs.length ≤ Size) : (pushList lt Size v xs).length = min (xs.length + 1) Size := by
  have hl := insertFromTail_length lt v xs
  unfold pushList
  simp only
  split
  · rename_i hc
    rw [hl] at hc
    rw [List.length_tail, hl]
    omega
  · rename_i hc
    rw [hl] at hc ⊢
    omega

theorem pushList_ascending {T : Type} {lt : T → T → Bool} (hswo : StrictWeakOrder lt)
    (Size : Nat) (v : T) {xs : List T} (h : Ascending lt xs) :
    Ascending lt (pushList lt Size v xs) := by
  have := insertFromTail_ascending hswo v h
  unfold pushList
  simp only
  split
  · exact List.Pairwise.sublist (List.tail_sublist _) this
  · exact this

/-! ## Reachable states -/

namespace RingQueue

variable {T : Type}

theorem Good.size_eq {sizeofNode Size : Nat} {q : RingQueue T} {L F : List Nat} {xs : List T}
    (h : Good sizeofNode Size q L F xs) (hS : Size < 2 ^ 32) :
    q.size = L.length ∧ q.size = xs.length := by
  have hb := h.length_bound hS
  have : q.size = L.length := by
    unfold RingQueue.size
    rw [h.inv.len]
    have : ((L.length : Nat) : Int) % 2 ^ 32 = ((L.length : Nat) : Int) := by
      apply Int.emod_eq_of_lt
      · exact Int.ofNat_nonneg _
      · exact_mod_cast (by omega : L.length < 2 ^ 32)
    rw [this]
    exact Int.toNat_ofNat _
  exact ⟨this, by rw [this, h.inv.length_eq]⟩

theorem Good.empty_iff {sizeofNode Size : Nat} {q : RingQueue T} {L F : List Nat}
    {xs : List T} (h : Good sizeofNode Size q L F xs) : q.empty = true ↔ L = [] := by
  obtain ⟨hdL, -⟩ := (nodup_cells _ _ _ _).1 h.inv.nodup
  unfold RingQueue.empty
  rw [beq_iff_eq]
  cases L with
  | nil => simpa using h.inv.ring.1
  | cons p t =>
    have e : q.next q.dummy_ = p := h.inv.ring.1
    rw [e]
    simp only [reduceCtorEq, iff_false]
    intro e1
    exact hdL (by simp [e1])

/-- Every reachable state satisfies the invariant and, when the comparator is a
strict weak ordering, stores an ascending sequence. -/
theorem Reachable.good_sorted {sizeofNode Size : Nat} {lt : T → T → Bool} {q : RingQueue T}
    (h : Reachable sizeofNode Size lt q) :
    Size < 2 ^ 32 ∧ ∃ L F xs, Good sizeofNode Size q L F xs ∧
      (StrictWeakOrder lt → Ascending lt xs) := by
  induction h with
  | init hS hi =>
    obtain ⟨F, hg⟩ := Init_good hi
    exact ⟨hS, [], F, [], hg, fun _ => List.Pairwise.nil⟩
  | push fuel v _ hp ih =>
    obtain ⟨hS, L, F, xs, hg, hs⟩ := ih
    obtain ⟨L1, F1, hg1⟩ := hg.push hS lt hp
    exact ⟨hS, L1, F1, _, hg1, fun hswo => pushList_ascending hswo Size v (hs hswo)⟩
  | emplace fuel v _ hp ih =>
    obtain ⟨hS, L, F, xs, hg, hs⟩ := ih
    obtain ⟨L1, F1, hg1⟩ := hg.emplace hS lt hp
    exact ⟨hS, L1, F1, _, hg1, fun hswo => pushList_ascending hswo Size v (hs hswo)⟩
  | pop _ ih =>
    obtain ⟨hS, L, F, xs, hg, hs⟩ := ih
    obtain ⟨F1, hg1⟩ := hg.pop
    exact ⟨hS, _, F1, _, hg1, fun hswo => List.Pairwise.sublist (List.tail_sublist _) (hs hswo)⟩
  | erase p _ hp ih =>
    obtain ⟨hS, L, F, xs, hg, hs⟩ := ih
    obtain ⟨L1, L2, xs1, x, xs2, -, e, -, -, hg1⟩ := hg.erase_live hp
    refine ⟨hS, _, _, _, hg1, fun hswo => List.Pairwise.sublist ?_ (hs hswo)⟩
    rw [e]
    exact List.Sublist.append_left (List.sublist_cons_self _ _) _
  | clear fuel _ hc ih =>
    obtain ⟨hS, L, F, xs, hg, hs⟩ := ih
    obtain ⟨hi, -⟩ := hg.inv.clear hc
    exact ⟨hS, [], _, [], ⟨hi, Nat.zero_le _⟩, fun _ => List.Pairwise.nil⟩

theorem Reachable.pushAll {sizeofNode Size : Nat} {lt : T → T → Bool} {fuel : Nat} :
    ∀ (vs : List T) {q q1 : RingQueue T}, Reachable sizeofNode Size lt q →
      container.pushAll lt Size fuel vs q = some q1 → Reachable sizeofNode Size lt q1 := by
  intro vs
  induction vs with
  | nil =>
    intro q q1 h hp
    simp only [container.pushAll, Option.some.injEq] at hp
    rw [← hp]; exact h
  | cons v vs ih =>
    intro q q1 h hp
    simp only [container.pushAll] at hp
    split at hp
    · exact absurd hp (by simp)
    · rename_i q2 hq2
      exact ih (Reachable.push fuel v h hq2) hp

theorem Reachable.emplaceAll {sizeofNode Size : Nat} {lt : T → T → Bool} {fuel : Nat} :
    ∀ (vs : List T) {q q1 : RingQueue T}, Reachable sizeofNode Size lt q →
      container.emplaceAll lt Size fuel vs q = some q1 → Reachable sizeofNode Size lt q1 := by
  intro vs
  induction vs with
  | nil =>
    intro q q1 h hp
    simp only [container.emplaceAll, Option.some.injEq] at hp
    rw [← hp]; exact h
  | cons v vs ih =>
    intro q q1 h hp
    simp only [container.emplaceAll] at hp
    split at hp
    · exact absurd hp (by simp)
    · rename_i q2 hq2
      exact ih (Reachable.emplace fuel v h hq2) hp

end RingQueue

theorem demoState_reachable : RingQueue.Reachable 24 10 less demoState := by
  have h : demoQueue = some demoState := (Option.some_get _).symm
  unfold demoQueue at h
  obtain ⟨q0, h0, h1⟩ := Option.bind_eq_some.1 h
  exact RingQueue.Reachable.pushAll _ (RingQueue.Reachable.init (by norm_num) h0) h1

theorem less_strictWeakOrder {T : Type} [LinearOrder T] : StrictWeakOrder (less : T → T → Bool) where
  irrefl := by intro a; simp [less]
  trans := by
    intro a b c h1 h2
    simp only [less, decide_eq_true_eq] at h1 h2 ⊢
    exact lt_trans h1 h2
  incomp_trans := by
    intro a b c h1 h2 h3 h4
    simp only [less, decide_eq_false_iff_not, not_lt] at h1 h2 h3 h4 ⊢
    have e1 : a = b := le_antisymm h2 h1
    have e2 : b = c := le_antisymm h4 h3
    subst e1 e2
    exact ⟨le_refl _, le_refl _⟩

namespace RingQueue

variable {T : Type}

theorem Good.emplaceAll_size {sizeofNode Size : Nat} (hS : Size < 2 ^ 32) (lt : T → T → Bool)
    (fuel : Nat) :
    ∀ (vs : List T) {q q1 : RingQueue T} {L F : List Nat} {xs : List T},
      Good sizeofNode Size q L F xs → container.emplaceAll lt Size fuel vs q = some q1 →
      q1.size = min (q.size + vs.length) Size := by
  intro vs
  induction vs with
  | nil =>
    intro q q1 L F xs hg hp
    simp only [container.emplaceAll, Option.some.injEq] at hp
    subst hp
    have := (hg.size_eq hS).1
    have := hg.cap
    simp only [List.length_nil]
    omega
  | cons v vs ih =>
    intro q q1 L F xs hg hp
    simp only [container.emplaceAll] at hp
    split at hp
    · exact absurd hp (by simp)
    · rename_i q2 hq2
      obtain ⟨L2, F2, hg2⟩ := hg.emplace hS lt hq2
      rw [ih hg2 hp, (hg2.size_eq hS).2, (hg.size_eq hS).2]
      have hx : xs.length ≤ Size := by rw [hg.inv.length_eq]; exact hg.cap
      rw [pushList_length lt Size v xs hx]
      simp only [List.length_cons]
      omega

end RingQueue

theorem demoFresh_reachable : RingQueue.Reachable 24 10 less demoFresh :=
  RingQueue.Reachable.init (by norm_num) (Option.some_get _).symm

theorem demoEmplaced_reachable : RingQueue.Reachable 24 10 less demoEmplaced := by
  have h : (RingQueue.Init 24 10).bind (emplaceAll less 10 11 [2, 5, 8]) = some demoEmplaced :=
    (Option.some_get _).symm
  obtain ⟨q0, h0, h1⟩ := Option.bind_eq_some.1 h
  exact RingQueue.Reachable.emplaceAll _ (RingQueue.Reachable.init (by norm_num) h0) h1

theorem demoFull_reachable : RingQueue.Reachable 24 2 less demoFull := by
  have h : (RingQueue.Init 24 2).bind (pushAll less 2 3 [5, 8]) = some demoFull :=
    (Option.some_get _).symm
  obtain ⟨q0, h0, h1⟩ := Option.bind_eq_some.1 h
  exact RingQueue.Reachable.pushAll _ (RingQueue.Reachable.init (by norm_num) h0) h1

/-- Pushing a value that is ordered before the first element of an ascending
sequence puts it in front. -/
theorem insertFromTail_lt_front {T : Type} {lt : T → T → Bool} (hswo : StrictWeakOrder lt)
    {m v : T} {rest : List T} (hs : Ascending lt (m :: rest)) (hlt : lt v m = true) :
    insertFromTail lt v (m :: rest) = v :: m :: rest := by
  obtain ⟨xs1, xs2, e1, e2, -, e4⟩ := insertFromTail_split lt v (m :: rest)
  rcases List.eq_nil_or_concat xs1 with e | ⟨l, z, e⟩
  · subst e
    simp only [List.nil_append] at e1 e2
    rw [e2, ← e1]
  · exfalso
    subst e
    have hz : lt z v = true := e4 z (by simp)
    have hzm : lt z m = true := hswo.trans z v m hz hlt
    have hmem : z ∈ m :: rest := by rw [e1]; simp
    simp only [List.mem_cons] at hmem
    rcases hmem with e | e
    · rw [e, hswo.irrefl] at hzm
      exact absurd hzm (by simp)
    · have := (List.pairwise_cons.1 hs).1 z e
      rw [this] at hzm
      exact absurd hzm (by simp)

namespace RingQueue

variable {T : Type}

theorem Good.pushAll_list {sizeofNode Size : Nat} (hS : Size < 2 ^ 32) (lt : T → T → Bool)
    (fuel : Nat) :
    ∀ (vs : List T) {q q1 : RingQueue T} {L F : List Nat} {xs : List T},
      Good sizeofNode Size q L F xs → container.pushAll lt Size fuel vs q = some q1 →
      ∃ L1 F1, Good sizeofNode Size q1 L1 F1 (pushListAll lt Size vs xs) := by
  intro vs
  induction vs with
  | nil =>
    intro q q1 L F xs hg hp
    simp only [container.pushAll, Option.some.injEq] at hp
    subst hp
    exact ⟨L, F, hg⟩
  | cons v vs ih =>
    intro q q1 L F xs hg hp
    simp only [container.pushAll] at hp
    split at hp
    · exact absurd hp (by simp)
    · rename_i q2 hq2
      obtain ⟨L2, F2, hg2⟩ := hg.push hS lt hq2
      exact ih hg2 hp

theorem Good.emplaceAll_total {sizeofNode Size : Nat} (hS2 : Size + 2 < 2 ^ 32)
    (lt : T → T → Bool) {fuel : Nat} (hf : Size < fuel) :
    ∀ (vs : List T) {q : RingQueue T} {L F : List Nat} {xs : List T},
      Good sizeofNode Size q L F xs →
      ∃ q1, container.emplaceAll lt Size fuel vs q = some q1 := by
  intro vs
  induction vs with
  | nil => intro q L F xs _; exact ⟨q, rfl⟩
  | cons v vs ih =>
    intro q L F xs hg
    obtain ⟨q2, hq2⟩ := hg.emplace_total hS2 lt v (lt_of_le_of_lt hg.cap hf)
    obtain ⟨L2, F2, hg2⟩ := hg.emplace (by omega) lt hq2
    obtain ⟨q1, hq1⟩ := ih hg2
    exact ⟨q1, by simp only [container.emplaceAll, hq2, hq1]⟩

theorem Good.pushAll_total {sizeofNode Size : Nat} (hS2 : Size + 2 < 2 ^ 32)
    (lt : T → T → Bool) {fuel : Nat} (hf : Size < fuel) :
    ∀ (vs : List T) {q : RingQueue T} {L F : List Nat} {xs : List T},
      Good sizeofNode Size q L F xs → ∃ q1, container.pushAll lt Size fuel vs q = some q1 := by
  intro vs
  induction vs with
  | nil => intro q L F xs _; exact ⟨q, rfl⟩
  | cons v vs ih =>
    intro q L F xs hg
    obtain ⟨q2, hq2⟩ := hg.push_total hS2 lt v (lt_of_le_of_lt hg.cap hf)
    obtain ⟨L2, F2, hg2⟩ := hg.push (by omega) lt hq2
    obtain ⟨q1, hq1⟩ := ih hg2
    exact ⟨q1, by simp only [container.pushAll, hq2, hq1]⟩

/-- The test scenario, read on lists: what `pushedContents` returns is the list
computed by `pushListAll`, and it returns when the configuration fits. -/
theorem pushedContents_spec (sizeofNode Size : Nat) (lt : T → T → Bool) (vs : List T) :
    (Size < 2 ^ 32 → ∀ fuel r, pushedContents sizeofNode Size lt fuel vs = some r →
      r = pushListAll lt Size vs []) ∧
    (Fits sizeofNode Size → ∀ fuel, Size < fuel →
      pushedContents sizeofNode Size lt fuel vs = some (pushListAll lt Size vs [])) := by
  constructor
  · intro hS fuel r hr
    unfold pushedContents at hr
    split at hr
    · exact absurd hr (by simp)
    · rename_i q0 h0
      split at hr
      · exact absurd hr (by simp)
      · rename_i q h1
        obtain ⟨F, hg0⟩ := Init_good h0
        obtain ⟨L1, F1, hg1⟩ := Good.pushAll_list hS lt fuel vs hg0 h1
        exact (hg1.inv.toList fuel).2 r hr
  · intro hfit fuel hf
    have hS : Size < 2 ^ 32 := by have := (Fits_facts hfit).1; omega
    obtain ⟨q0, h0⟩ := Init_total (T := T) hfit
    obtain ⟨F, hg0⟩ := Init_good h0
    obtain ⟨q, h1⟩ := Good.pushAll_total (Fits_facts hfit).1 lt hf vs hg0
    obtain ⟨L1, F1, hg1⟩ := Good.pushAll_list hS lt fuel vs hg0 h1
    unfold pushedContents
    simp only [h0, h1]
    exact (hg1.inv.toList fuel).1 (lt_of_le_of_lt hg1.cap hf)

end RingQueue

/-! ## Pushing many values, on lists -/

theorem pushListAll_cons {T : Type} (lt : T → T → Bool) (Size : Nat) (v : T) (vs xs : List T) :
    pushListAll lt Size (v :: vs) xs = pushListAll lt Size vs (pushList lt Size v xs) := rfl

/-- As long as the capacity is not exceeded, pushing keeps every value and keeps
the sequence ascending. -/
theorem pushListAll_perm {T : Type} (lt : T → T → Bool) (Size : Nat) :
    ∀ (vs xs : List T), xs.length + vs.length ≤ Size →
      (pushListAll lt Size vs xs).Perm (xs ++ vs) ∧
      (StrictWeakOrder lt → Ascending lt xs → Ascending lt (pushListAll lt Size vs xs)) := by
  intro vs
  induction vs with
  | nil => intro xs _; exact ⟨by simp [pushListAll], fun _ h => h⟩
  | cons v vs ih =>
    intro xs hlen
    simp only [List.length_cons] at hlen
    have hstep : pushList lt Size v xs = insertFromTail lt v xs := by
      unfold pushList
      simp only [insertFromTail_length]
      rw [if_neg (by omega)]
    rw [pushListAll_cons, hstep]
    obtain ⟨ih1, ih2⟩ := ih (insertFromTail lt v xs)
      (by rw [insertFromTail_length]; omega)
    refine ⟨?_, fun hswo hs => ih2 hswo (insertFromTail_ascending hswo v hs)⟩
    refine ih1.trans ?_
    refine ((insertFromTail_perm lt v xs).append_right vs).trans ?_
    simp only [List.cons_append]
    exact List.perm_middle.symm

theorem ascending_less_iff {T : Type} [LinearOrder T] (xs : List T) :
    Ascending less xs ↔ xs.Sorted (· ≤ ·) := by
  unfold Ascending List.Sorted less
  simp only [decide_eq_false_iff_not, not_lt]

theorem insertFromTail_eq_orderedInsert {T : Type} [LinearOrder T] (v : T) {xs : List T}
    (hs : xs.Sorted (· ≤ ·)) : insertFromTail less v xs = xs.orderedInsert (· ≤ ·) v := by
  apply List.eq_of_perm_of_sorted (r := (· ≤ ·))
  · exact (insertFromTail_perm less v xs).trans (List.perm_orderedInsert _ v xs).symm
  · exact (ascending_less_iff _).1
      (insertFromTail_ascending less_strictWeakOrder v ((ascending_less_iff _).2 hs))
  · exact hs.orderedInsert v xs

/-- Dropping the first element after inserting into the `k`-th tail of a sorted list
is dropping `k + 1` elements after inserting into the whole list. -/
theorem tail_orderedInsert_drop {T : Type} [LinearOrder T] (v : T) :
    ∀ (S : List T) (k : Nat), S.Sorted (· ≤ ·) →
      ((S.drop k).orderedInsert (· ≤ ·) v).tail = (S.orderedInsert (· ≤ ·) v).drop (k + 1) := by
  intro S
  induction S with
  | nil => intro k _; simp
  | cons a S ih =>
    intro k hs
    cases k with
    | zero => simp
    | succ k =>
      have hs' : S.Sorted (· ≤ ·) := hs.of_cons
      rw [List.drop_succ_cons, ih k hs']
      by_cases hva : v ≤ a
      · have h1 : (a :: S).orderedInsert (· ≤ ·) v = v :: a :: S :=
          List.orderedInsert_of_le _ S hva
        have h2 : S.orderedInsert (· ≤ ·) v = v :: S := by
          cases S with
          | nil => rfl
          | cons b S =>
            exact List.orderedInsert_of_le _ S
              (le_trans hva (List.rel_of_sorted_cons hs b (List.mem_cons_self _ _)))
        rw [h1, h2]
        simp
      · have h1 : (a :: S).orderedInsert (· ≤ ·) v = a :: S.orderedInsert (· ≤ ·) v := by
          simp [List.orderedInsert, hva]
        rw [h1]
        simp

theorem insertionSort_snoc {T : Type} [LinearOrder T] (ws : List T) (v : T) :
    (ws ++ [v]).insertionSort (· ≤ ·) = (ws.insertionSort (· ≤ ·)).orderedInsert (· ≤ ·) v := by
  apply List.eq_of_perm_of_sorted (r := (· ≤ ·))
  · refine (List.perm_insertionSort _ _).trans ?_
    refine List.perm_append_comm.trans ?_
    simp only [List.singleton_append]
    exact ((List.perm_insertionSort _ ws).symm.cons v).trans
      (List.perm_orderedInsert _ v _).symm
  · exact List.sorted_insertionSort _ _
  · exact (List.sorted_insertionSort _ ws).orderedInsert v _

/-- One push onto the `Size` largest of `ws`, sorted, gives the `Size` largest of
`ws ++ [v]`, sorted. -/
theorem pushList_sorted_drop {T : Type} [LinearOrder T] (Size : Nat) (ws : List T) (v : T) :
    pushList less Size v ((ws.insertionSort (· ≤ ·)).drop (ws.length - Size)) =
      ((ws ++ [v]).insertionSort (· ≤ ·)).drop ((ws ++ [v]).length - Size) := by
  have hS : (ws.insertionSort (· ≤ ·)).Sorted (· ≤ ·) := List.sorted_insertionSort _ ws
  have hlen : (ws.insertionSort (· ≤ ·)).length = ws.length := List.length_insertionSort _ ws
  have hD : ((ws.insertionSort (· ≤ ·)).drop (ws.length - Size)).Sorted (· ≤ ·) :=
    List.Pairwise.sublist (List.drop_sublist _ _) hS
  rw [insertionSort_snoc]
  unfold pushList
  simp only [insertFromTail_eq_orderedInsert v hD, List.orderedInsert_length, List.length_drop,
    hlen, List.length_append, List.length_singleton]
  by_cases hc : Size ≤ ws.length
  · rw [if_pos (by omega), tail_orderedInsert_drop v _ _ hS]
    congr 1
    omega
  · rw [if_neg (by omega)]
    have e1 : ws.length - Size = 0 := by omega
    have e2 : ws.length + 1 - Size = 0 := by omega
    rw [e1, e2]
    simp

/-- Pushing `vs` onto the `Size` largest of `ws` gives the `Size` largest of `ws ++ vs`. -/
theorem pushListAll_sorted_drop {T : Type} [LinearOrder T] (Size : Nat) :
    ∀ (vs ws : List T),
      pushListAll less Size vs ((ws.insertionSort (· ≤ ·)).drop (ws.length - Size)) =
        ((ws ++ vs).insertionSort (· ≤ ·)).drop ((ws ++ vs).length - Size) := by
  intro vs
  induction vs with
  | nil => intro ws; simp [pushListAll]
  | cons v vs ih =>
    intro ws
    rw [pushListAll_cons, pushList_sorted_drop, ih (ws ++ [v])]
    simp

/-! ## The claims -/

/-- C3: in every state reachable by `push`, `emplace`, `pop`, `erase` of a live
element and `clear`, the counter `length_` is not negative and can be incremented
without overflowing `int`, and `size()` is at most `Size`; moreover a run of `n`
calls of `emplace` takes a reachable state of size `s` to a state of size
`min (s + n) Size`, which is `Size` after 1,000,000 calls, and such a run returns
whenever `Size + 2` does not wrap around in `uint32_t` and the fuel exceeds `Size`. -/
theorem size_le_capacity {T : Type} {sizeofNode Size : Nat} {lt : T → T → Bool}
    {q : RingQueue T} (h : RingQueue.Reachable sizeofNode Size lt q) :
    0 ≤ q.length_ ∧ q.length_ + 1 < 2 ^ 31 ∧ q.size ≤ Size ∧
      (∀ (vs : List T) (fuel : Nat) (q1 : RingQueue T),
        emplaceAll lt Size fuel vs q = some q1 → q1.size = min (q.size + vs.length) Size) ∧
      (Size + 2 < 2 ^ 32 → ∀ (vs : List T) (fuel : Nat), Size < fuel →
        ∃ q1, emplaceAll lt Size fuel vs q = some q1) := by
  obtain ⟨hS, L, F, xs, hg, -⟩ := h.good_sorted
  refine ⟨?_, ?_, ?_, ?_, fun hS2 vs fuel hf =>
    RingQueue.Good.emplaceAll_total hS2 lt hf vs hg⟩
  · rw [hg.inv.len]
    exact Int.ofNat_nonneg _
  · rw [hg.inv.len]
    have := hg.length_small hS
    omega
  · rw [(hg.size_eq hS).1]
    exact hg.cap
  · intro vs fuel q1 hp
    exact RingQueue.Good.emplaceAll_size hS lt fuel vs hg hp

/-- Witness for C3 on the queue of the test `type_int`, and on a fresh queue for the
test `preorder_emplace_time`: any 1,000,000 calls of `emplace` return a queue of size 10. -/
theorem size_le_capacity_witness :
    RingQueue.Reachable 24 10 less demoState ∧ 0 ≤ demoState.length_ ∧ demoState.size ≤ 10 ∧
      RingQueue.Reachable 24 10 less demoFresh ∧
      ((List.replicate 1000000 (0 : Int)).length = 1000000 ∧
        ∃ q1, emplaceAll less 10 11 (List.replicate 1000000 (0 : Int)) demoFresh = some q1 ∧
          q1.size = 10) :=
  ⟨demoState_reachable, (size_le_capacity demoState_reachable).1,
    (size_le_capacity demoState_reachable).2.2.1, demoFresh_reachable,
    List.length_replicate _ _,
    ((size_le_capacity demoFresh_reachable).2.2.2.2 (by norm_num)
      (List.replicate 1000000 (0 : Int)) 11 (by norm_num)).elim fun q1 h1 =>
        ⟨q1, h1, by
          rw [(size_le_capacity demoFresh_reachable).2.2.2.1 _ 11 q1 h1, List.length_replicate]
          decide⟩⟩

/-- C4: when the comparator is a strict weak ordering, the sequence read from
`begin()` to `end()` in any reachable state is sorted ascending: no element is
ordered strictly before an element that precedes it. -/
theorem sorted_in_every_state {T : Type} {sizeofNode Size : Nat} {lt : T → T → Bool}
    {q : RingQueue T} (hswo : StrictWeakOrder lt)
    (h : RingQueue.Reachable sizeofNode Size lt q) (fuel : Nat) (hf : q.size < fuel) :
    ∃ xs, q.toList fuel = some xs ∧ xs.Pairwise (fun a b => lt b a = false) := by
  obtain ⟨hS, L, F, xs, hg, hs⟩ := h.good_sorted
  refine ⟨xs, (hg.inv.toList fuel).1 ?_, hs hswo⟩
  rw [← (hg.size_eq hS).1]
  exact hf

/-- Witness for C4 on the queue of the test `type_int`. -/
theorem sorted_in_every_state_witness :
    StrictWeakOrder (less : Int → Int → Bool) ∧ RingQueue.Reachable 24 10 less demoState ∧
      demoState.size < 4 ∧
      ∃ xs, demoState.toList 4 = some xs ∧ xs.Pairwise (fun a b => less b a = false) :=
  ⟨less_strictWeakOrder, demoState_reachable, by decide,
    sorted_in_every_state less_strictWeakOrder demoState_reachable 4 (by decide)⟩

/-- C9: in every reachable state the iteration from `begin()` to `end()` visits
exactly `size()` nodes (and finishes as soon as the fuel exceeds `size()`), and
`empty()`, computed from the sentinel's `next` link, holds exactly when `size() == 0`. -/
theorem size_counts_nodes {T : Type} {sizeofNode Size : Nat} {lt : T → T → Bool}
    {q : RingQueue T} (h : RingQueue.Reachable sizeofNode Size lt q) :
    (∀ fuel ps, q.walk fuel q.begin = some ps → ps.length = q.size) ∧
      (∀ fuel, q.size < fuel → ∃ ps, q.walk fuel q.begin = some ps) ∧
      (q.empty = true ↔ q.size = 0) := by
  obtain ⟨hS, L, F, xs, hg, -⟩ := h.good_sorted
  obtain ⟨hdL, -⟩ := (nodup_cells _ _ _ _).1 hg.inv.nodup
  have hsz := (hg.size_eq hS).1
  refine ⟨?_, ?_, ?_⟩
  · intro fuel ps hw
    rw [(RingQueue.walk_spec q L q.dummy_ fuel (dchain_fwd hg.inv.ring) hdL).2 ps hw, hsz]
  · intro fuel hf
    exact ⟨L, (RingQueue.walk_spec q L q.dummy_ fuel (dchain_fwd hg.inv.ring) hdL).1
      (by rw [← hsz]; exact hf)⟩
  · rw [hg.empty_iff, hsz]
    exact List.length_eq_zero.symm

/-- Witness for C9: the test `Init` (a fresh queue has `empty() == true` and
`size() == 0`). -/
theorem size_counts_nodes_witness :
    RingQueue.Reachable 24 10 less demoFresh ∧ demoFresh.empty = true ∧ demoFresh.size = 0 ∧
      (demoFresh.empty = true ↔ demoFresh.size = 0) :=
  ⟨demoFresh_reachable, by decide, by decide, (size_counts_nodes demoFresh_reachable).2.2⟩

/-- C10: in a non-empty reachable state with a strict weak ordering as comparator,
`front()` returns the element of the node right behind the sentinel, which is the
first element of the iteration, and no stored element is ordered strictly before it. -/
theorem front_is_minimum {T : Type} {sizeofNode Size : Nat} {lt : T → T → Bool}
    {q : RingQueue T} (hswo : StrictWeakOrder lt)
    (h : RingQueue.Reachable sizeofNode Size lt q) (hne : 0 < q.size) :
    ∃ m rest, q.front = some m ∧ q.data (q.next q.dummy_) = some m ∧
      (∀ fuel, q.size < fuel → q.toList fuel = some (m :: rest)) ∧
      ∀ y ∈ m :: rest, lt y m = false := by
  obtain ⟨hS, L, F, xs, hg, hs⟩ := h.good_sorted
  have hsz := hg.size_eq hS
  cases L with
  | nil => rw [hsz.1] at hne; simp at hne
  | cons p t =>
    cases xs with
    | nil => rw [hsz.2] at hne; simp at hne
    | cons m rest =>
      have e : q.next q.dummy_ = p := hg.inv.ring.1
      have hv := hg.inv.vals
      simp only [List.map_cons, List.cons.injEq] at hv
      have hd : q.data (q.next q.dummy_) = some m := by rw [e]; exact hv.1
      refine ⟨m, rest, hd, hd, ?_, ?_⟩
      · intro fuel hf
        exact (hg.inv.toList fuel).1 (by rw [← hsz.1]; exact hf)
      · intro y hy
        simp only [List.mem_cons] at hy
        rcases hy with hy | hy
        · rw [hy]; exact hswo.irrefl m
        · exact (List.pairwise_cons.1 (hs hswo)).1 y hy

/-- Witness for C10 on the queue of the test `type_int`, whose front is `1`. -/
theorem front_is_minimum_witness :
    StrictWeakOrder (less : Int → Int → Bool) ∧ RingQueue.Reachable 24 10 less demoState ∧
      0 < demoState.size ∧ demoState.front = some 1 ∧
      ∃ m rest, demoState.front = some m ∧ demoState.data (demoState.next demoState.dummy_) = some m ∧
        (∀ fuel, demoState.size < fuel → demoState.toList fuel = some (m :: rest)) ∧
        ∀ y ∈ m :: rest, less y m = false :=
  ⟨less_strictWeakOrder, demoState_reachable, by decide, by decide,
    front_is_minimum less_strictWeakOrder demoState_reachable (by decide)⟩

/-- C6: `pop()` on an empty reachable queue returns the state unchanged; on a
non-empty one it removes exactly the first element (the one `front()` returns, a
minimum when the comparator is a strict weak ordering), keeps the remaining
elements in their order, and lowers `size()` by one. -/
theorem pop_removes_front {T : Type} {sizeofNode Size : Nat} {lt : T → T → Bool}
    {q : RingQueue T} (h : RingQueue.Reachable sizeofNode Size lt q) :
    (q.size = 0 → q.pop = q) ∧
      (0 < q.size → ∃ x xs, q.front = some x ∧ q.pop.size + 1 = q.size ∧
        (StrictWeakOrder lt → ∀ y ∈ x :: xs, lt y x = false) ∧
        ∀ fuel, q.size < fuel →
          q.toList fuel = some (x :: xs) ∧ q.pop.toList fuel = some xs) := by
  obtain ⟨hS, L, F, xs, hg, hs⟩ := h.good_sorted
  have hsz := hg.size_eq hS
  obtain ⟨F1, hg1⟩ := hg.pop
  have hsz1 := hg1.size_eq hS
  constructor
  · intro h0
    have hL : L.length = 0 := by rw [← hsz.1]; exact h0
    unfold RingQueue.pop
    rw [if_neg]
    rw [hg.inv.len, hL]
    simp
  · intro hpos
    cases L with
    | nil => rw [hsz.1] at hpos; simp at hpos
    | cons p t =>
      cases xs with
      | nil => rw [hsz.2] at hpos; simp at hpos
      | cons x xs =>
        have e : q.next q.dummy_ = p := hg.inv.ring.1
        have hv := hg.inv.vals
        simp only [List.map_cons, List.cons.injEq] at hv
        refine ⟨x, xs, by unfold RingQueue.front; rw [e]; exact hv.1, ?_, ?_, ?_⟩
        · rw [hsz1.1, hsz.1]
          simp
        · intro hswo y hy
          simp only [List.mem_cons] at hy
          rcases hy with hy | hy
          · rw [hy]; exact hswo.irrefl x
          · exact (List.pairwise_cons.1 (hs hswo)).1 y hy
        · intro fuel hf
          rw [hsz.1] at hf
          simp only [List.length_cons] at hf
          exact ⟨(hg.inv.toList fuel).1 (by simpa using hf),
            (hg1.inv.toList fuel).1 (by simp only [List.tail_cons]; omega)⟩

/-- Witness for C6: the test `type_int` (after `push(2); push(3); push(1)` and
`pop()`, `front()` is `2`) and the test `pushes_popes` (one `emplace`, then four
calls of `pop()`, leave `size() == 0`). -/
theorem pop_removes_front_witness :
    RingQueue.Reachable 24 10 less demoState ∧ demoState.pop.front = some 2 ∧
      ((demoFresh.emplace less 10 11 0).map (fun q => q.pop.pop.pop.pop.size) = some 0) ∧
      0 < demoState.size ∧
      (∃ x xs, demoState.front = some x ∧
        demoState.pop.size + 1 = demoState.size ∧
        (StrictWeakOrder (less : Int → Int → Bool) → ∀ y ∈ x :: xs, less y x = false) ∧
        ∀ fuel, demoState.size < fuel →
          demoState.toList fuel = some (x :: xs) ∧ demoState.pop.toList fuel = some xs) ∧
      demoFresh.size = 0 ∧ demoFresh.pop = demoFresh :=
  ⟨demoState_reachable, by decide, by decide, by decide,
    (pop_removes_front demoState_reachable).2 (by decide), by decide,
    (pop_removes_front demoFresh_reachable).1 (by decide)⟩

/-- C7: `erase(it)` on an iterator `p` that refers to a live element removes exactly
that node and its element, keeps the other nodes and elements in their order, lowers
`size()` by one, and returns the node that `++it` would have reached before the
call, which is `end()` when the last element is erased. -/
theorem erase_removes_one {T : Type} {sizeofNode Size : Nat} {lt : T → T → Bool}
    {q : RingQueue T} (h : RingQueue.Reachable sizeofNode Size lt q) {p : Nat}
    (hp : q.Live p) :
    ∃ ps1 ps2 xs1 x xs2, ps1.length = xs1.length ∧ q.data p = some x ∧
      (∀ fuel, q.size < fuel →
        q.walk fuel q.begin = some (ps1 ++ p :: ps2) ∧
        q.toList fuel = some (xs1 ++ x :: xs2) ∧
        (q.erase p).1.walk fuel (q.erase p).1.begin = some (ps1 ++ ps2) ∧
        (q.erase p).1.toList fuel = some (xs1 ++ xs2)) ∧
      (q.erase p).1.size + 1 = q.size ∧
      (q.erase p).2 = q.next p ∧
      (q.erase p).2 = (ps2 ++ [(q.erase p).1.end_]).head (by simp) ∧
      (q.erase p).1.end_ = q.end_ := by
  obtain ⟨hS, L, F, xs, hg, -⟩ := h.good_sorted
  have hsz := hg.size_eq hS
  obtain ⟨L1, L2, xs1, x, xs2, eL, eX, hlen, hd, hg1⟩ := hg.erase_live hp
  have hsz1 := hg1.size_eq hS
  subst eL eX
  obtain ⟨hdL, -⟩ := (nodup_cells _ _ _ _).1 hg.inv.nodup
  obtain ⟨hdL1, -⟩ := (nodup_cells _ _ _ _).1 hg1.inv.nodup
  have hr := hg.inv.ring
  rw [dchain_append] at hr
  have hnext : q.next p = (L2 ++ [q.dummy_]).head (by simp) := dchain_next_head hr.2
  have hend : (q.erase p).1.end_ = q.end_ := by
    unfold RingQueue.erase RingQueue.end_
    split <;> rfl
  have hret : (q.erase p).2 = q.next p := by
    unfold RingQueue.erase
    split <;> rfl
  refine ⟨L1, L2, xs1, x, xs2, hlen.symm, hd, ?_, ?_, hret, ?_, hend⟩
  · intro fuel hf
    rw [hsz.1] at hf
    have hf1 : (L1 ++ L2).length < fuel := by
      simp only [List.length_append, List.length_cons] at hf ⊢
      omega
    exact ⟨(RingQueue.walk_spec q _ q.dummy_ fuel (dchain_fwd hg.inv.ring) hdL).1 hf,
      (hg.inv.toList fuel).1 hf,
      (RingQueue.walk_spec _ _ _ fuel (dchain_fwd hg1.inv.ring) hdL1).1 hf1,
      (hg1.inv.toList fuel).1 hf1⟩
  · rw [hsz1.1, hsz.1]
    simp only [List.length_append, List.length_cons]
    omega
  · rw [hret, hnext]
    have : (q.erase p).1.end_ = q.dummy_ := hend
    simp only [this]

/-- Witness for C7: erasing the first element of the queue of the test `type_int`. -/
theorem erase_removes_one_witness :
    RingQueue.Reachable 24 10 less demoState ∧ demoState.Live demoState.begin ∧
      (demoState.erase demoState.begin).1.toList 4 = some [2, 3] ∧
      ∃ ps1 ps2 xs1 x xs2, ps1.length = xs1.length ∧ demoState.data demoState.begin = some x ∧
        (∀ fuel, demoState.size < fuel →
          demoState.walk fuel demoState.begin = some (ps1 ++ demoState.begin :: ps2) ∧
          demoState.toList fuel = some (xs1 ++ x :: xs2) ∧
          (demoState.erase demoState.begin).1.walk fuel (demoState.erase demoState.begin).1.begin
            = some (ps1 ++ ps2) ∧
          (demoState.erase demoState.begin).1.toList fuel = some (xs1 ++ xs2)) ∧
        (demoState.erase demoState.begin).1.size + 1 = demoState.size ∧
        (demoState.erase demoState.begin).2 = demoState.next demoState.begin ∧
        (demoState.erase demoState.begin).2
          = (ps2 ++ [(demoState.erase demoState.begin).1.end_]).head (by simp) ∧
        (demoState.erase demoState.begin).1.end_ = demoState.end_ :=
  have hlive : demoState.Live demoState.begin :=
    ⟨4, (demoState.walk 4 demoState.begin).get (by decide), (Option.some_get _).symm, by decide⟩
  ⟨demoState_reachable, hlive, by decide, erase_removes_one demoState_reachable hlive⟩

/-- C8: in a reachable state `clear()` returns as soon as the fuel exceeds `size()`;
afterwards `empty()` holds, `size()` is `0` and `begin() == end()`; the destructor has
run exactly once on each node that was live and on no other node, the element of
each of them is gone, and each of them has been appended once to the free list. -/
theorem clear_empties {T : Type} {sizeofNode Size : Nat} {lt : T → T → Bool}
    {q : RingQueue T} (h : RingQueue.Reachable sizeofNode Size lt q) :
    (∀ fuel, q.size < fuel → ∃ q1, q.clear fuel = some q1) ∧
      ∀ fuel q1, q.clear fuel = some q1 →
        q1.empty = true ∧ q1.size = 0 ∧ q1.begin = q1.end_ ∧
        ∃ L F, (∀ f, q.size < f → q.walk f q.begin = some L) ∧ L.Nodup ∧
          q1.destroyed = L.reverse ++ q.destroyed ∧
          (∀ p ∈ L, q.data p ≠ none ∧ q1.data p = none) ∧
          FreeList q.alloc_ F ∧ FreeList q1.alloc_ (F ++ L) ∧ (F ++ L).Nodup := by
  obtain ⟨hS, L, F, xs, hg, -⟩ := h.good_sorted
  have hsz := hg.size_eq hS
  obtain ⟨hdL, hdF, -, hLnd, hFnd, -, hLF, -, -⟩ := (nodup_cells _ _ _ _).1 hg.inv.nodup
  constructor
  · intro fuel hf
    exact hg.inv.clear_total (by rw [← hsz.1]; exact hf)
  · intro fuel q1 hc
    obtain ⟨hi, hdes, hdum, hdat⟩ := hg.inv.clear hc
    have hg1 : RingQueue.Good sizeofNode Size q1 [] (F ++ L) [] := ⟨hi, Nat.zero_le _⟩
    refine ⟨hg1.empty_iff.2 rfl, (hg1.size_eq hS).1, hi.ring.1, L, F, ?_, hLnd, hdes, ?_,
      hg.inv.free, hi.free, ?_⟩
    · intro f hf
      exact (RingQueue.walk_spec q L q.dummy_ f (dchain_fwd hg.inv.ring) hdL).1
        (by rw [← hsz.1]; exact hf)
    · intro p hp
      refine ⟨?_, hdat p hp⟩
      have := hg.inv.vals
      intro e
      have hm : q.data p ∈ L.map q.data := List.mem_map_of_mem _ hp
      rw [this, e] at hm
      simp at hm
    · rw [List.nodup_append]
      exact ⟨hFnd, hLnd, fun x hx hx1 => hLF x hx1 hx⟩

/-- Witness for C8: the test `clear` (`emplace` of 2, 5, 8, then `clear()`). -/
theorem clear_empties_witness :
    RingQueue.Reachable 24 10 less demoEmplaced ∧
      ((demoEmplaced.clear 4).map RingQueue.empty = some true) ∧
      ((demoEmplaced.clear 4).map RingQueue.size = some 0) ∧
      ∀ fuel, demoEmplaced.size < fuel → ∃ q1, demoEmplaced.clear fuel = some q1 :=
  ⟨demoEmplaced_reachable, by decide, by decide, (clear_empties demoEmplaced_reachable).1⟩

/-- C1: with the default comparator of a linearly ordered type, pushing more than
`Size` values into a fresh queue and iterating from `begin()` to `end()` reads the
`Size` largest pushed values, with their multiplicities, in ascending order: the
last `Size` entries of the sorted list of all pushed values.  The run returns this
result whenever the configuration fits and the fuel exceeds `Size`. -/
theorem largest_values_kept {T : Type} [LinearOrder T] (sizeofNode Size : Nat)
    (hS : Size < 2 ^ 32) (vs : List T) (hmore : Size < vs.length) :
    ((vs.insertionSort (· ≤ ·)).drop (vs.length - Size)).length = Size ∧
    (∀ fuel r, pushedContents sizeofNode Size less fuel vs = some r →
      r = (vs.insertionSort (· ≤ ·)).drop (vs.length - Size)) ∧
    (Fits sizeofNode Size → ∀ fuel, Size < fuel →
      pushedContents sizeofNode Size less fuel vs =
        some ((vs.insertionSort (· ≤ ·)).drop (vs.length - Size))) := by
  have key : pushListAll less Size vs [] =
      (vs.insertionSort (· ≤ ·)).drop (vs.length - Size) := by
    have := pushListAll_sorted_drop Size vs ([] : List T)
    simpa using this
  obtain ⟨p1, p2⟩ := RingQueue.pushedContents_spec sizeofNode Size (less : T → T → Bool) vs
  rw [key] at p1 p2
  refine ⟨?_, p1 hS, p2⟩
  rw [List.length_drop, List.length_insertionSort]
  omega

/-- Witness for C1: the tests `push_15_element_order` and `push_15_element_unorder`
(capacity 10, pushing 1..15 ascending and 15..1 descending both end with 6..15). -/
theorem largest_values_kept_witness :
    pushedContents 24 10 less 11 ([1, 2, 3, 4, 5, 6, 7, 8, 9, 10, 11, 12, 13, 14, 15] : List Int)
        = some [6, 7, 8, 9, 10, 11, 12, 13, 14, 15] ∧
      pushedContents 24 10 less 11
          ([15, 14, 13, 12, 11, 10, 9, 8, 7, 6, 5, 4, 3, 2, 1] : List Int)
        = some [6, 7, 8, 9, 10, 11, 12, 13, 14, 15] :=
  ⟨((largest_values_kept 24 10 (by norm_num)
      ([1, 2, 3, 4, 5, 6, 7, 8, 9, 10, 11, 12, 13, 14, 15] : List Int) (by decide)).2.2
      (by unfold Fits; decide) 11 (by decide)).trans (by decide),
   ((largest_values_kept 24 10 (by norm_num)
      ([15, 14, 13, 12, 11, 10, 9, 8, 7, 6, 5, 4, 3, 2, 1] : List Int) (by decide)).2.2
      (by unfold Fits; decide) 11 (by decide)).trans (by decide)⟩

/-- C2, as stated, fails: with capacity 2 the pushes `2, 2, 1` offer two distinct
values, yet the iteration reads `2, 2`: the value `1` is gone and `2` is stored twice. -/
theorem distinct_values_counterexample :
    ([2, 2, 1] : List Int).dedup.length ≤ 2 ∧
      pushedContents 24 2 less 3 ([2, 2, 1] : List Int) = some [2, 2] ∧
      pushedContents 24 2 less 3 ([2, 2, 1] : List Int) ≠
        some (([2, 2, 1] : List Int).dedup.insertionSort (· ≤ ·)) := by
  decide

/-- C2, amended: when at most `Size` values are pushed into a fresh queue (counted
with repetitions) and the comparator is a strict weak ordering, the iteration reads
exactly the pushed values, each as often as it was pushed, in ascending order.  The
run returns whenever the configuration fits and the fuel exceeds `Size`. -/
theorem pushes_within_capacity {T : Type} (sizeofNode Size : Nat) {lt : T → T → Bool}
    (hswo : StrictWeakOrder lt) (hS : Size < 2 ^ 32) (vs : List T)
    (hlen : vs.length ≤ Size) :
    (∀ fuel r, pushedContents sizeofNode Size lt fuel vs = some r →
      r.Perm vs ∧ r.Pairwise (fun a b => lt b a = false)) ∧
    (Fits sizeofNode Size → ∀ fuel, Size < fuel →
      ∃ r, pushedContents sizeofNode Size lt fuel vs = some r) := by
  obtain ⟨p1, p2⟩ := RingQueue.pushedContents_spec sizeofNode Size lt vs
  obtain ⟨q1, q2⟩ := pushListAll_perm lt Size vs [] (by simpa using hlen)
  constructor
  · intro fuel r hr
    rw [p1 hS fuel r hr]
    exact ⟨by simpa using q1, q2 hswo List.Pairwise.nil⟩
  · intro hfit fuel hf
    exact ⟨_, p2 hfit fuel hf⟩

/-- Witness for amended C2: the test `push_3_element_unorder` (pushing 5, 8, 2 reads 2, 5, 8). -/
theorem pushes_within_capacity_witness :
    pushedContents 24 10 less 11 ([5, 8, 2] : List Int) = some [2, 5, 8] ∧
      ∀ fuel r, pushedContents 24 10 less fuel ([5, 8, 2] : List Int) = some r →
        r.Perm [5, 8, 2] ∧ r.Pairwise (fun a b => less b a = false) :=
  ⟨by decide,
    (pushes_within_capacity 24 10 less_strictWeakOrder (by norm_num)
      ([5, 8, 2] : List Int) (by decide)).1⟩

/-- C5: in a reachable state that is at full capacity, with a strict weak ordering
as comparator, a call `push(v)` with `v` ordered strictly before `front()` leaves
`size()` and the iterated sequence as they were; the call returns whenever
`Size + 2` does not wrap around in `uint32_t` and the fuel exceeds `Size`. -/
theorem push_below_front_keeps_contents {T : Type} {sizeofNode Size : Nat}
    {lt : T → T → Bool} {q : RingQueue T} (hswo : StrictWeakOrder lt)
    (h : RingQueue.Reachable sizeofNode Size lt q) (hfull : q.size = Size)
    {m v : T} (hfront : q.front = some m) (hlt : lt v m = true) :
    (∀ fuel q1, q.push lt Size fuel v = some q1 →
      q1.size = q.size ∧ ∀ f, q.size < f → q1.toList f = q.toList f) ∧
    (Size + 2 < 2 ^ 32 → ∀ fuel, Size < fuel → ∃ q1, q.push lt Size fuel v = some q1) := by
  obtain ⟨hS, L, F, xs, hg, hs⟩ := h.good_sorted
  have hsz := hg.size_eq hS
  constructor
  · intro fuel q1 hp
    obtain ⟨L1, F1, hg1⟩ := hg.push hS lt hp
    have hxs : pushList lt Size v xs = xs := by
      cases L with
      | nil =>
        have e : q.next q.dummy_ = q.dummy_ := hg.inv.ring.1
        have hraw := hg.inv.raw q.dummy_ (by simp) (by simp)
        unfold RingQueue.front at hfront
        rw [e, hraw] at hfront
        exact absurd hfront (by simp)
      | cons p t =>
        cases xs with
        | nil => have := hg.inv.length_eq; simp at this
        | cons x rest =>
          have e : q.next q.dummy_ = p := hg.inv.ring.1
          have hv := hg.inv.vals
          simp only [List.map_cons, List.cons.injEq] at hv
          unfold RingQueue.front at hfront
          rw [e, hv.1] at hfront
          have hxm : x = m := Option.some.inj hfront
          subst hxm
          unfold pushList
          simp only [insertFromTail_lt_front hswo (hs hswo) hlt]
          rw [if_pos (by rw [← hfull, hsz.2]; simp)]
          rfl
    rw [hxs] at hg1
    have hsz1 := hg1.size_eq hS
    refine ⟨by rw [hsz1.2, hsz.2], ?_⟩
    intro f hf
    rw [(hg1.inv.toList f).1 (by rw [← hsz1.1, hsz1.2, ← hsz.2]; exact hf),
      (hg.inv.toList f).1 (by rw [← hsz.1]; exact hf)]
  · intro hS2 fuel hf
    exact hg.push_total hS2 lt v (lt_of_le_of_lt hg.cap hf)

/-- Witness for C5: pushing `1` into the full queue `5, 8` of capacity 2. -/
theorem push_below_front_keeps_contents_witness :
    StrictWeakOrder (less : Int → Int → Bool) ∧ RingQueue.Reachable 24 2 less demoFull ∧
      demoFull.size = 2 ∧ demoFull.front = some 5 ∧ less (1 : Int) 5 = true ∧
      (demoFull.push less 2 3 1).bind (fun q1 => q1.toList 3) = some [5, 8] ∧
      (∀ fuel q1, demoFull.push less 2 fuel 1 = some q1 →
        q1.size = demoFull.size ∧ ∀ f, demoFull.size < f → q1.toList f = demoFull.toList f) :=
  ⟨less_strictWeakOrder, demoFull_reachable, by decide, by decide, by decide, by decide,
    (push_below_front_keeps_contents less_strictWeakOrder demoFull_reachable (by decide)
      (m := 5) (v := 1) (by decide) (by decide)).1⟩

/-! ## The allocator, call by call -/

/-- With two or more free slots `GetNode` hands out the first one and steps to the next. -/
theorem GetNode_take (Num : Nat) {a : Allocator} {p x : Nat} {R : List Nat}
    (hF : FreeList a (p :: x :: R)) (nd : (p :: x :: R).Nodup) :
    GetNode Num a = some (p, { a with start_ := a.chunk_next a.start_ }) ∧
      FreeList { a with start_ := a.chunk_next a.start_ } (x :: R) := by
  obtain ⟨R1, e, hpath⟩ := hF
  simp only [List.cons.injEq] at e
  obtain ⟨e1, e2⟩ := e
  subst e2
  obtain ⟨hx, hrest⟩ := hpath
  have hne : a.start_ ≠ a.end_ := by
    intro he
    have hm := path_last_mem _ _ _ _ hrest
    rw [← he, ← e1] at hm
    exact (List.nodup_cons.1 nd).1 hm
  constructor
  · unfold GetNode
    rw [if_neg hne, e1]
  · exact ⟨R, by simp [hx], by simpa [hx] using hrest⟩

/-- With one free slot left and a pool to spare, `GetNode` hands out that slot and
installs a fresh pool as the free list. -/
theorem GetNode_grow (Num : Nat) {a : Allocator} {p : Nat} (hF : FreeList a [p])
    (hp : a.pool_num_ < MAXPOOLNUM) (hcs : CHUNK_BYTES ≤ a.chunk_size_) (hN : 1 ≤ Num)
    (hfit : a.chunk_size_ * Num < 2 ^ 32) :
    ∃ a1, GetNode Num a = some (p, a1) ∧ a1.pool_num_ = a.pool_num_ + 1 ∧
      a1.chunk_size_ = a.chunk_size_ ∧
      FreeList a1 (slots a.chunk_size_ Num (callocAddr a.pool_num_)) ∧
      (∀ x ∈ slots a.chunk_size_ Num (callocAddr a.pool_num_),
        callocAddr a.pool_num_ ≤ x ∧ x < callocAddr (a.pool_num_ + 1)) := by
  obtain ⟨R1, e, hpath⟩ := hF
  simp only [List.cons.injEq] at e
  obtain ⟨e1, e2⟩ := e
  subst e2
  have he : a.start_ = a.end_ := hpath
  obtain ⟨a1, ha1⟩ := InitOnePool_total Num a hp hcs hN hfit
  rcases InitOnePool_spec ha1 with ⟨hbad, -⟩ | ⟨-, -, hpn, hcs1, -, -, -, hfl, hrange, -⟩
  · exact absurd hbad (by decide)
  · refine ⟨a1, ?_, hpn, hcs1, hfl, hrange⟩
    unfold GetNode
    rw [if_pos he]
    simp only [ha1, e1]
    rfl

/-- With one free slot left and no pool to spare, `GetNode` returns null and changes
nothing: the last slot stays on the free list. -/
theorem GetNode_exhausted (Num : Nat) {a : Allocator} {p : Nat} (hF : FreeList a [p])
    (hm : MAXPOOLNUM ≤ a.pool_num_) : GetNode Num a = some (nullptr, a) := by
  obtain ⟨R1, e, hpath⟩ := hF
  simp only [List.cons.injEq] at e
  obtain ⟨e1, e2⟩ := e
  subst e2
  have he : a.start_ = a.end_ := hpath
  unfold GetNode InitOnePool
  rw [if_pos he]
  simp only [ge_iff_le, hm, if_true]
  rfl

theorem GetNodes_append (Num : Nat) :
    ∀ (m n : Nat) (a a1 a2 : Allocator) (ps qs : List Nat),
      GetNodes Num m a = some (ps, a1) → GetNodes Num n a1 = some (qs, a2) →
      GetNodes Num (m + n) a = some (ps ++ qs, a2) := by
  intro m
  induction m with
  | zero =>
    intro n a a1 a2 ps qs h1 h2
    simp only [GetNodes, Option.some.injEq, Prod.mk.injEq] at h1
    obtain ⟨e1, e2⟩ := h1
    subst e1 e2
    simpa using h2
  | succ m ih =>
    intro n a a1 a2 ps qs h1 h2
    simp only [GetNodes] at h1
    split at h1
    · exact absurd h1 (by simp)
    · rename_i p a3 hg
      split at h1
      · exact absurd h1 (by simp)
      · rename_i ps1 a4 hgs
        simp only [Option.some.injEq, Prod.mk.injEq] at h1
        obtain ⟨e1, e2⟩ := h1
        subst e1 e2
        have := ih n a3 a4 a2 ps1 qs hgs h2
        have e : m + 1 + n = (m + n) + 1 := by omega
        rw [e]
        simp only [GetNodes, hg, this, List.cons_append]

/-- Taking all slots but the last one of the free list `slots cs (m + 1) b`. -/
theorem GetNodes_drain (Num cs : Nat) (hcs : 0 < cs) :
    ∀ (m : Nat) (a : Allocator) (b : Nat), FreeList a (slots cs (m + 1) b) →
      ∃ a1, GetNodes Num m a = some (slots cs m b, a1) ∧
        FreeList a1 [b + m * cs] ∧ a1.pool_num_ = a.pool_num_ ∧
        a1.chunk_size_ = a.chunk_size_ := by
  intro m
  induction m with
  | zero =>
    intro a b hF
    exact ⟨a, rfl, by simpa [slots] using hF, rfl, rfl⟩
  | succ m ih =>
    intro a b hF
    have hnd := slots_nodup hcs (m + 2) b
    have e : slots cs (m + 2) b = b :: (b + cs) :: slots cs m (b + cs + cs) := rfl
    rw [e] at hF hnd
    obtain ⟨h1, h2⟩ := GetNode_take Num hF hnd
    have h2' : FreeList { a with start_ := a.chunk_next a.start_ } (slots cs (m + 1) (b + cs)) :=
      h2
    obtain ⟨a1, g1, g2, g3, g4⟩ := ih _ (b + cs) h2'
    refine ⟨a1, ?_, ?_, g3, g4⟩
    · simp only [GetNodes, h1, g1]
      rfl
    · have : b + (m + 1) * cs = b + cs + m * cs := by rw [Nat.succ_mul]; omega
      rw [this]; exact g2

theorem poolsSlots_length (cs Num : Nat) (n k : Nat) :
    (poolsSlots cs Num n k).length = n * Num := by
  induction n generalizing k with
  | zero => simp [poolsSlots]
  | succ n ih => simp [poolsSlots, ih, slots_length, Nat.succ_mul, Nat.add_comm]

/-- Taking every slot of `j` pools in a row: each pool is used up and followed by a
fresh one. -/
theorem GetNodes_pools (Num cs : Nat) (hcs : CHUNK_BYTES ≤ cs) (hN : 1 ≤ Num)
    (hfit : cs * Num < 2 ^ 32) :
    ∀ (j : Nat) (a : Allocator) (k : Nat),
      FreeList a (slots cs Num (callocAddr k)) → a.pool_num_ = k + 1 →
      a.chunk_size_ = cs → k + 1 + j ≤ MAXPOOLNUM →
      ∃ a1, GetNodes Num (j * Num) a = some (poolsSlots cs Num j k, a1) ∧
        FreeList a1 (slots cs Num (callocAddr (k + j))) ∧ a1.pool_num_ = k + j + 1 ∧
        a1.chunk_size_ = cs := by
  have hcs0 : 0 < cs := by
    have : CHUNK_BYTES = 8 := rfl
    omega
  intro j
  induction j with
  | zero =>
    intro a k hF hp hc _
    exact ⟨a, by simp [GetNodes, poolsSlots], by simpa using hF, by simpa using hp, hc⟩
  | succ j ih =>
    intro a k hF hp hc hk
    obtain ⟨m, rfl⟩ : ∃ m, Num = m + 1 := ⟨Num - 1, by omega⟩
    obtain ⟨a1, g1, g2, g3, g4⟩ := GetNodes_drain (m + 1) cs hcs0 m a (callocAddr k) hF
    obtain ⟨a2, t1, t2, t3, t4, -⟩ := GetNode_grow (m + 1) g2
      (by rw [g3, hp]; omega) (by rw [g4, hc]; exact hcs) hN (by rw [g4, hc]; exact hfit)
    rw [g4, hc, g3, hp] at t4
    rw [g3, hp] at t2
    rw [g4, hc] at t3
    obtain ⟨a3, u1, u2, u3, u4⟩ := ih a2 (k + 1) t4 t2 t3 (by omega)
    have hone : GetNodes (m + 1) 1 a1 = some ([callocAddr k + m * cs], a2) := by
      simp only [GetNodes, t1]
    have hpool : GetNodes (m + 1) (m + 1) a =
        some (slots cs m (callocAddr k) ++ [callocAddr k + m * cs], a2) :=
      GetNodes_append (m + 1) m 1 a a1 a2 _ _ g1 hone
    have hsl : ∀ (n b : Nat), slots cs n b ++ [b + n * cs] = slots cs (n + 1) b := by
      intro n
      induction n with
      | zero => intro b; simp [slots]
      | succ n ihn =>
        intro b
        have : b + (n + 1) * cs = b + cs + n * cs := by rw [Nat.succ_mul]; omega
        simp only [slots, List.cons_append, this, ihn (b + cs)]
    rw [hsl] at hpool
    have := GetNodes_append (m + 1) (m + 1) (j * (m + 1)) a a2 a3 _ _ hpool u1
    refine ⟨a3, ?_, ?_, ?_, u4⟩
    · have e : (j + 1) * (m + 1) = m + 1 + j * (m + 1) := by rw [Nat.succ_mul]; omega
      rw [e, this]
      rfl
    · have e : k + (j + 1) = k + 1 + j := by omega
      rw [e]; exact u2
    · rw [u3]; omega

/-- Once the allocator is exhausted, every further request returns null. -/
theorem GetNodes_exhausted (Num : Nat) {a : Allocator} {p : Nat} (hF : FreeList a [p])
    (hm : MAXPOOLNUM ≤ a.pool_num_) :
    ∀ n, GetNodes Num n a = some (List.replicate n nullptr, a) := by
  intro n
  induction n with
  | zero => rfl
  | succ n ih =>
    simp only [GetNodes, GetNode_exhausted Num hF hm, ih]
    rfl

theorem callocAddr_succ (k : Nat) : callocAddr (k + 1) = callocAddr k + 2 ^ 32 := by
  simp [callocAddr]; ring

theorem callocAddr_pos (k : Nat) : 0 < callocAddr k := by
  simp [callocAddr]

/-- The slots of at most `Num` chunks of a pool lie inside the address range of the pool. -/
theorem mem_slots_range {cs Num n k p : Nat} (hcs : 0 < cs) (hfit : cs * Num < 2 ^ 32)
    (hn : n ≤ Num) (h : p ∈ slots cs n (callocAddr k)) :
    callocAddr k ≤ p ∧ p < callocAddr (k + 1) := by
  obtain ⟨h1, h2⟩ := mem_slots h
  have : n * cs ≤ Num * cs := Nat.mul_le_mul_right _ hn
  rw [Nat.mul_comm Num cs] at this
  rw [callocAddr_succ]
  exact ⟨h1, by omega⟩

theorem mem_poolsSlots {cs Num : Nat} (hcs : 0 < cs) (hfit : cs * Num < 2 ^ 32) :
    ∀ (n k p : Nat), p ∈ poolsSlots cs Num n k →
      callocAddr k ≤ p ∧ p < callocAddr (k + n) := by
  intro n
  induction n with
  | zero => intro k p h; simp [poolsSlots] at h
  | succ n ih =>
    intro k p h
    simp only [poolsSlots, List.mem_append] at h
    have hm1 : callocAddr k ≤ callocAddr (k + 1) := callocAddr_mono (by omega)
    have hm2 : callocAddr (k + 1) ≤ callocAddr (k + (n + 1)) := callocAddr_mono (by omega)
    rcases h with h | h
    · have := mem_slots_range hcs hfit (Nat.le_refl _) h
      exact ⟨this.1, by omega⟩
    · have := ih (k + 1) p h
      have e : k + 1 + n = k + (n + 1) := by omega
      rw [e] at this
      exact ⟨by omega, this.2⟩

theorem poolsSlots_nodup {cs Num : Nat} (hcs : 0 < cs) (hfit : cs * Num < 2 ^ 32) :
    ∀ (n k : Nat), (poolsSlots cs Num n k).Nodup := by
  intro n
  induction n with
  | zero => intro k; simp [poolsSlots]
  | succ n ih =>
    intro k
    simp only [poolsSlots]
    rw [List.nodup_append]
    refine ⟨slots_nodup hcs _ _, ih (k + 1), ?_⟩
    intro p hp1 hp2
    have h1 := mem_slots_range hcs hfit (Nat.le_refl _) hp1
    have h2 := mem_poolsSlots hcs hfit n (k + 1) p hp2
    omega

/-- What the constructor `Allocator()` leaves behind when it returns: one pool, whose
slots form the free list in address order, and a chunk size for which the block
size does not overflow. -/
theorem Allocator_new_spec {sizeofT Num : Nat} {a : Allocator}
    (h : Allocator.new sizeofT Num = some a) :
    a.pool_num_ = 1 ∧ a.chunk_size_ = ((sizeofT + 7) / 8 * 8) % 2 ^ 32 ∧
      CHUNK_BYTES ≤ a.chunk_size_ ∧ a.chunk_size_ * Num < 2 ^ 32 ∧ 1 ≤ Num ∧
      FreeList a (slots a.chunk_size_ Num (callocAddr 0)) := by
  unfold Allocator.new at h
  simp only at h
  cases hi : InitOnePool Num
      { headers_ := fun _ => nullptr, pool_num_ := 0,
        chunk_size_ := ((sizeofT + 7) / 8 * 8) % 2 ^ 32,
        start_ := nullptr, end_ := nullptr, chunk_next := fun _ => nullptr } with
  | none => rw [hi] at h; simp at h
  | some r =>
    obtain ⟨a0, rc⟩ := r
    rw [hi] at h
    simp only [Option.map_some', Option.some.injEq] at h
    subst h
    rcases InitOnePool_spec hi with ⟨-, -, hbad⟩ | ⟨-, -, hpn, hcs, hpos, hN, hfit0, hfl, -, -⟩
    · simp [MAXPOOLNUM] at hbad
    · simp only at hpn hcs hpos hfl hfit0
      rw [hcs]
      exact ⟨by rw [hpn], rfl, hfit0.1, hfit0.2 (Nat.mod_lt _ (by norm_num)), hN, hfl⟩

/-- The slots that a fresh allocator hands out before it returns null: all slots of
the first nine pools and all slots but the last one of the tenth pool. -/
theorem GetNodes_fresh {sizeofT Num : Nat} {a : Allocator}
    (h : Allocator.new sizeofT Num = some a) :
    ∃ a1, GetNodes Num (MAXPOOLNUM * Num - 1) a =
        some (poolsSlots a.chunk_size_ Num 9 0 ++ slots a.chunk_size_ (Num - 1) (callocAddr 9),
          a1) ∧
      FreeList a1 [callocAddr 9 + (Num - 1) * a.chunk_size_] ∧ a1.pool_num_ = MAXPOOLNUM := by
  obtain ⟨hp, -, hcb, hfit, hN, hfl⟩ := Allocator_new_spec h
  have hcs0 : 0 < a.chunk_size_ := by
    have : CHUNK_BYTES = 8 := rfl
    omega
  obtain ⟨a1, g1, g2, g3, g4⟩ := GetNodes_pools Num a.chunk_size_ hcb hN hfit 9 a 0 hfl
    (by rw [hp]) rfl (by decide)
  obtain ⟨m, rfl⟩ : ∃ m, Num = m + 1 := ⟨Num - 1, by omega⟩
  simp only [Nat.zero_add] at g2 g3
  obtain ⟨a2, t1, t2, t3, -⟩ := GetNodes_drain (m + 1) a.chunk_size_ hcs0 m a1 (callocAddr 9) g2
  have := GetNodes_append (m + 1) (9 * (m + 1)) m a a1 a2 _ _ g1 t1
  refine ⟨a2, ?_, by simpa using t2, by rw [t3, g3]; rfl⟩
  have e : MAXPOOLNUM * (m + 1) - 1 = 9 * (m + 1) + m := by
    simp only [MAXPOOLNUM]; omega
  rw [e, this]
  simp

theorem GetNodes_prefix (Num : Nat) :
    ∀ (m n : Nat) (a a2 : Allocator) (ps : List Nat),
      GetNodes Num (m + n) a = some (ps, a2) →
      ∃ a1, GetNodes Num m a = some (ps.take m, a1) := by
  intro m
  induction m with
  | zero => intro n a a2 ps _; exact ⟨a, rfl⟩
  | succ m ih =>
    intro n a a2 ps h
    have e : m + 1 + n = (m + n) + 1 := by omega
    rw [e] at h
    simp only [GetNodes] at h ⊢
    split at h
    · exact absurd h (by simp)
    · rename_i p a3 hg
      split at h
      · exact absurd h (by simp)
      · rename_i ps1 a4 hgs
        simp only [Option.some.injEq, Prod.mk.injEq] at h
        obtain ⟨e1, e2⟩ := h
        subst e1 e2
        obtain ⟨a1, h1⟩ := ih n a3 a4 ps1 hgs
        exact ⟨a1, by simp only [h1, List.take_succ_cons]⟩


/-! ## Invariant of the allocator -/

/-- A call of `GetNode` that returns null on a free list of non-null slots leaves
the allocator untouched: the free list holds one slot and no pool can be added. -/
theorem GetNode_null {Num : Nat} {a a1 : Allocator} {F : List Nat} (hF : FreeList a F)
    (hnz : ∀ x ∈ F, x ≠ nullptr) (h : GetNode Num a = some (nullptr, a1)) :
    a1 = a ∧ a.start_ = a.end_ ∧ MAXPOOLNUM ≤ a.pool_num_ := by
  have hs : a.start_ ≠ nullptr := by
    obtain ⟨R, rfl, _⟩ := hF
    exact hnz _ (by simp)
  unfold GetNode at h
  split at h
  · rename_i he
    simp only at h
    split at h
    · exact absurd h (by simp)
    · rename_i a2 rc hinit
      split at h
      · rename_i hrc
        simp only [Option.some.injEq, Prod.mk.injEq, true_and] at h
        subst h
        rcases InitOnePool_spec hinit with ⟨-, h2, h3⟩ | ⟨h1, -⟩
        · exact ⟨h2, he, h3⟩
        · exact absurd h1 hrc
      · simp only [Option.some.injEq, Prod.mk.injEq] at h
        exact absurd h.1 hs
  · simp only [Option.some.injEq, Prod.mk.injEq] at h
    exact absurd h.1 hs

theorem AllocInv.of_new {sizeofT Num : Nat} {a : Allocator}
    (h : Allocator.new sizeofT Num = some a) :
    AllocInv sizeofT Num a (slots a.chunk_size_ Num (callocAddr 0)) [] := by
  obtain ⟨hp, hc, hcb, hfit, hN, hfl⟩ := Allocator_new_spec h
  have hcs0 : 0 < a.chunk_size_ := by
    have : CHUNK_BYTES = 8 := rfl
    omega
  refine ⟨hfl, by simpa using slots_nodup hcs0 _ _, ?_, hc, ⟨hcb, hfit, hN⟩,
    ⟨by omega, by rw [hp]; decide⟩, by rw [hp, slots_length]; simp⟩
  intro p hpm
  simp only [List.append_nil] at hpm
  have := mem_slots_range hcs0 hfit (Nat.le_refl _) hpm
  have h0 := callocAddr_pos 0
  rw [hp]
  exact ⟨by unfold nullptr; omega, this.2⟩

theorem AllocInv.after_get {sizeofT Num : Nat} {a a1 : Allocator} {F H : List Nat} {p : Nat}
    (hi : AllocInv sizeofT Num a F H) (h : GetNode Num a = some (p, a1)) (hp : p ≠ nullptr) :
    p ∈ F ∧ p ∉ H ∧ ∃ F1, AllocInv sizeofT Num a1 F1 (p :: H) := by
  have ndF : F.Nodup := (List.nodup_append.1 hi.nodup).1
  have hdis : ∀ x, x ∈ F → x ∉ H := fun x hx hxH =>
    (List.nodup_append.1 hi.nodup).2.2 hx hxH
  obtain ⟨F1, hF1, nd1, hpF, hcs, hmem, hcnt, hpool⟩ := GetNode_spec hi.free ndF h hp
  have hmono : a.pool_num_ ≤ a1.pool_num_ := by
    rcases hpool with e | ⟨e, -⟩ <;> omega
  have hle := callocAddr_mono hmono
  refine ⟨hpF, hdis p hpF, F1, ?_⟩
  refine
    { free := hF1
      nodup := ?_
      range := ?_
      chunk := by rw [hcs]; exact hi.chunk
      fit := by rw [hcs]; exact hi.fit
      pools := ⟨by have := hi.pools.1; omega, ?_⟩
      count := ?_ }
  · rw [List.nodup_append]
    refine ⟨nd1, List.nodup_cons.2 ⟨hdis p hpF, (List.nodup_append.1 hi.nodup).2.1⟩, ?_⟩
    intro x hx1 hx2
    rcases hmem x hx1 with ⟨hxF, hxp⟩ | ⟨hlo, -⟩
    · rcases List.mem_cons.1 hx2 with e | e
      · exact hxp e
      · exact hdis x hxF e
    · have hx3 : x ∈ F ++ H := by
        rcases List.mem_cons.1 hx2 with e | e
        · rw [e]; exact List.mem_append_left _ hpF
        · exact List.mem_append_right _ e
      have := (hi.range x hx3).2
      omega
  · intro x hx
    rcases List.mem_append.1 hx with hx1 | hx2
    · rcases hmem x hx1 with ⟨hxF, -⟩ | ⟨hlo, hhi⟩
      · have := hi.range x (List.mem_append_left _ hxF)
        exact ⟨this.1, by omega⟩
      · have h0 := callocAddr_pos a.pool_num_
        exact ⟨by unfold nullptr; omega, hhi⟩
    · have hx3 : x ∈ F ++ H := by
        rcases List.mem_cons.1 hx2 with e | e
        · rw [e]; exact List.mem_append_left _ hpF
        · exact List.mem_append_right _ e
      have := hi.range x hx3
      exact ⟨this.1, by omega⟩
  · rcases hpool with e | ⟨e, -, e3⟩
    · rw [e]; exact hi.pools.2
    · omega
  · have := hi.count
    simp only [List.length_cons]
    omega

theorem AllocInv.after_put {sizeofT Num : Nat} {a : Allocator} {F H : List Nat} {p : Nat}
    (hi : AllocInv sizeofT Num a F H) (hp : p ∈ H) :
    AllocInv sizeofT Num (PutNode a p) (F ++ [p]) (H.erase p) := by
  have ndF : F.Nodup := (List.nodup_append.1 hi.nodup).1
  have hperm : ((F ++ [p]) ++ H.erase p).Perm (F ++ H) := by
    rw [List.append_assoc]
    exact List.Perm.append_left F (List.perm_cons_erase hp).symm
  refine
    { free := PutNode_freeList hi.free ndF p
      nodup := hperm.nodup_iff.2 hi.nodup
      range := fun x hx => hi.range x (hperm.mem_iff.1 hx)
      chunk := hi.chunk
      fit := hi.fit
      pools := hi.pools
      count := ?_ }
  have h1 := hperm.length_eq
  have h2 := hi.count
  simp only [List.length_append] at h1 ⊢
  show a.pool_num_ * Num = _
  omega

/-- Every state of the allocator that a client can produce satisfies the invariant. -/
theorem AllocReach.allocInv {sizeofT Num : Nat} {a : Allocator} {H : List Nat}
    (h : AllocReach sizeofT Num a H) : ∃ F, AllocInv sizeofT Num a F H := by
  induction h with
  | new h0 => exact ⟨_, AllocInv.of_new h0⟩
  | get _ hg hp ih =>
    obtain ⟨F, hi⟩ := ih
    exact (hi.after_get hg hp).2.2
  | getNull _ hg ih =>
    obtain ⟨F, hi⟩ := ih
    have hnz : ∀ x ∈ F, x ≠ nullptr := fun x hx => (hi.range x (List.mem_append_left _ hx)).1
    rw [(GetNode_null hi.free hnz hg).1]
    exact ⟨F, hi⟩
  | put _ hp ih =>
    obtain ⟨F, hi⟩ := ih
    exact ⟨_, hi.after_put hp⟩

/-- In a state that satisfies the invariant the call `GetNode` returns. -/
theorem AllocInv.getNode_returns {sizeofT Num : Nat} {a : Allocator} {F H : List Nat}
    (hi : AllocInv sizeofT Num a F H) : ∃ p a1, GetNode Num a = some (p, a1) := by
  have ndF : F.Nodup := (List.nodup_append.1 hi.nodup).1
  by_cases hroom : F.length = 1 → a.pool_num_ < MAXPOOLNUM
  · obtain ⟨p, a1, h, -⟩ := GetNode_total Num hi.free ndF
      (fun x hx => (hi.range x (List.mem_append_left _ hx)).1)
      (fun h1 => ⟨hroom h1, hi.fit.1, hi.fit.2.2, hi.fit.2.1⟩)
    exact ⟨p, a1, h⟩
  · simp only [Classical.not_imp, Nat.not_lt] at hroom
    obtain ⟨h1, h2⟩ := hroom
    obtain ⟨R, hR, hpath⟩ := hi.free
    have hF : FreeList a [a.start_] := by
      cases R with
      | nil => exact ⟨[], rfl, hpath⟩
      | cons x xs => rw [hR] at h1; simp at h1
    exact ⟨nullptr, a, GetNode_exhausted Num hF h2⟩


/-! ## Runs of `GetNode` -/

theorem slots_snoc (cs : Nat) : ∀ (n base : Nat),
    slots cs (n + 1) base = slots cs n base ++ [base + n * cs] := by
  intro n
  induction n with
  | zero => intro base; simp [slots]
  | succ n ih =>
    intro base
    show base :: slots cs (n + 1) (base + cs) =
      (base :: slots cs n (base + cs)) ++ [base + (n + 1) * cs]
    rw [ih (base + cs)]
    have e : base + cs + n * cs = base + (n + 1) * cs := by ring
    rw [e]
    rfl

theorem poolsSlots_snoc (cs Num : Nat) : ∀ (n k : Nat),
    poolsSlots cs Num (n + 1) k = poolsSlots cs Num n k ++ slots cs Num (callocAddr (k + n)) := by
  intro n
  induction n with
  | zero => intro k; simp [poolsSlots]
  | succ n ih =>
    intro k
    rw [poolsSlots, ih (k + 1)]
    simp only [poolsSlots, List.append_assoc]
    have e : k + 1 + n = k + (n + 1) := by omega
    rw [e]

/-- The constructor `Allocator()` returns when the element size is positive and the
size of a pool, `chunk_size_ * Num`, is positive and does not overflow `uint32_t`. -/
theorem Allocator_new_total (sizeofT Num : Nat) (hs : 1 ≤ sizeofT) (hN : 1 ≤ Num)
    (hfit : (sizeofT + 7) / 8 * 8 * Num < 2 ^ 32) :
    ∃ a, Allocator.new sizeofT Num = some a := by
  have hlt : (sizeofT + 7) / 8 * 8 < 2 ^ 32 :=
    lt_of_le_of_lt (Nat.le_mul_of_pos_right _ hN) hfit
  have hcs : (sizeofT + 7) / 8 * 8 % 2 ^ 32 = (sizeofT + 7) / 8 * 8 := Nat.mod_eq_of_lt hlt
  obtain ⟨a1, h1⟩ := InitOnePool_total Num
    { headers_ := fun _ => nullptr, pool_num_ := 0,
      chunk_size_ := ((sizeofT + 7) / 8 * 8) % 2 ^ 32,
      start_ := nullptr, end_ := nullptr, chunk_next := fun _ => nullptr }
    (show (0 : Nat) < MAXPOOLNUM by decide) (by simp only [hcs, CHUNK_BYTES]; omega) hN
    (by simp only [hcs]; exact hfit)
  exact ⟨a1, by simp only [Allocator.new, h1, Option.map_some']⟩

/-- Calls of `GetNode` take the slots of the free list from its front, as long as
one slot stays behind. -/
theorem GetNodes_drainList (Num : Nat) :
    ∀ (F : List Nat) (a : Allocator) (s : Nat), FreeList a (F ++ [s]) → (F ++ [s]).Nodup →
      ∃ a1, GetNodes Num F.length a = some (F, a1) ∧ FreeList a1 [s] ∧
        a1.pool_num_ = a.pool_num_ ∧ a1.chunk_size_ = a.chunk_size_ := by
  intro F
  induction F with
  | nil => intro a s h _; exact ⟨a, rfl, h, rfl, rfl⟩
  | cons p R ih =>
    intro a s h nd
    have h0 : ∃ x R1, R ++ [s] = x :: R1 := by
      cases R with
      | nil => exact ⟨s, [], rfl⟩
      | cons x R1 => exact ⟨x, R1 ++ [s], rfl⟩
    obtain ⟨x, R1, e⟩ := h0
    have h1 : FreeList a (p :: x :: R1) := by rw [← e]; exact h
    have nd1 : (p :: x :: R1).Nodup := by rw [← e]; exact nd
    obtain ⟨g1, g2⟩ := GetNode_take Num h1 nd1
    rw [← e] at g2
    obtain ⟨a1, k1, k2, k3, k4⟩ := ih _ s g2 (List.nodup_cons.1 nd).2
    refine ⟨a1, ?_, k2, k3, k4⟩
    simp only [List.length_cons, GetNodes, g1, k1]

theorem AllocReach.getNodes {sizeofT Num : Nat} :
    ∀ (n : Nat) {a a1 : Allocator} {H ps : List Nat}, AllocReach sizeofT Num a H →
      GetNodes Num n a = some (ps, a1) → (∀ p ∈ ps, p ≠ nullptr) →
      AllocReach sizeofT Num a1 (ps.reverse ++ H) := by
  intro n
  induction n with
  | zero =>
    intro a a1 H ps h hg _
    simp only [GetNodes, Option.some.injEq, Prod.mk.injEq] at hg
    obtain ⟨e1, e2⟩ := hg
    subst e1 e2
    exact h
  | succ n ih =>
    intro a a1 H ps h hg hnz
    simp only [GetNodes] at hg
    split at hg
    · exact absurd hg (by simp)
    · rename_i p a3 hg1
      split at hg
      · exact absurd hg (by simp)
      · rename_i ps1 a4 hgs
        simp only [Option.some.injEq, Prod.mk.injEq] at hg
        obtain ⟨e1, e2⟩ := hg
        subst e1 e2
        have hp : p ≠ nullptr := hnz p (by simp)
        have := ih (AllocReach.get h hg1 hp) hgs (fun x hx => hnz x (List.mem_cons_of_mem _ hx))
        simpa using this

theorem freshGets_reach {sizeofT Num n : Nat} {ps : List Nat} {a : Allocator}
    (h : freshGets sizeofT Num n = some (ps, a)) (hnz : ∀ p ∈ ps, p ≠ nullptr) :
    AllocReach sizeofT Num a ps.reverse := by
  obtain ⟨a0, h0, h1⟩ := Option.bind_eq_some.1 h
  simpa using AllocReach.getNodes n (AllocReach.new h0) h1 hnz

/-- The whole run of a fresh allocator without releases: the slots of
`GetNodes_fresh`, then null for ever; the last slot of the tenth pool stays on the
free list. -/
theorem GetNodes_fresh_all {sizeofT Num : Nat} {a : Allocator}
    (h : Allocator.new sizeofT Num = some a) :
    ∃ handed last, handed.length = MAXPOOLNUM * Num - 1 ∧ (handed ++ [last]).Nodup ∧
      (∀ p ∈ handed ++ [last], p ≠ nullptr) ∧
      ∀ n, ∃ a1, GetNodes Num (MAXPOOLNUM * Num - 1 + n) a =
          some (handed ++ List.replicate n nullptr, a1) ∧
        a1.pool_num_ = MAXPOOLNUM ∧ FreeList a1 [last] := by
  obtain ⟨hp, -, hcb, hfit, hN, hfl⟩ := Allocator_new_spec h
  have hcs0 : 0 < a.chunk_size_ := by
    have : CHUNK_BYTES = 8 := rfl
    omega
  obtain ⟨a1, g1, g2, g3⟩ := GetNodes_fresh h
  obtain ⟨m, hm⟩ : ∃ m, Num = m + 1 := ⟨Num - 1, by omega⟩
  have hall : poolsSlots a.chunk_size_ Num 9 0 ++ slots a.chunk_size_ (Num - 1) (callocAddr 9) ++
      [callocAddr 9 + (Num - 1) * a.chunk_size_] = poolsSlots a.chunk_size_ Num 10 0 := by
    rw [poolsSlots_snoc a.chunk_size_ Num 9 0, List.append_assoc]
    congr 1
    have e : Num - 1 = m := by omega
    rw [e, Nat.zero_add, ← slots_snoc, ← hm]
  refine ⟨poolsSlots a.chunk_size_ Num 9 0 ++ slots a.chunk_size_ (Num - 1) (callocAddr 9),
    callocAddr 9 + (Num - 1) * a.chunk_size_, ?_, ?_, ?_, ?_⟩
  · rw [List.length_append, poolsSlots_length, slots_length]
    simp only [MAXPOOLNUM]
    omega
  · rw [hall]
    exact poolsSlots_nodup hcs0 hfit 10 0
  · intro p hpm
    rw [hall] at hpm
    have := (mem_poolsSlots hcs0 hfit 10 0 p hpm).1
    have h0 := callocAddr_pos 0
    unfold nullptr
    omega
  · intro n
    exact ⟨a1, GetNodes_append Num _ n a a1 a1 _ _ g1 (GetNodes_exhausted Num g2 (by omega) n),
      g3, g2⟩


/-! ## The claims on the allocator -/

/-- C13: an `Allocator<T, Num>` with `Num >= 1` (and a pool size that fits `uint32_t`) is
constructed, and `10 * Num` calls of `GetNode` on it without any `PutNode` all return: the
calls with index `0 .. 10 * Num - 2` return non-null pointers and the call with index
`10 * Num - 1` returns null. -/
theorem first_null_at_index (sizeofT Num : Nat) (hs : 1 ≤ sizeofT) (hN : 1 ≤ Num)
    (hfit : (sizeofT + 7) / 8 * 8 * Num < 2 ^ 32) :
    ∃ a, Allocator.new sizeofT Num = some a ∧
      ∃ ps a1, GetNodes Num (MAXPOOLNUM * Num) a = some (ps ++ [nullptr], a1) ∧
        ps.length = MAXPOOLNUM * Num - 1 ∧ ∀ p ∈ ps, p ≠ nullptr := by
  obtain ⟨a, ha⟩ := Allocator_new_total sizeofT Num hs hN hfit
  obtain ⟨handed, last, h1, -, h3, h4⟩ := GetNodes_fresh_all ha
  obtain ⟨a1, g, -, -⟩ := h4 1
  have e : MAXPOOLNUM * Num - 1 + 1 = MAXPOOLNUM * Num := by
    simp only [MAXPOOLNUM]; omega
  rw [e] at g
  exact ⟨a, ha, handed, a1, g, h1, fun p hp => h3 p (List.mem_append_left _ hp)⟩

/-- Witness for C13: the test `MaxGetNode` on `Allocator<Base, 5>` (`sizeof(Base)` is 16);
the first null is returned at `i == 49`. -/
theorem first_null_at_index_witness :
    (freshGets 16 5 50).map (fun r => r.1.map (fun p => decide (p = nullptr))) =
        some (List.replicate 49 false ++ [true]) ∧
      ∃ a, Allocator.new 16 5 = some a ∧
        ∃ ps a1, GetNodes 5 50 a = some (ps ++ [nullptr], a1) ∧ ps.length = 49 ∧
          ∀ p ∈ ps, p ≠ nullptr :=
  ⟨by decide, first_null_at_index 16 5 (by decide) (by decide) (by decide)⟩

/-- C14 as stated fails: with `N = 5` slots per pool and `M = 10` pools, the run of the
first `N * M = 50` requests on a fresh allocator returns, and its last request, the
50th, yields null. -/
theorem request_count_counterexample :
    (freshGets 16 5 (5 * 10)).map (fun r => (r.1.length, r.1.getLast?)) =
      some (50, some nullptr) := by
  decide

/-- C14, amended: on a fresh allocator with `Num` slots per pool and at most 10 pools,
without any release, the first `10 * Num - 1` requests return distinct non-null slots,
and the request number `10 * Num` and every later one return null; null is returned
in a state that owns 10 pools and whose free list holds exactly one slot, the last
slot of the last pool, which is never handed out. -/
theorem null_from_last_slot (sizeofT Num : Nat) {a : Allocator}
    (h : Allocator.new sizeofT Num = some a) :
    ∃ handed last, handed.length = MAXPOOLNUM * Num - 1 ∧ (handed ++ [last]).Nodup ∧
      (∀ p ∈ handed ++ [last], p ≠ nullptr) ∧
      ∀ n, ∃ a1, GetNodes Num (MAXPOOLNUM * Num - 1 + n) a =
          some (handed ++ List.replicate n nullptr, a1) ∧
        a1.pool_num_ = MAXPOOLNUM ∧ FreeList a1 [last] ∧
        GetNode Num a1 = some (nullptr, a1) := by
  obtain ⟨handed, last, h1, h2, h3, h4⟩ := GetNodes_fresh_all h
  refine ⟨handed, last, h1, h2, h3, fun n => ?_⟩
  obtain ⟨a1, g1, g2, g3⟩ := h4 n
  exact ⟨a1, g1, g2, g3, GetNode_exhausted Num g3 (by rw [g2])⟩

/-- Witness for C14 (amended) on the fixture `Allocator<Base, 5>`. -/
theorem null_from_last_slot_witness :
    Allocator.new 16 5 = some demoAlloc ∧
      ∃ handed last, handed.length = 49 ∧ (handed ++ [last]).Nodup ∧
        (∀ p ∈ handed ++ [last], p ≠ nullptr) ∧
        ∀ n, ∃ a1, GetNodes 5 (49 + n) demoAlloc =
            some (handed ++ List.replicate n nullptr, a1) ∧
          a1.pool_num_ = 10 ∧ FreeList a1 [last] ∧ GetNode 5 a1 = some (nullptr, a1) :=
  ⟨(Option.some_get _).symm, null_from_last_slot 16 5 (Option.some_get _).symm⟩


/-- After `PutNode(s)` the slots that were free are handed out first, in their order;
the released slot `s` is then the only one left, and the next call returns it only if a
further pool can be allocated, which then forms the free list. -/
theorem AllocInv.put_then_get {sizeofT Num : Nat} {a : Allocator} {F H : List Nat} {s : Nat}
    (hi : AllocInv sizeofT Num a F H) (hs : s ∈ H) :
    ∃ a1, GetNodes Num F.length (PutNode a s) = some (F, a1) ∧ FreeList a1 [s] ∧
      (a.pool_num_ < MAXPOOLNUM → ∃ a2, GetNode Num a1 = some (s, a2) ∧
        a2.pool_num_ = a.pool_num_ + 1 ∧
        FreeList a2 (slots a.chunk_size_ Num (callocAddr a.pool_num_))) ∧
      (MAXPOOLNUM ≤ a.pool_num_ → GetNode Num a1 = some (nullptr, a1)) := by
  have hi1 := hi.after_put hs
  have nd : (F ++ [s]).Nodup := (List.nodup_append.1 hi1.nodup).1
  obtain ⟨a1, k1, k2, k3, k4⟩ := GetNodes_drainList Num F (PutNode a s) s hi1.free nd
  have k3a : a1.pool_num_ = a.pool_num_ := k3
  have k4a : a1.chunk_size_ = a.chunk_size_ := k4
  refine ⟨a1, k1, k2, ?_, ?_⟩
  · intro hp
    obtain ⟨a2, g, g2, -, g4, -⟩ := GetNode_grow Num k2 (by rw [k3a]; exact hp)
      (by rw [k4a]; exact hi.fit.1) hi.fit.2.2 (by rw [k4a]; exact hi.fit.2.1)
    rw [k3a] at g2 g4
    rw [k4a] at g4
    exact ⟨a2, g, g2, g4⟩
  · intro hp
    exact GetNode_exhausted Num k2 (by rw [k3a]; exact hp)

/-- A call of `GetNode` changes the pool count only by installing one new pool, whose
slots, in ascending address order one chunk apart, then form the free list. -/
theorem GetNode_new_pool {Num : Nat} {a a1 : Allocator} {p : Nat}
    (h : GetNode Num a = some (p, a1)) (hne : a1.pool_num_ ≠ a.pool_num_) :
    a1.pool_num_ = a.pool_num_ + 1 ∧
      FreeList a1 (slots a.chunk_size_ Num (callocAddr a.pool_num_)) := by
  unfold GetNode at h
  split at h
  · simp only at h
    split at h
    · exact absurd h (by simp)
    · rename_i a2 rc hinit
      have hsame : a1 = a2 := by
        split at h
        · simp only [Option.some.injEq, Prod.mk.injEq] at h
          exact h.2.symm
        · simp only [Option.some.injEq, Prod.mk.injEq] at h
          exact h.2.symm
      subst hsame
      rcases InitOnePool_spec hinit with ⟨-, h2, -⟩ | ⟨-, -, hpn, -, -, -, -, hfl, -, -⟩
      · rw [h2] at hne
        exact absurd rfl hne
      · exact ⟨hpn, hfl⟩
  · simp only [Option.some.injEq, Prod.mk.injEq] at h
    rw [← h.2] at hne
    exact absurd rfl hne

/-- When a fresh pool is the free list, its slots are handed out in ascending address
order: all but the last one in any case, and the last one too when a further pool can
be allocated. -/
theorem AllocInv.fresh_pool_in_order {sizeofT Num : Nat} {a : Allocator} {F H : List Nat}
    (hi : AllocInv sizeofT Num a F H) {k : Nat}
    (hF : FreeList a (slots a.chunk_size_ Num (callocAddr k))) :
    (∃ a1, GetNodes Num (Num - 1) a =
        some (slots a.chunk_size_ (Num - 1) (callocAddr k), a1)) ∧
      (a.pool_num_ < MAXPOOLNUM →
        ∃ a1, GetNodes Num Num a = some (slots a.chunk_size_ Num (callocAddr k), a1)) := by
  have hcs0 : 0 < a.chunk_size_ := by
    have : CHUNK_BYTES = 8 := rfl
    have := hi.fit.1
    omega
  obtain ⟨m, hm⟩ : ∃ m, Num = m + 1 := ⟨Num - 1, by have := hi.fit.2.2; omega⟩
  have hF1 : FreeList a (slots a.chunk_size_ (m + 1) (callocAddr k)) := by rw [← hm]; exact hF
  obtain ⟨a1, g1, g2, g3, g4⟩ := GetNodes_drain Num a.chunk_size_ hcs0 m a (callocAddr k) hF1
  have e : Num - 1 = m := by omega
  constructor
  · rw [e]
    exact ⟨a1, g1⟩
  · intro hp
    obtain ⟨a2, k1, -⟩ := GetNode_grow Num g2 (by rw [g3]; exact hp)
      (by rw [g4]; exact hi.fit.1) hi.fit.2.2 (by rw [g4]; exact hi.fit.2.1)
    have hone : GetNodes Num 1 a1 = some ([callocAddr k + m * a.chunk_size_], a2) := by
      simp only [GetNodes, k1]
    have := GetNodes_append Num m 1 a a1 a2 _ _ g1 hone
    have hs : slots a.chunk_size_ Num (callocAddr k) =
        slots a.chunk_size_ m (callocAddr k) ++ [callocAddr k + m * a.chunk_size_] := by
      rw [hm, slots_snoc]
    have e2 : GetNodes Num Num a = GetNodes Num (m + 1) a := by rw [← hm]
    exact ⟨a2, by rw [hs, e2]; exact this⟩

theorem demoAlloc3_reach : AllocReach 16 5 demoAlloc3.2 demoAlloc3.1.reverse := by
  have h : freshGets 16 5 3 = some demoAlloc3 := (Option.some_get (by decide)).symm
  have h1 : freshGets 16 5 3 = some (demoAlloc3.1, demoAlloc3.2) := h
  exact freshGets_reach h1 (by decide)

theorem demoAlloc4_reach : AllocReach 16 5 demoAlloc4.2 demoAlloc4.1.reverse := by
  have h : freshGets 16 5 4 = some demoAlloc4 := (Option.some_get (by decide)).symm
  have h1 : freshGets 16 5 4 = some (demoAlloc4.1, demoAlloc4.2) := h
  exact freshGets_reach h1 (by decide)

theorem demoAllocTen_reach : AllocReach 16 1 demoAllocTen.2 demoAllocTen.1.reverse := by
  have h : freshGets 16 1 9 = some demoAllocTen := (Option.some_get (by decide)).symm
  have h1 : freshGets 16 1 9 = some (demoAllocTen.1, demoAllocTen.2) := h
  exact freshGets_reach h1 (by decide)

/-- C15 as stated fails: an `Allocator<Base, 1>` that has handed out nine slots owns ten
pools and has one free slot (`k = 1`); after `PutNode` of the first slot handed out, the
next call of `GetNode` returns the slot that was free, and the call after it, the
`(k + 1)`-th, returns null instead of the released slot. -/
theorem release_at_pool_limit_counterexample :
    AllocReach 16 1 demoAllocTen.2 demoAllocTen.1.reverse ∧
      callocAddr 0 ∈ demoAllocTen.1.reverse ∧ callocAddr 0 ≠ nullptr ∧
      FreeList demoAllocTen.2 [callocAddr 9] ∧
      (GetNodes 1 2 (PutNode demoAllocTen.2 (callocAddr 0))).map Prod.fst =
        some [callocAddr 9, nullptr] :=
  ⟨demoAllocTen_reach, by decide, by decide,
    ⟨[], by decide, show demoAllocTen.2.start_ = demoAllocTen.2.end_ by decide⟩, by decide⟩

/-- C15, amended: the chunk size is `sizeof(T)` rounded up to a multiple of 8.  Every
pool, the one of the constructor and each one that `GetNode` allocates later, is
installed as the free list with its `Num` slots in ascending address order, one chunk
apart, and whenever such a fresh pool is the free list its slots are handed out in that
order (all `Num` of them below 10 pools, all but the last one at 10 pools); a fresh
allocator hands out pool after pool this way.  In every state with free list `F`, after
`PutNode(s)` of a slot that is handed out, the next `F.length` calls of `GetNode`
return the slots of `F` in order, leaving `s` as the only free slot; the call after
these returns `s` when the allocator owns fewer than 10 pools, and it then also
allocates one new pool, which becomes the free list; it returns null (with `s` kept on
the free list) when the allocator owns 10 pools. -/
theorem released_slot_goes_last (sizeofT Num : Nat) {a : Allocator} {H : List Nat} {s : Nat}
    (hr : AllocReach sizeofT Num a H) (hs : s ∈ H) :
    a.chunk_size_ = ((sizeofT + 7) / 8 * 8) % 2 ^ 32 ∧
      (∀ a0, Allocator.new sizeofT Num = some a0 →
        FreeList a0 (slots a0.chunk_size_ Num (callocAddr 0))) ∧
      (∀ b p b1, GetNode Num b = some (p, b1) → b1.pool_num_ ≠ b.pool_num_ →
        b1.pool_num_ = b.pool_num_ + 1 ∧
        FreeList b1 (slots b.chunk_size_ Num (callocAddr b.pool_num_))) ∧
      (∀ b H1 k, AllocReach sizeofT Num b H1 →
        FreeList b (slots b.chunk_size_ Num (callocAddr k)) →
        (∃ b1, GetNodes Num (Num - 1) b =
          some (slots b.chunk_size_ (Num - 1) (callocAddr k), b1)) ∧
        (b.pool_num_ < MAXPOOLNUM →
          ∃ b1, GetNodes Num Num b = some (slots b.chunk_size_ Num (callocAddr k), b1))) ∧
      (∀ a0, Allocator.new sizeofT Num = some a0 → ∀ j, j < MAXPOOLNUM →
        ∃ a1, GetNodes Num (j * Num) a0 = some (poolsSlots a0.chunk_size_ Num j 0, a1)) ∧
      ∃ F a1, FreeList a F ∧ GetNodes Num F.length (PutNode a s) = some (F, a1) ∧
        FreeList a1 [s] ∧
        (a.pool_num_ < MAXPOOLNUM → ∃ a2, GetNode Num a1 = some (s, a2) ∧
          a2.pool_num_ = a.pool_num_ + 1 ∧
          FreeList a2 (slots a.chunk_size_ Num (callocAddr a.pool_num_))) ∧
        (MAXPOOLNUM ≤ a.pool_num_ → GetNode Num a1 = some (nullptr, a1)) := by
  obtain ⟨F, hi⟩ := hr.allocInv
  refine ⟨hi.chunk, ?_, ?_, ?_, ?_, ?_⟩
  · intro a0 h0
    exact (Allocator_new_spec h0).2.2.2.2.2
  · intro b p b1 hg hne
    exact GetNode_new_pool hg hne
  · intro b H1 k hb hF
    obtain ⟨F1, hi1⟩ := hb.allocInv
    exact hi1.fresh_pool_in_order hF
  · intro a0 h0 j hj
    obtain ⟨hp, -, hcb, hfit, hN, hfl⟩ := Allocator_new_spec h0
    obtain ⟨a1, g1, -⟩ := GetNodes_pools Num a0.chunk_size_ hcb hN hfit j a0 0 hfl
      (by rw [hp]) rfl (by simp only [MAXPOOLNUM] at hj ⊢; omega)
    exact ⟨a1, g1⟩
  · obtain ⟨a1, h1, h2, h3, h4⟩ := hi.put_then_get hs
    exact ⟨F, a1, hi.free, h1, h2, h3, h4⟩

/-- Witness for C15 (amended): the test `GetNodeFunc` on `Allocator<Base, 5>`: the
pointers `p1, p2, p3` lie 0, 1 and 2 chunks of 16 bytes into the first pool, and after
`PutNode(p1)` the third call of `GetNode` returns `p1` and installs the second pool;
fifteen calls on the fresh allocator hand out the pools 0, 1 and 2, each in ascending
order. -/
theorem released_slot_goes_last_witness :
    demoAlloc3.1 = [callocAddr 0, callocAddr 0 + 16, callocAddr 0 + 2 * 16] ∧
      (GetNodes 5 3 (PutNode demoAlloc3.2 (callocAddr 0))).map Prod.fst =
        some [callocAddr 0 + 3 * 16, callocAddr 0 + 4 * 16, callocAddr 0] ∧
      (freshGets 16 5 15).map Prod.fst = some
        [callocAddr 0, callocAddr 0 + 16, callocAddr 0 + 32, callocAddr 0 + 48, callocAddr 0 + 64,
         callocAddr 1, callocAddr 1 + 16, callocAddr 1 + 32, callocAddr 1 + 48, callocAddr 1 + 64,
         callocAddr 2, callocAddr 2 + 16, callocAddr 2 + 32, callocAddr 2 + 48,
         callocAddr 2 + 64] ∧
      AllocReach 16 5 demoAlloc3.2 demoAlloc3.1.reverse ∧
      callocAddr 0 ∈ demoAlloc3.1.reverse ∧
      demoAlloc3.2.chunk_size_ = 16 ∧
      (∃ a1, GetNodes 5 (3 * 5) demoAlloc = some (poolsSlots demoAlloc.chunk_size_ 5 3 0, a1)) ∧
      ∃ F a1, FreeList demoAlloc3.2 F ∧
        GetNodes 5 F.length (PutNode demoAlloc3.2 (callocAddr 0)) = some (F, a1) ∧
        FreeList a1 [callocAddr 0] ∧
        (demoAlloc3.2.pool_num_ < MAXPOOLNUM →
          ∃ a2, GetNode 5 a1 = some (callocAddr 0, a2) ∧
            a2.pool_num_ = demoAlloc3.2.pool_num_ + 1 ∧
            FreeList a2 (slots demoAlloc3.2.chunk_size_ 5
              (callocAddr demoAlloc3.2.pool_num_))) ∧
        (MAXPOOLNUM ≤ demoAlloc3.2.pool_num_ → GetNode 5 a1 = some (nullptr, a1)) :=
  ⟨by decide, by decide, by decide, demoAlloc3_reach, by decide,
    (released_slot_goes_last 16 5 demoAlloc3_reach
      (show callocAddr 0 ∈ demoAlloc3.1.reverse by decide)).1,
    (released_slot_goes_last 16 5 demoAlloc3_reach
      (show callocAddr 0 ∈ demoAlloc3.1.reverse by decide)).2.2.2.2.1 demoAlloc
      (Option.some_get _).symm 3 (by decide),
    (released_slot_goes_last 16 5 demoAlloc3_reach
      (show callocAddr 0 ∈ demoAlloc3.1.reverse by decide)).2.2.2.2.2⟩

/-- C16: in every state that a client can produce by `GetNode` and by `PutNode` of
slots that are handed out, no slot is handed out twice, no slot is both on the free
list and handed out, the call `GetNode` returns, and a non-null result is a slot of
the free list that differs from every slot handed out. -/
theorem slot_ownership_exclusive (sizeofT Num : Nat) {a : Allocator} {H : List Nat}
    (hr : AllocReach sizeofT Num a H) :
    H.Nodup ∧ ∃ F, FreeList a F ∧ F.Nodup ∧ (∀ p ∈ F, p ∉ H) ∧
      (∃ p a1, GetNode Num a = some (p, a1)) ∧
      ∀ p a1, GetNode Num a = some (p, a1) → p ≠ nullptr → p ∈ F ∧ p ∉ H := by
  obtain ⟨F, hi⟩ := hr.allocInv
  obtain ⟨n1, n2, n3⟩ := List.nodup_append.1 hi.nodup
  refine ⟨n2, F, hi.free, n1, fun p hp hpH => n3 hp hpH, hi.getNode_returns, ?_⟩
  intro p a1 hg hp
  obtain ⟨h1, h2, -⟩ := hi.after_get hg hp
  exact ⟨h1, h2⟩

/-- Witness for C16: the fixture `Allocator<Base, 5>` after three calls of `GetNode`. -/
theorem slot_ownership_exclusive_witness :
    AllocReach 16 5 demoAlloc3.2 demoAlloc3.1.reverse ∧
      (demoAlloc3.1.reverse.Nodup ∧ ∃ F, FreeList demoAlloc3.2 F ∧ F.Nodup ∧
        (∀ p ∈ F, p ∉ demoAlloc3.1.reverse) ∧
        (∃ p a1, GetNode 5 demoAlloc3.2 = some (p, a1)) ∧
        ∀ p a1, GetNode 5 demoAlloc3.2 = some (p, a1) → p ≠ nullptr →
          p ∈ F ∧ p ∉ demoAlloc3.1.reverse) :=
  ⟨demoAlloc3_reach, slot_ownership_exclusive 16 5 demoAlloc3_reach⟩

/-- C17: in a state that a client can produce, whose free list holds exactly one
slot `p` and that owns fewer than 10 pools, `GetNode` returns `p` (which is not null),
the pool count goes up by exactly one, and the free list afterwards consists of the
`Num` slots of the new pool, which are distinct and fresh: none is null, `p`, or a slot
that is handed out. -/
theorem last_slot_grows_pool (sizeofT Num : Nat) {a : Allocator} {H : List Nat} {p : Nat}
    (hr : AllocReach sizeofT Num a H) (hF : FreeList a [p]) (hp : a.pool_num_ < MAXPOOLNUM) :
    ∃ a1, GetNode Num a = some (p, a1) ∧ p ≠ nullptr ∧ a1.pool_num_ = a.pool_num_ + 1 ∧
      FreeList a1 (slots a.chunk_size_ Num (callocAddr a.pool_num_)) ∧
      (slots a.chunk_size_ Num (callocAddr a.pool_num_)).length = Num ∧
      (slots a.chunk_size_ Num (callocAddr a.pool_num_)).Nodup ∧
      ∀ x ∈ slots a.chunk_size_ Num (callocAddr a.pool_num_),
        x ≠ nullptr ∧ x ≠ p ∧ x ∉ H := by
  obtain ⟨F, hi⟩ := hr.allocInv
  have hcs0 : 0 < a.chunk_size_ := by
    have : CHUNK_BYTES = 8 := rfl
    have := hi.fit.1
    omega
  obtain ⟨a1, g1, g2, -, g4, g5⟩ := GetNode_grow Num hF hp hi.fit.1 hi.fit.2.2 hi.fit.2.1
  have hpF : p ∈ F := by
    obtain ⟨R, e, -⟩ := hi.free
    obtain ⟨R1, e1, -⟩ := hF
    simp only [List.cons.injEq] at e1
    rw [e, e1.1]
    exact List.mem_cons_self _ _
  have hpr := hi.range p (List.mem_append_left _ hpF)
  refine ⟨a1, g1, hpr.1, g2, g4, slots_length _ _ _, slots_nodup hcs0 _ _, ?_⟩
  intro x hx
  have hx1 := (g5 x hx).1
  have h0 := callocAddr_pos a.pool_num_
  refine ⟨by unfold nullptr; omega, ?_, ?_⟩
  · intro e
    rw [e] at hx1
    have := hpr.2
    omega
  · intro hxH
    have := (hi.range x (List.mem_append_right _ hxH)).2
    omega

/-- Witness for C17: the fixture `Allocator<Base, 5>` after four calls of `GetNode`; the
fifth call returns the last slot of the first pool and installs the second pool. -/
theorem last_slot_grows_pool_witness :
    AllocReach 16 5 demoAlloc4.2 demoAlloc4.1.reverse ∧
      FreeList demoAlloc4.2 [callocAddr 0 + 4 * 16] ∧ demoAlloc4.2.pool_num_ < MAXPOOLNUM ∧
      ∃ a1, GetNode 5 demoAlloc4.2 = some (callocAddr 0 + 4 * 16, a1) ∧
        callocAddr 0 + 4 * 16 ≠ nullptr ∧ a1.pool_num_ = demoAlloc4.2.pool_num_ + 1 ∧
        FreeList a1 (slots demoAlloc4.2.chunk_size_ 5 (callocAddr demoAlloc4.2.pool_num_)) ∧
        (slots demoAlloc4.2.chunk_size_ 5 (callocAddr demoAlloc4.2.pool_num_)).length = 5 ∧
        (slots demoAlloc4.2.chunk_size_ 5 (callocAddr demoAlloc4.2.pool_num_)).Nodup ∧
        ∀ x ∈ slots demoAlloc4.2.chunk_size_ 5 (callocAddr demoAlloc4.2.pool_num_),
          x ≠ nullptr ∧ x ≠ callocAddr 0 + 4 * 16 ∧ x ∉ demoAlloc4.1.reverse :=
  ⟨demoAlloc4_reach,
    ⟨[], by decide, show demoAlloc4.2.start_ = demoAlloc4.2.end_ by decide⟩, by decide,
    last_slot_grows_pool 16 5 demoAlloc4_reach
      ⟨[], by decide, show demoAlloc4.2.start_ = demoAlloc4.2.end_ by decide⟩ (by decide)⟩


/-! ## The place of a new element -/

/-- A strict weak ordering is negatively transitive. -/
theorem StrictWeakOrder.neg_trans {T : Type} {lt : T → T → Bool} (hswo : StrictWeakOrder lt)
    {a b c : T} (hab : lt a b = false) (hbc : lt b c = false) : lt a c = false := by
  by_contra hac
  have hac : lt a c = true := by simpa using hac
  have hba : lt b a = false := by
    by_contra h
    have h : lt b a = true := by simpa using h
    rw [hswo.trans b a c h hac] at hbc
    exact absurd hbc (by simp)
  have hcb : lt c b = false := by
    by_contra h
    have h : lt c b = true := by simpa using h
    rw [hswo.trans a c b hac h] at hab
    exact absurd hab (by simp)
  rw [(hswo.incomp_trans a b c hab hba hbc hcb).1] at hac
  exact absurd hac (by simp)

/-- In an ascending sequence the new value goes behind all elements that are ordered
before it and in front of all others. -/
theorem insertFromTail_place {T : Type} {lt : T → T → Bool} (hswo : StrictWeakOrder lt)
    (v : T) {xs : List T} (h : Ascending lt xs) :
    ∃ xs1 xs2, xs = xs1 ++ xs2 ∧ insertFromTail lt v xs = xs1 ++ v :: xs2 ∧
      (∀ a ∈ xs1, lt a v = true) ∧ (∀ b ∈ xs2, lt b v = false) := by
  obtain ⟨xs1, xs2, e1, e2, e3, e4⟩ := insertFromTail_split lt v xs
  refine ⟨xs1, xs2, e1, e2, ?_, e3⟩
  subst e1
  unfold Ascending at h
  rw [List.pairwise_append] at h
  obtain ⟨h1, -, -⟩ := h
  intro a ha
  rcases List.eq_nil_or_concat xs1 with e | ⟨l, z, e⟩
  · subst e; simp at ha
  · subst e
    have hz : lt z v = true := e4 z (by simp)
    rw [List.concat_eq_append, List.mem_append, List.mem_singleton] at ha
    rcases ha with ha | ha
    · rw [List.concat_eq_append, List.pairwise_append] at h1
      have hza : lt z a = false := h1.2.2 a ha z (by simp)
      by_contra hav
      have hav : lt a v = false := by simpa using hav
      rw [hswo.neg_trans hza hav] at hz
      exact absurd hz (by simp)
    · rw [ha]; exact hz

/-- A value that no element is ordered before goes to the front. -/
theorem insertFromTail_front {T : Type} (lt : T → T → Bool) (v : T) (xs : List T)
    (h : ∀ b ∈ xs, lt b v = false) : insertFromTail lt v xs = v :: xs := by
  have key : ∀ ys : List T, (∀ b ∈ ys, lt b v = false) → insertRev lt v ys = ys ++ [v] := by
    intro ys
    induction ys with
    | nil => intro _; rfl
    | cons y ys ih =>
      intro hy
      have h1 : lt y v = false := hy y (by simp)
      simp only [insertRev, h1, Bool.false_eq_true, if_false, List.cons_append,
        ih (fun b hb => hy b (List.mem_cons_of_mem _ hb))]
  unfold insertFromTail
  rw [key xs.reverse (fun b hb => h b (by simpa using hb))]
  simp


/-! ## `emplace` against `push`, and the nodes of the ring -/

namespace RingQueue

variable {T : Type}

/-- The scan loop reads only the links `prev`, the sentinel and the elements of
the nodes on its way. -/
theorem scan_congr (lt : T → T → Bool) (v : T) (q q1 : RingQueue T)
    (hd : q1.dummy_ = q.dummy_) (hp : q1.prev = q.prev) :
    ∀ (R : List Nat) (a fuel : Nat), Chain q.prev a R q.dummy_ →
      (∀ p ∈ R, q1.data p = q.data p) →
      scan lt v q1 fuel (q.prev a) = scan lt v q fuel (q.prev a) := by
  intro R
  induction R with
  | nil =>
    intro a fuel hc _
    have hpa : q.prev a = q.dummy_ := hc
    rw [hpa]
    cases fuel with
    | zero => rfl
    | succ fuel => simp only [scan, hd, if_true]
  | cons r R ih =>
    intro a fuel hc hdat
    obtain ⟨hpa, hc1⟩ := hc
    rw [hpa]
    cases fuel with
    | zero => rfl
    | succ fuel =>
      have hr := hdat r (List.mem_cons_self _ _)
      have hrec := ih r fuel hc1 (fun p hp1 => hdat p (List.mem_cons_of_mem _ hp1))
      simp only [scan, hd, hr, hp, hrec]

/-- On a state that satisfies the invariant, `emplace` and `push` of the same element
do the same: they fault together or return the same state. -/
theorem Good.emplace_eq_push {sizeofNode Size : Nat} {q : RingQueue T} {L F : List Nat}
    {xs : List T} (h : Good sizeofNode Size q L F xs) (lt : T → T → Bool) (fuel : Nat) (v : T) :
    q.emplace lt Size fuel v = q.push lt Size fuel v := by
  unfold RingQueue.emplace RingQueue.push
  cases hget : GetNode (allocNum Size) q.alloc_ with
  | none =>
    simp only
    cases scan lt v q fuel (q.prev q.dummy_) <;> rfl
  | some r =>
    obtain ⟨new, a⟩ := r
    simp only
    by_cases hnew : new = nullptr
    · simp only [if_pos hnew]
      cases scan lt v q fuel (q.prev q.dummy_) <;> rfl
    · simp only [if_neg hnew]
      obtain ⟨F1, hi1⟩ := h.inv.getNode h.cap hget hnew
      obtain ⟨-, -, -, -, -, -, -, hLH, -⟩ := (nodup_cells _ _ _ _).1 hi1.nodup
      have hnL : new ∉ L := fun e => hLH new e (by simp)
      have hdata : ({ q with alloc_ := a }._construct new v).data new = some v :=
        store_same _ _ _
      have hsc : scan lt v ({ q with alloc_ := a }._construct new v) fuel (q.prev q.dummy_) =
          scan lt v q fuel (q.prev q.dummy_) := by
        refine scan_congr lt v q ({ q with alloc_ := a }._construct new v) rfl rfl L.reverse
          q.dummy_ fuel (dchain_bwd h.inv.ring) ?_
        intro p hpL
        have hne : p ≠ new := fun e => hnL (by rw [← e]; simpa using hpL)
        exact store_other _ _ hne
      simp only [hdata]
      show (match scan lt v ({ q with alloc_ := a }._construct new v) fuel (q.prev q.dummy_) with
        | none => none
        | some node => some (linkAfter Size ({ q with alloc_ := a }._construct new v) node new)) = _
      rw [hsc]

/-- The tail of `push` and `emplace`, with the nodes of the new live list: when the
queue overflows, the head node of the list with the new node linked in is the one
that is destroyed and released. -/
theorem Inv.linkAfter_nodes {sizeofNode Size : Nat} {q : RingQueue T} {L1 L2 F : List Nat}
    {xs1 xs2 : List T} {new node : Nat} {v : T}
    (h : Inv sizeofNode Size q (L1 ++ L2) F [new] (xs1 ++ xs2))
    (hv : q.data new = some v) (hlen : xs1.length = L1.length)
    (hnode : (L1 = [] ∧ node = q.dummy_) ∨ ∃ L0, L1 = L0 ++ [node])
    (hcap : (L1 ++ L2).length ≤ Size) (hb : (L1 ++ L2).length + 1 < 2 ^ 32) :
    (Size < (xs1 ++ v :: xs2).length →
      ∃ p t, L1 ++ new :: L2 = p :: t ∧
        Good sizeofNode Size (q.linkAfter Size node new) t (F ++ [p]) (xs1 ++ v :: xs2).tail ∧
        (q.linkAfter Size node new).destroyed = p :: q.destroyed) ∧
    (¬ Size < (xs1 ++ v :: xs2).length →
      Good sizeofNode Size (q.linkAfter Size node new) (L1 ++ new :: L2) F (xs1 ++ v :: xs2) ∧
        (q.linkAfter Size node new).destroyed = q.destroyed) := by
  have h3 := Inv.link h hv hlen hnode
  have hl := h3.length_eq
  have hlen3 : (L1 ++ new :: L2).length = (L1 ++ L2).length + 1 := by
    simp only [List.length_append, List.length_cons]; omega
  have hcond : ((Size : Int) < (q.link node new).length_ % 2 ^ 32) ↔
      Size < (xs1 ++ v :: xs2).length := by
    rw [h3.len, hl, hlen3]
    have : ((((L1 ++ L2).length + 1 : Nat) : Int)) % 2 ^ 32 =
        (((L1 ++ L2).length + 1 : Nat) : Int) := by
      apply Int.emod_eq_of_lt
      · exact Int.ofNat_nonneg _
      · exact_mod_cast hb
    rw [this]
    exact Int.ofNat_lt
  unfold RingQueue.linkAfter
  simp only
  constructor
  · intro hc
    rw [if_pos (hcond.2 hc)]
    cases hL : L1 ++ new :: L2 with
    | nil => simp at hL
    | cons p t =>
      cases hX : xs1 ++ v :: xs2 with
      | nil => simp at hX
      | cons x xs3 =>
        rw [hL, hX] at h3
        have e1 : (q.link node new).next (q.link node new).dummy_ = p := h3.ring.1
        refine ⟨p, t, rfl, ⟨Inv.deleteHead h3, ?_⟩, ?_⟩
        · have := congrArg List.length hL
          rw [hlen3] at this
          simp only [List.length_cons] at this
          omega
        · show (q.link node new).next (q.link node new).dummy_ :: q.destroyed = p :: q.destroyed
          rw [e1]
  · intro hc
    rw [if_neg (fun e => hc (hcond.1 e))]
    refine ⟨⟨h3, ?_⟩, rfl⟩
    rw [← hl]
    omega

/-- A call of `push` that returns, with the nodes: the new node is the one `GetNode`
hands out, it is linked at the place the scan finds, and on overflow the head node
is destroyed and released. -/
theorem Good.push_nodes {sizeofNode Size : Nat} {q q1 : RingQueue T} {L F : List Nat}
    {xs : List T} (h : Good sizeofNode Size q L F xs) (hS : Size < 2 ^ 32) (lt : T → T → Bool)
    {fuel : Nat} {v : T} (hp : q.push lt Size fuel v = some q1) :
    ∃ L1 L2 xs1 xs2 new a1, GetNode (allocNum Size) q.alloc_ = some (new, a1) ∧ new ∉ L ∧
      L = L1 ++ L2 ∧ xs = xs1 ++ xs2 ∧ xs1.length = L1.length ∧
      (∀ y, xs1.getLast? = some y → lt y v = true) ∧ (∀ y ∈ xs2, lt y v = false) ∧
      (Size < (xs1 ++ v :: xs2).length →
        ∃ p t F1, L1 ++ new :: L2 = p :: t ∧
          Good sizeofNode Size q1 t F1 (xs1 ++ v :: xs2).tail ∧
          q1.destroyed = p :: q.destroyed) ∧
      (¬ Size < (xs1 ++ v :: xs2).length →
        ∃ F1, Good sizeofNode Size q1 (L1 ++ new :: L2) F1 (xs1 ++ v :: xs2) ∧
          q1.destroyed = q.destroyed) := by
  unfold RingQueue.push at hp
  split at hp
  · exact absurd hp (by simp)
  · rename_i node hscan
    split at hp
    · exact absurd hp (by simp)
    · rename_i new a hget
      split at hp
      · exact absurd hp (by simp)
      · rename_i hnew
        simp only [Option.some.injEq] at hp
        subst hp
        obtain ⟨F1, hi1⟩ := h.inv.getNode h.cap hget hnew
        obtain ⟨-, -, -, -, -, -, -, hLH, -⟩ := (nodup_cells _ _ _ _).1 hi1.nodup
        have hnL : new ∉ L := fun e => hLH new e (by simp)
        obtain ⟨hi2, hdata⟩ := hi1.construct v
        obtain ⟨L1, L2, xs1, xs2, eL, eX, hlen, hnode, -, hge, hlt⟩ := h.inv.scan lt v hscan
        subst eL eX
        obtain ⟨k1, k2⟩ := Inv.linkAfter_nodes hi2 hdata hlen hnode h.cap (h.length_bound hS)
        refine ⟨L1, L2, xs1, xs2, new, a, hget, hnL, rfl, rfl, hlen, hlt, hge, ?_, ?_⟩
        · intro hc
          obtain ⟨p, t, e, hg, hd⟩ := k1 hc
          exact ⟨p, t, _, e, hg, hd⟩
        · intro hc
          obtain ⟨hg, hd⟩ := k2 hc
          exact ⟨_, hg, hd⟩

/-- Back-to-front iteration along a backward chain visits exactly its nodes. -/
theorem walkBack_spec (q : RingQueue T) :
    ∀ (R : List Nat) (a : Nat) (fuel : Nat),
      Chain q.prev a R q.dummy_ → q.dummy_ ∉ R →
      (R.length < fuel → walkBack q fuel (q.prev a) = some R) ∧
      (∀ ps, walkBack q fuel (q.prev a) = some ps → ps = R) := by
  intro R
  induction R with
  | nil =>
    intro a fuel hc _
    have hpa : q.prev a = q.dummy_ := hc
    rw [hpa]
    cases fuel with
    | zero => simp [walkBack]
    | succ fuel => simp [walkBack]
  | cons r R ih =>
    intro a fuel hc hd
    obtain ⟨hpa, hc1⟩ := hc
    have hrd : r ≠ q.dummy_ := fun e => hd (by simp [e])
    have hdR : q.dummy_ ∉ R := fun e => hd (List.mem_cons_of_mem _ e)
    rw [hpa]
    cases fuel with
    | zero => simp [walkBack]
    | succ fuel =>
      obtain ⟨i1, i2⟩ := ih r fuel hc1 hdR
      simp only [walkBack, if_neg hrd, Iterator.dec]
      constructor
      · intro hf
        rw [i1 (by simpa using hf)]
        rfl
      · intro ps hps
        cases hw : walkBack q fuel (q.prev r) with
        | none => rw [hw] at hps; simp at hps
        | some l =>
          rw [hw] at hps
          simp only [Option.map_some', Option.some.injEq] at hps
          rw [← hps, i2 l hw]

end RingQueue

/-- In a ring, `prev` undoes `next` and `next` undoes `prev` at the sentinel and at
every node of the ring. -/
theorem dchain_ring {next prev : Nat → Nat} {d : Nat} {L : List Nat}
    (h : DChain next prev d L d) :
    ∀ n ∈ d :: L, prev (next n) = n ∧ next (prev n) = n := by
  have key : ∀ (L : List Nat) (a b : Nat), DChain next prev a L b →
      (∀ n ∈ a :: L, prev (next n) = n) ∧ (∀ n ∈ L ++ [b], next (prev n) = n) := by
    intro L
    induction L with
    | nil =>
      intro a b hc
      obtain ⟨h1, h2⟩ := hc
      constructor
      · intro n hn
        simp only [List.mem_singleton] at hn
        rw [hn, h1, h2]
      · intro n hn
        simp only [List.nil_append, List.mem_singleton] at hn
        rw [hn, h2, h1]
    | cons x L ih =>
      intro a b hc
      obtain ⟨h1, h2, h3⟩ := hc
      obtain ⟨i1, i2⟩ := ih x b h3
      constructor
      · intro n hn
        rcases List.mem_cons.1 hn with e | e
        · rw [e, h1, h2]
        · exact i1 n e
      · intro n hn
        rcases List.mem_cons.1 hn with e | e
        · rw [e, h2, h1]
        · exact i2 n e
  obtain ⟨k1, k2⟩ := key L d d h
  intro n hn
  refine ⟨k1 n hn, k2 n ?_⟩
  rcases List.mem_cons.1 hn with e | e
  · rw [e]; simp
  · exact List.mem_append_left _ e


/-! ## The scenarios with `Base` -/

theorem Base.lt_strictWeakOrder : StrictWeakOrder Base.lt where
  irrefl := by intro a; simp [Base.lt]
  trans := by
    intro a b c h1 h2
    simp only [Base.lt, decide_eq_true_eq] at h1 h2 ⊢
    exact lt_trans h1 h2
  incomp_trans := by
    intro a b c h1 h2 h3 h4
    simp only [Base.lt, decide_eq_false_iff_not, not_lt] at h1 h2 h3 h4 ⊢
    constructor <;> omega

theorem demoBase_reachable : RingQueue.Reachable 32 10 Base.lt demoBase := by
  have h : (RingQueue.Init 32 10).bind
      (emplaceAll Base.lt 10 11 [⟨3, "nullptr"⟩, ⟨2, "two"⟩]) = some demoBase :=
    (Option.some_get _).symm
  obtain ⟨q0, h0, h1⟩ := Option.bind_eq_some.1 h
  exact RingQueue.Reachable.emplaceAll _ (RingQueue.Reachable.init (by norm_num) h0) h1

theorem demoTie_reachable : RingQueue.Reachable 32 10 Base.lt demoTie := by
  have h : (RingQueue.Init 32 10).bind (pushAll Base.lt 10 11 [⟨1, "a"⟩]) = some demoTie :=
    (Option.some_get _).symm
  obtain ⟨q0, h0, h1⟩ := Option.bind_eq_some.1 h
  exact RingQueue.Reachable.pushAll _ (RingQueue.Reachable.init (by norm_num) h0) h1

theorem demoBaseFull_reachable : RingQueue.Reachable 32 2 Base.lt demoBaseFull := by
  have h : (RingQueue.Init 32 2).bind (pushAll Base.lt 2 3 [⟨1, "a"⟩, ⟨2, "b"⟩]) =
      some demoBaseFull := (Option.some_get _).symm
  obtain ⟨q0, h0, h1⟩ := Option.bind_eq_some.1 h
  exact RingQueue.Reachable.pushAll _ (RingQueue.Reachable.init (by norm_num) h0) h1

theorem demoWrapped_reachable : RingQueue.Reachable 24 4294967295 less demoWrapped := by
  have h : (RingQueue.Init 24 4294967295).bind
      (pushAll less 4294967295 9 [1, 2, 3, 4, 5, 6, 7, 8]) = some demoWrapped :=
    (Option.some_get _).symm
  obtain ⟨q0, h0, h1⟩ := Option.bind_eq_some.1 h
  exact RingQueue.Reachable.pushAll _ (RingQueue.Reachable.init (by norm_num) h0) h1

/-! ## The claims on `emplace`, ties, and the ring -/

/-- C11: in every reachable state, `emplace(args...)` and `push(T(args...))` have the same
effect: the two calls fault together or return the same state; the call returns
whenever `Size + 2` does not wrap around and the fuel exceeds `Size`; and the state it
returns iterates as the list-level `pushList` says, with the whole element stored at
its place and the head evicted on overflow, and has size `min (size() + 1) Size`. -/
theorem emplace_same_as_push {T : Type} {sizeofNode Size : Nat} {lt : T → T → Bool}
    {q : RingQueue T} (h : RingQueue.Reachable sizeofNode Size lt q) (fuel : Nat) (v : T) :
    q.emplace lt Size fuel v = q.push lt Size fuel v ∧
      (Size + 2 < 2 ^ 32 → Size < fuel → ∃ q1, q.emplace lt Size fuel v = some q1) ∧
      ∀ q1, q.emplace lt Size fuel v = some q1 →
        ∃ xs, (∀ f, q.size < f → q.toList f = some xs) ∧
          (∀ f, q1.size < f → q1.toList f = some (pushList lt Size v xs)) ∧
          q1.size = min (q.size + 1) Size := by
  obtain ⟨hS, L, F, xs, hg, -⟩ := h.good_sorted
  have hsz := hg.size_eq hS
  refine ⟨hg.emplace_eq_push lt fuel v, ?_, ?_⟩
  · intro hS2 hf
    exact hg.emplace_total hS2 lt v (lt_of_le_of_lt hg.cap hf)
  · intro q1 hp
    obtain ⟨L1, F1, hg1⟩ := hg.emplace hS lt hp
    have hsz1 := hg1.size_eq hS
    refine ⟨xs, ?_, ?_, ?_⟩
    · intro f hf
      exact (hg.inv.toList f).1 (by rw [← hsz.1]; exact hf)
    · intro f hf
      exact (hg1.inv.toList f).1 (by rw [← hsz1.1]; exact hf)
    · rw [hsz1.2, hsz.2]
      exact pushList_length lt Size v xs (by rw [← hsz.2, hsz.1]; exact hg.cap)

/-- Witness for C11: the test `push_pop` on `RingQueue<Base>`: after `emplace(3)` and
`emplace(2, "two")` the size is 2 and `front()` has key 2 and text "two"; after `pop()`
the size is 1 and `front()` has key 3 and the default text; and on that queue `emplace`
and `push` of a further element agree and return. -/
theorem emplace_same_as_push_witness :
    RingQueue.Reachable 32 10 Base.lt demoBase ∧
      demoBase.size = 2 ∧ demoBase.front = some ⟨2, "two"⟩ ∧
      demoBase.pop.size = 1 ∧ demoBase.pop.front = some ⟨3, "nullptr"⟩ ∧
      demoBase.emplace Base.lt 10 11 ⟨1, "one"⟩ = demoBase.push Base.lt 10 11 ⟨1, "one"⟩ ∧
      ∃ q1, demoBase.emplace Base.lt 10 11 ⟨1, "one"⟩ = some q1 :=
  ⟨demoBase_reachable, by decide, by decide, by decide, by decide,
    (emplace_same_as_push demoBase_reachable 11 ⟨1, "one"⟩).1,
    (emplace_same_as_push demoBase_reachable 11 ⟨1, "one"⟩).2.1 (by norm_num) (by norm_num)⟩

/-- C12 as stated fails: the queue holds `Base(1, "a")` and is below capacity; the pushed
element `Base(1, "b")` is equivalent to the stored one, and it is placed before it, not
after it. -/
theorem tie_goes_first_counterexample :
    RingQueue.Reachable 32 10 Base.lt demoTie ∧ demoTie.size < 10 ∧
      demoTie.toList 11 = some [⟨1, "a"⟩] ∧
      Base.lt ⟨1, "a"⟩ ⟨1, "b"⟩ = false ∧ Base.lt ⟨1, "b"⟩ ⟨1, "a"⟩ = false ∧
      (demoTie.push Base.lt 10 11 ⟨1, "b"⟩).bind (RingQueue.toList 11) =
        some [⟨1, "b"⟩, ⟨1, "a"⟩] :=
  ⟨demoTie_reachable, by decide, by decide, by decide, by decide, by decide⟩

/-- C12, amended: in every reachable state below capacity, with a strict weak ordering
as comparator, `push(v)` (and `emplace` of `v`) returns when `Size + 2` does not wrap
around, and places the new element after all stored elements that are ordered
strictly before `v` and before all stored elements that are equivalent to `v` or
greater: among equivalent elements the most recently pushed one comes first. -/
theorem new_element_before_equivalents {T : Type} {sizeofNode Size : Nat}
    {lt : T → T → Bool} {q : RingQueue T} (hswo : StrictWeakOrder lt)
    (h : RingQueue.Reachable sizeofNode Size lt q) (hsz : q.size < Size) (fuel : Nat) (v : T) :
    (Size + 2 < 2 ^ 32 → q.size < fuel → ∃ q1, q.push lt Size fuel v = some q1) ∧
      ∀ q1, q.push lt Size fuel v = some q1 ∨ q.emplace lt Size fuel v = some q1 →
        ∃ xs1 xs2, (∀ f, q.size < f → q.toList f = some (xs1 ++ xs2)) ∧
          (∀ f, q1.size < f → q1.toList f = some (xs1 ++ v :: xs2)) ∧
          (∀ a ∈ xs1, lt a v = true) ∧ (∀ b ∈ xs2, lt b v = false) := by
  obtain ⟨hS, L, F, xs, hg, hs⟩ := h.good_sorted
  have hsize := hg.size_eq hS
  constructor
  · intro hS2 hf
    exact hg.push_total hS2 lt v (by rw [← hsize.1]; exact hf)
  · intro q1 hp
    have hp1 : q.push lt Size fuel v = some q1 := by
      rcases hp with hp | hp
      · exact hp
      · rw [← hg.emplace_eq_push lt fuel v]; exact hp
    obtain ⟨L1, F1, hg1⟩ := hg.push hS lt hp1
    have hsize1 := hg1.size_eq hS
    obtain ⟨xs1, xs2, e1, e2, e3, e4⟩ := insertFromTail_place hswo v (hs hswo)
    have hpl : pushList lt Size v xs = xs1 ++ v :: xs2 := by
      unfold pushList
      simp only
      rw [if_neg (by rw [insertFromTail_length, ← hsize.2]; omega), e2]
    rw [hpl] at hg1
    refine ⟨xs1, xs2, ?_, ?_, e3, e4⟩
    · intro f hf
      rw [← e1]
      exact (hg.inv.toList f).1 (by rw [← hsize.1]; exact hf)
    · intro f hf
      exact (hg1.inv.toList f).1 (by rw [← hsize1.1]; exact hf)

/-- Witness for C12 (amended): pushing `Base(1, "b")` onto the queue that holds
`Base(1, "a")`. -/
theorem new_element_before_equivalents_witness :
    StrictWeakOrder Base.lt ∧ RingQueue.Reachable 32 10 Base.lt demoTie ∧ demoTie.size < 10 ∧
      (∃ q1, demoTie.push Base.lt 10 11 ⟨1, "b"⟩ = some q1) ∧
      ∀ q1, demoTie.push Base.lt 10 11 ⟨1, "b"⟩ = some q1 ∨
          demoTie.emplace Base.lt 10 11 ⟨1, "b"⟩ = some q1 →
        ∃ xs1 xs2, (∀ f, demoTie.size < f → demoTie.toList f = some (xs1 ++ xs2)) ∧
          (∀ f, q1.size < f → q1.toList f = some (xs1 ++ (⟨1, "b"⟩ : Base) :: xs2)) ∧
          (∀ a ∈ xs1, Base.lt a ⟨1, "b"⟩ = true) ∧ (∀ b ∈ xs2, Base.lt b ⟨1, "b"⟩ = false) :=
  ⟨Base.lt_strictWeakOrder, demoTie_reachable, by decide,
    (new_element_before_equivalents Base.lt_strictWeakOrder demoTie_reachable (by decide) 11
      ⟨1, "b"⟩).1 (by norm_num) (by decide),
    (new_element_before_equivalents Base.lt_strictWeakOrder demoTie_reachable (by decide) 11
      ⟨1, "b"⟩).2⟩


/-- C19: in a reachable state at full capacity whose first element `m` is not ordered
before `v` (in particular when `v` is equivalent to the current minimum), with a
strict weak ordering as comparator, `push(v)` and `emplace` of `v` return when
`Size + 2` does not wrap around, and leave the stored elements unchanged: the ring
consists of the same nodes with the same elements and the size is still `Size`;
the node that is destroyed and released is the new node that `GetNode` handed out
for `v`. -/
theorem newcomer_at_minimum_is_evicted {T : Type} {sizeofNode Size : Nat}
    {lt : T → T → Bool} {q : RingQueue T} (hswo : StrictWeakOrder lt)
    (h : RingQueue.Reachable sizeofNode Size lt q) (hfull : q.size = Size)
    {m v : T} (hfront : q.front = some m) (hmv : lt m v = false) (fuel : Nat) :
    (Size + 2 < 2 ^ 32 → Size < fuel → ∃ q1, q.push lt Size fuel v = some q1) ∧
      ∀ q1, q.push lt Size fuel v = some q1 ∨ q.emplace lt Size fuel v = some q1 →
        ∃ ps xs new a1, GetNode (allocNum Size) q.alloc_ = some (new, a1) ∧ new ∉ ps ∧
          m ∈ xs ∧
          (∀ f, Size < f → q.walk f q.begin = some ps ∧ q1.walk f q1.begin = some ps ∧
            q.toList f = some xs ∧ q1.toList f = some xs) ∧
          q1.destroyed = new :: q.destroyed ∧ q1.size = Size := by
  obtain ⟨hS, L, F, xs, hg, hs⟩ := h.good_sorted
  have hsize := hg.size_eq hS
  constructor
  · intro hS2 hf
    exact hg.push_total hS2 lt v (lt_of_le_of_lt hg.cap hf)
  · intro q1 hp
    have hp1 : q.push lt Size fuel v = some q1 := by
      rcases hp with hp | hp
      · exact hp
      · rw [← hg.emplace_eq_push lt fuel v]; exact hp
    -- the first stored element is `m`, and no stored element is ordered before `v`
    have hmx : ∃ rest, xs = m :: rest := by
      cases hL : L with
      | nil =>
        rw [hL] at hg
        have e : q.next q.dummy_ = q.dummy_ := hg.inv.ring.1
        have hraw := hg.inv.raw q.dummy_ (by simp) (by simp)
        unfold RingQueue.front at hfront
        rw [e, hraw] at hfront
        exact absurd hfront (by simp)
      | cons p t =>
        rw [hL] at hg
        cases hX : xs with
        | nil =>
          rw [hX] at hg
          have := hg.inv.length_eq
          simp at this
        | cons x rest =>
          rw [hX] at hg
          have e : q.next q.dummy_ = p := hg.inv.ring.1
          have hv := hg.inv.vals
          simp only [List.map_cons, List.cons.injEq] at hv
          unfold RingQueue.front at hfront
          rw [e, hv.1] at hfront
          exact ⟨rest, by rw [Option.some.inj hfront]⟩
    obtain ⟨rest, hxs⟩ := hmx
    have hall : ∀ b ∈ xs, lt b v = false := by
      intro b hb
      have hasc := hs hswo
      unfold Ascending at hasc
      rw [hxs] at hasc hb
      rcases List.mem_cons.1 hb with e | e
      · rw [e]; exact hmv
      · exact hswo.neg_trans ((List.pairwise_cons.1 hasc).1 b e) hmv
    obtain ⟨L1, L2, xs1, xs2, new, a1, hget, hnL, eL, eX, hlen, hlast, -, hover, -⟩ :=
      hg.push_nodes hS lt hp1
    have hx1 : xs1 = [] := by
      rcases List.eq_nil_or_concat xs1 with e | ⟨l, z, e⟩
      · exact e
      · exfalso
        have hz : lt z v = true := hlast z (by rw [e]; simp)
        have hzx : z ∈ xs := by rw [eX, e]; simp
        rw [hall z hzx] at hz
        exact absurd hz (by simp)
    have hL1 : L1 = [] := List.length_eq_zero.1 (by rw [← hlen, hx1]; rfl)
    subst hx1 hL1
    simp only [List.nil_append] at eL eX hover
    subst eL eX
    obtain ⟨p, t, F1, e, hg1, hd⟩ := hover (by
      simp only [List.length_cons]
      rw [← hsize.2, hfull]
      exact Nat.lt_succ_self _)
    simp only [List.cons.injEq] at e
    obtain ⟨e1, e2⟩ := e
    subst e1 e2
    simp only [List.tail_cons] at hg1
    have hsize1 := hg1.size_eq hS
    obtain ⟨hdL, -⟩ := (nodup_cells _ _ _ _).1 hg.inv.nodup
    obtain ⟨hdL1, -⟩ := (nodup_cells _ _ _ _).1 hg1.inv.nodup
    refine ⟨L, xs, new, a1, hget, hnL, by rw [hxs]; simp, ?_, hd, by rw [hsize1.2, ← hsize.2, hfull]⟩
    intro f hf
    have hlf : L.length < f := by rw [← hsize.1, hfull]; exact hf
    exact ⟨(RingQueue.walk_spec q L q.dummy_ f (dchain_fwd hg.inv.ring) hdL).1 hlf,
      (RingQueue.walk_spec q1 L q1.dummy_ f (dchain_fwd hg1.inv.ring) hdL1).1 hlf,
      (hg.inv.toList f).1 hlf, (hg1.inv.toList f).1 hlf⟩

/-- Witness for C19: pushing `Base(1, "c")` into the full `RingQueue<Base, 2>` that holds
`Base(1, "a")` and `Base(2, "b")` keeps `Base(1, "a")` with its text. -/
theorem newcomer_at_minimum_is_evicted_witness :
    StrictWeakOrder Base.lt ∧ RingQueue.Reachable 32 2 Base.lt demoBaseFull ∧
      demoBaseFull.size = 2 ∧ demoBaseFull.front = some ⟨1, "a"⟩ ∧
      Base.lt ⟨1, "a"⟩ ⟨1, "c"⟩ = false ∧ Base.lt ⟨1, "c"⟩ ⟨1, "a"⟩ = false ∧
      demoBaseFull.toList 3 = some [⟨1, "a"⟩, ⟨2, "b"⟩] ∧
      (demoBaseFull.push Base.lt 2 3 ⟨1, "c"⟩).bind (RingQueue.toList 3) =
        some [⟨1, "a"⟩, ⟨2, "b"⟩] ∧
      ∃ q1, demoBaseFull.push Base.lt 2 3 ⟨1, "c"⟩ = some q1 :=
  ⟨Base.lt_strictWeakOrder, demoBaseFull_reachable, by decide, by decide, by decide, by decide,
    by decide, by decide,
    (newcomer_at_minimum_is_evicted Base.lt_strictWeakOrder demoBaseFull_reachable
      (by decide) (show demoBaseFull.front = some ⟨1, "a"⟩ by decide)
      (show Base.lt ⟨1, "a"⟩ ⟨1, "c"⟩ = false by decide) 3).1 (by norm_num) (by norm_num)⟩

/-- C20: in every reachable state the live list is a circular doubly linked ring: at
the sentinel and at every live node `n`, `n.next.prev == n` and `n.prev.next == n`, so
that `--` undoes `++` and `++` undoes `--`; and the walk backward from `end()` along
`prev` finishes and visits the nodes, and reads the elements, of the forward walk from
`begin()` in reverse order. -/
theorem ring_is_doubly_linked {T : Type} {sizeofNode Size : Nat} {lt : T → T → Bool}
    {q : RingQueue T} (h : RingQueue.Reachable sizeofNode Size lt q) :
    (∀ n, n = q.dummy_ ∨ q.Live n →
      q.prev (q.next n) = n ∧ q.next (q.prev n) = n ∧
      Iterator.dec q (Iterator.inc q n) = n ∧ Iterator.inc q (Iterator.dec q n) = n) ∧
    ∃ ps xs, ∀ fuel, q.size < fuel →
      q.walk fuel q.begin = some ps ∧
      q.walkBack fuel (Iterator.dec q q.end_) = some ps.reverse ∧
      q.toList fuel = some xs ∧ q.derefAll ps.reverse = some xs.reverse := by
  obtain ⟨hS, L, F, xs, hg, -⟩ := h.good_sorted
  have hsz := hg.size_eq hS
  obtain ⟨hdL, -⟩ := (nodup_cells _ _ _ _).1 hg.inv.nodup
  constructor
  · intro n hn
    have hmem : n ∈ q.dummy_ :: L := by
      rcases hn with e | e
      · rw [e]; exact List.mem_cons_self _ _
      · exact List.mem_cons_of_mem _ ((hg.inv.live_iff n).1 e)
    have := dchain_ring hg.inv.ring n hmem
    exact ⟨this.1, this.2, this.1, this.2⟩
  · refine ⟨L, xs, fun fuel hf => ?_⟩
    have hlf : L.length < fuel := by rw [← hsz.1]; exact hf
    refine ⟨(RingQueue.walk_spec q L q.dummy_ fuel (dchain_fwd hg.inv.ring) hdL).1 hlf,
      (RingQueue.walkBack_spec q L.reverse q.dummy_ fuel (dchain_bwd hg.inv.ring)
        (by simpa using hdL)).1 (by simpa using hlf),
      (hg.inv.toList fuel).1 hlf, ?_⟩
    apply RingQueue.derefAll_spec
    rw [List.map_reverse, List.map_reverse, hg.inv.vals]

/-- Witness for C20: the queue of the test `type_int`, which holds `1, 2, 3`. -/
theorem ring_is_doubly_linked_witness :
    RingQueue.Reachable 24 10 less demoState ∧
      demoState.walkBack 4 (Iterator.dec demoState demoState.end_) =
        (demoState.walk 4 demoState.begin).map List.reverse ∧
      (demoState.walkBack 4 (Iterator.dec demoState demoState.end_)).bind demoState.derefAll =
        some [3, 2, 1] ∧
      Iterator.dec demoState (Iterator.inc demoState demoState.begin) = demoState.begin ∧
      ∀ n, n = demoState.dummy_ ∨ demoState.Live n →
        demoState.prev (demoState.next n) = n ∧ demoState.next (demoState.prev n) = n ∧
        Iterator.dec demoState (Iterator.inc demoState n) = n ∧
        Iterator.inc demoState (Iterator.dec demoState n) = n :=
  ⟨demoState_reachable, by decide, by decide, by decide,
    (ring_is_doubly_linked demoState_reachable).1⟩

/-- When `Size + 2` does not wrap around in `uint32_t`, the allocator of the container
suffices: the constructor returns (its `GetNode` for the sentinel is not null) when
the pool size fits, and in every reachable state the allocator owns at most 2 pools
and the next `GetNode` returns a slot that is not null. -/
theorem allocator_suffices_without_wrap {T : Type} {sizeofNode Size : Nat}
    {lt : T → T → Bool} (hS2 : Size + 2 < 2 ^ 32) :
    (Fits sizeofNode Size → ∃ q : RingQueue T, RingQueue.Init sizeofNode Size = some q) ∧
      ∀ q : RingQueue T, RingQueue.Reachable sizeofNode Size lt q →
        q.alloc_.pool_num_ ≤ 2 ∧
        ∃ p a1, GetNode (allocNum Size) q.alloc_ = some (p, a1) ∧ p ≠ nullptr := by
  refine ⟨fun hfit => RingQueue.Init_total hfit, fun q h => ?_⟩
  obtain ⟨-, L, F, xs, hg, -⟩ := h.good_sorted
  exact ⟨hg.inv.few hS2, hg.getNode_total hS2⟩

/-- C18 fails for `Size = 4294967295`: `Size + 2` wraps around to 1 in `uint32_t`, so
every pool of `alloc_` holds one slot; after eight calls of `push` the queue holds 8
elements and the allocator owns 10 pools, the next `GetNode` returns null, and the
ninth `push` and the ninth `emplace` fault on it. -/
theorem wrapped_capacity_exhausts_allocator :
    RingQueue.Reachable 24 4294967295 less demoWrapped ∧ allocNum 4294967295 = 1 ∧
      demoWrapped.size = 8 ∧ demoWrapped.alloc_.pool_num_ = 10 ∧
      (GetNode (allocNum 4294967295) demoWrapped.alloc_).map Prod.fst = some nullptr ∧
      (demoWrapped.push less 4294967295 9 9).isNone = true ∧
      (demoWrapped.emplace less 4294967295 9 9).isNone = true :=
  ⟨demoWrapped_reachable, by decide, by decide, by decide, by decide, by decide, by decide⟩

end container
